import Mathlib

/-!
Verification development for the max-flow project.

The repository implements three maximum-flow solvers over a shared graph
model: a DFS-based Ford-Fulkerson (`Algorithms/ford_fulkerson.py`), a
capacity-scaling Ford-Fulkerson (`Algorithms/scaling _ford_fulkerson.py`),
and a preflow-push solver on a dense capacity matrix
(`Algorithms/preflow_push.py`).  This file gives a shallow embedding of
those three solvers and proves or refutes the frozen claims about them.

Embedding conventions:
* Python `int` becomes `Int`; Python `float("inf")` used as an initial
  DFS flow limit becomes `(⊤ : WithTop Int)`.
* Python lists indexed by ints become functions `Nat → α`; in-place
  assignment becomes functional override.  Out-of-range reads, which
  raise `IndexError` in Python, are only exercised in-range here.
* `while` loops without a structural bound take an explicit fuel
  argument and return `Option`; `none` models non-termination within
  the given fuel, `some` a normal return.  Python's recursion/loops
  that are structurally bounded are given the matching bound.
-/

/-- Functional override of a `Nat`-indexed store, modelling an in-place
Python list assignment `xs[i] = a`. -/
def upd {α : Type} (f : Nat → α) (i : Nat) (a : α) : Nat → α :=
  fun j => if j = i then a else f j

/-- Functional override of a dictionary keyed by node pairs, modelling
a Python dict assignment `flow[(u, v)] = a`. -/
def upd2 {α : Type} (f : Nat × Nat → α) (p : Nat × Nat) (a : α) :
    Nat × Nat → α :=
  fun q => if q = p then a else f q

/-! ## Ford-Fulkerson (DFS variant), from `Algorithms/ford_fulkerson.py`

`Edge` mirrors the Python residual-edge class: `to` is the neighbor,
`cap` the current residual capacity (`self.capacity`), `rev` the index
of the paired reverse edge inside `res[to]`. -/

structure Edge where
  /-- Python field `to` (a Lean keyword): the neighbor node id. -/
  dst : Nat
  /-- Python field `capacity`: current residual capacity. -/
  cap : Int
  /-- Python field `rev`: index of the reverse edge in `res[dst]`. -/
  rev : Nat
deriving DecidableEq

/-- The residual graph `res`: Python's list-of-lists of `Edge` objects,
embedded as a function from node id to its edge list. -/
abbrev ResGraph := Nat → List Edge

/-- An edge tuple `(u, v, capacity)` of the input edge list. -/
abbrev EdgeTuple := Nat × Nat × Int

/-- Python `addEdge(res, u, v, capacity)`: append a forward edge with the
given capacity to `res[u]` and a backward edge with capacity 0 to
`res[v]`; each stores the partner's index (`len` of the partner's list
before the two appends, exactly as the Python computes it). -/
def addEdge (res : ResGraph) (u v : Nat) (capacity : Int) : ResGraph :=
  let forward : Edge := ⟨v, capacity, (res v).length⟩
  let backward : Edge := ⟨u, 0, (res u).length⟩
  let res1 := upd res u (res u ++ [forward])
  upd res1 v (res1 v ++ [backward])

/-- Python `buildResidualGraph(n, edges)`: fold `addEdge` over the edge
list, starting from `n` empty adjacency lists. -/
def buildResidualGraph (_n : Nat) (edges : List EdgeTuple) : ResGraph :=
  edges.foldl (fun res e => addEdge res e.1 e.2.1 e.2.2) (fun _ => [])

/-- Replace the capacity of `res[u][j]` by adding `d` (no-op when `j` is
out of range, which the solver never does on well-formed runs). -/
def updCap (res : ResGraph) (u j : Nat) (d : Int) : ResGraph :=
  match (res u)[j]? with
  | none => res
  | some e => upd res u ((res u).set j { e with cap := e.cap + d })

/-- The result triple of one DFS call: pushed amount, residual graph,
visited marks. -/
abbrev DfsResult := WithTop Int × ResGraph × (Nat → Bool)

/-- The `for edge in res[u]` loop of `dfs`, iterating by index `j` over
the live list; `k` is the number of remaining iterations, initialised
to `len(res[u])` (which never changes during a solve).  `rec` is the
recursive DFS call at one fuel less, abstracted so the loop is
structurally recursive on `k`. -/
def dfsEdges (rec : Nat → WithTop Int → ResGraph → (Nat → Bool) → Option DfsResult)
    (u : Nat) (flow_limit : WithTop Int) :
    Nat → Nat → ResGraph → (Nat → Bool) → Option DfsResult
  | 0, _, res, visited => some (0, res, visited)
  | k' + 1, j, res, visited =>
    match (res u)[j]? with
    | none => some (0, res, visited)
    | some e =>
      if e.cap ≤ 0 then dfsEdges rec u flow_limit k' (j + 1) res visited
      else if visited e.dst then dfsEdges rec u flow_limit k' (j + 1) res visited
      else
        match rec e.dst (min flow_limit (e.cap : WithTop Int)) res visited with
        | none => none
        | some (pushed, res', visited') =>
          if 0 < pushed then
            -- pushed is finite here: the recursive flow limit was capped
            -- by the finite edge capacity.
            let p : Int := pushed.untop' 0
            -- edge.capacity -= pushed
            let res2 := updCap res' u j (-p)
            -- res[v][edge.rev].capacity += pushed
            let res3 := updCap res2 e.dst e.rev p
            some (pushed, res3, visited')
          else dfsEdges rec u flow_limit k' (j + 1) res' visited'

/-- Python `dfs(u, t, flow_limit, res, visited)`.  The extra `fuel`
bounds the recursion depth (Python relies on the visited-marking
argument; `n + 1` fuel always suffices for graphs on `n` nodes).
Returns the pushed amount together with the updated residual graph and
visited marks, or `none` on fuel exhaustion. -/
def dfs : Nat → Nat → Nat → WithTop Int → ResGraph → (Nat → Bool) →
    Option DfsResult
  | 0, _, _, _, _, _ => none
  | fuel' + 1, u, t, flow_limit, res, visited =>
    if u = t then some (flow_limit, res, visited)
    else
      dfsEdges (fun v lim r w => dfs fuel' v t lim r w) u flow_limit
        ((res u).length) 0 res (upd visited u true)

/-- The `while True` loop of `fordFulkMaxFlow`, with fuel.  Each
iteration runs one DFS from `s` with a fresh visited array and flow
limit `float("inf")`; it stops when the DFS pushes 0. -/
def ffLoop (fuel : Nat) (n s t : Nat) (res : ResGraph)
    (max_flow : WithTop Int) : Option (WithTop Int) :=
  match fuel with
  | 0 => none
  | fuel' + 1 =>
    match dfs (n + 1) s t ⊤ res (fun _ => false) with
    | none => none
    | some (pushed, res', _) =>
      if pushed = 0 then some max_flow
      else ffLoop fuel' n s t res' (max_flow + pushed)

/-- Python `fordFulkMaxFlow(n, edges, s, t)` with explicit outer-loop
fuel.  `none` models failure to terminate within `fuel` iterations. -/
def fordFulkMaxFlow (fuel : Nat) (n : Nat) (edges : List EdgeTuple)
    (s t : Nat) : Option (WithTop Int) :=
  ffLoop fuel n s t (buildResidualGraph n edges) 0

/-! ## Capacity scaling, from `Algorithms/scaling _ford_fulkerson.py`

The Python keeps a flow dictionary `flow[(u, v)]` (a `defaultdict(int)`,
so missing keys read as 0), embedded as a function `Nat × Nat → Int`.
A residual entry `(neighbor, residual_capacity, is_forward)` becomes
`Nat × Int × Bool`. -/

/-- A residual entry of the scaling solver: neighbor, residual capacity,
and the forward/backward marker. -/
abbrev SEntry := Nat × Int × Bool

/-- Python `max_capacity` computation: the largest capacity of any edge
leaving `s` (0 when there is none). -/
def maxCapacityFromSource (edges : List EdgeTuple) (s : Nat) : Int :=
  edges.foldl (fun m e => if e.1 = s then max m e.2.2 else m) 0

/-- Fueled structural floor of the base-2 logarithm (`intLog2 n n`
agrees with `Nat.log2 n`); structural so that it computes by kernel
reduction. -/
def intLog2 : Nat → Nat → Nat
  | 0, _ => 0
  | fuel + 1, n => if 2 ≤ n then intLog2 fuel (n / 2) + 1 else 0

/-- Python `delta = 2 ** int(math.log2(max_capacity))`.  The float
`math.log2` is modelled as the exact integer floor of the base-2
logarithm; the two agree for every capacity small enough that the
IEEE-754 double computation is exact (all capacities appearing in this
repository). -/
def initialDelta (max_capacity : Int) : Nat :=
  2 ^ intLog2 max_capacity.toNat max_capacity.toNat

/-- Python `build_residual_graph(delta_threshold)`: forward entries for
all edges first (in edge order), then backward entries for all edges
(in edge order), each node's list read off from the shared dict. -/
def build_residual_graph (edges : List EdgeTuple) (flow : Nat × Nat → Int)
    (delta_threshold : Int) (x : Nat) : List SEntry :=
  (edges.filterMap fun e =>
    if e.1 = x ∧ e.2.2 - flow (e.1, e.2.1) ≥ delta_threshold then
      some (e.2.1, e.2.2 - flow (e.1, e.2.1), true)
    else none) ++
  (edges.filterMap fun e =>
    if e.2.1 = x ∧ flow (e.1, e.2.1) ≥ delta_threshold then
      some (e.1, flow (e.1, e.2.1), false)
    else none)

/-- The path-reconstruction loop of `bfs_find_path`: walk parent
pointers from `t` back to `s`.  The Python appends to the path and
reverses at the end; consing and not reversing yields the same list.
`none` models fuel exhaustion or a missing parent entry (a `KeyError`
in Python), neither of which occurs on real runs. -/
def reconstructPath (pinfo : Nat → Option (Nat × Bool)) (s : Nat) :
    Nat → Nat → List (Nat × Nat × Bool) → Option (List (Nat × Nat × Bool))
  | 0, _, _ => none
  | fuel + 1, current, path =>
    if current = s then some path
    else
      match pinfo current with
      | none => none
      | some (prev, is_forward) =>
        reconstructPath pinfo s fuel prev ((prev, current, is_forward) :: path)

/-- One BFS neighbor-exploration step over `residual[node]`, updating
visited set, parent-edge info and queue exactly as the Python loop. -/
def bfsExplore (node : Nat) (entries : List SEntry)
    (st : List Nat × (Nat → Option (Nat × Bool)) × List Nat) :
    List Nat × (Nat → Option (Nat × Bool)) × List Nat :=
  entries.foldl
    (fun st en =>
      let (vis, pinfo, queue) := st
      if en.1 ∈ vis then st
      else (en.1 :: vis, upd pinfo en.1 (some (node, en.2.2)), queue ++ [en.1]))
    st

/-- Python `bfs_find_path(residual)`, with fuel for the queue loop and
a separate fuel bound `rfuel` for path reconstruction.  Outer `none` is
fuel exhaustion; `some none` is "no path found"; `some (some p)` is a
reconstructed path in source-to-sink order. -/
def bfs_find_path (residual : Nat → List SEntry) (s t : Nat) (rfuel : Nat) :
    Nat → List Nat → (Nat → Option (Nat × Bool)) → List Nat →
    Option (Option (List (Nat × Nat × Bool)))
  | 0, _, _, _ => none
  | fuel + 1, queue, pinfo, vis =>
    match queue with
    | [] => some none
    | node :: rest =>
      if node = t then
        match reconstructPath pinfo s rfuel t [] with
        | none => none
        | some p => some (some p)
      else
        let st := bfsExplore node (residual node) (vis, pinfo, rest)
        bfs_find_path residual s t rfuel fuel st.2.2 st.2.1 st.1

/-- Python `compute_bottleneck(path, residual)`: for each path edge,
scan `residual[u]` for the first entry with the same neighbor and
direction flag and take the minimum of their capacities (the minimum
starts at `float("inf")`; an absent entry leaves it unchanged). -/
def compute_bottleneck (path : List (Nat × Nat × Bool))
    (residual : Nat → List SEntry) : WithTop Int :=
  path.foldl
    (fun min_cap pe =>
      match (residual pe.1).find? (fun en => en.1 = pe.2.1 ∧ en.2.2 = pe.2.2) with
      | some en => min min_cap (en.2.1 : WithTop Int)
      | none => min_cap)
    ⊤

/-- Python `augment_flow(path, bottleneck)`: increase forward flows and
decrease backward flows along the path. -/
def augment_flow (flow : Nat × Nat → Int) (path : List (Nat × Nat × Bool))
    (bottleneck : Int) : Nat × Nat → Int :=
  path.foldl
    (fun fl pe =>
      if pe.2.2 then upd2 fl (pe.1, pe.2.1) (fl (pe.1, pe.2.1) + bottleneck)
      else upd2 fl (pe.2.1, pe.1) (fl (pe.2.1, pe.1) - bottleneck))
    flow

/-- The inner `while True` loop of a scaling phase: rebuild the
restricted residual graph, find a BFS path, stop if none, otherwise
push the bottleneck and repeat.  BFS fuel `2 * |edges| + 2` always
suffices, since each node enters the queue at most once. -/
def scalingPhaseLoop (edges : List EdgeTuple) (s t : Nat) (delta : Int) :
    Nat → (Nat × Nat → Int) → Option (Nat × Nat → Int)
  | 0, _ => none
  | fuel + 1, flow =>
    let residual := build_residual_graph edges flow delta
    let bf := 2 * edges.length + 2
    match bfs_find_path residual s t bf bf [s] (fun _ => none) [s] with
    | none => none
    | some none => some flow
    | some (some path) =>
      let bottleneck := (compute_bottleneck path residual).untop' 0
      scalingPhaseLoop edges s t delta fuel (augment_flow flow path bottleneck)

/-- The outer phase loop `while delta >= 1`, halving `delta` each
phase.  The Python loop always terminates (it halves `delta`); here it
is fueled by `pfuel` so that it still computes by structural recursion,
and `Nat.log2 delta + 2` fuel always suffices. -/
def scalingPhases (edges : List EdgeTuple) (s t : Nat) (fuel : Nat) :
    Nat → Nat → (Nat × Nat → Int) → Option (Nat × Nat → Int)
  | 0, _, _ => none
  | pfuel + 1, delta, flow =>
    if 1 ≤ delta then
      match scalingPhaseLoop edges s t (delta : Int) fuel flow with
      | none => none
      | some flow' => scalingPhases edges s t fuel pfuel (delta / 2) flow'
    else some flow

/-- Python `max_flow_scaling(n, edges, s, t)` (the parameter `n` is
never used by the Python body).  `fuel` bounds each phase's inner loop;
`none` models non-termination. -/
def max_flow_scaling (fuel : Nat) (n : Nat) (edges : List EdgeTuple)
    (s t : Nat) : Option Int :=
  let _ := n
  let max_capacity := maxCapacityFromSource edges s
  if max_capacity = 0 then some 0
  else
    match scalingPhases edges s t fuel fuel (initialDelta max_capacity) (fun _ => 0) with
    | none => none
    | some flow =>
      some (edges.foldl (fun acc e => if e.1 = s then acc + flow (e.1, e.2.1) else acc) 0)

/-! ## Preflow-push, from `Algorithms/preflow_push.py`

`PreflowPush` keeps the capacity matrix `graph` (a list of lists, read
through `capMat` with Python's in-range access), the flow matrix, the
height and excess labels (all embedded as functions), and the
`active_nodes` FIFO list. -/

/-- Read `graph[u][v]` of the dense capacity matrix. -/
def capMat (graph : List (List Int)) (u v : Nat) : Int :=
  ((graph.getD u []).getD v 0)

/-- The mutable state of a `PreflowPush` instance. -/
structure PP where
  /-- `self.graph`: the immutable capacity matrix. -/
  graph : List (List Int)
  /-- `self.V = len(graph)`. -/
  V : Nat
  /-- `self.flow[u][v]`. -/
  flow : Nat → Nat → Int
  /-- `self.height[u]` (always a nonnegative Python int). -/
  height : Nat → Nat
  /-- `self.excess[u]`. -/
  excess : Nat → Int
  /-- `self.active_nodes`, a FIFO list of node ids. -/
  active_nodes : List Nat

/-- Residual capacity `graph[u][v] - flow[u][v]` of the matrix model. -/
def PP.residual (pp : PP) (u v : Nat) : Int :=
  capMat pp.graph u v - pp.flow u v

/-- Python `push(u, v)`: move `delta = min(excess[u], residual)` units,
updating both flow directions and both excesses. -/
def PP.push (pp : PP) (u v : Nat) : PP :=
  let residual_capacity := pp.residual u v
  let delta := min (pp.excess u) residual_capacity
  let flow1 := fun a b => if a = u ∧ b = v then pp.flow a b + delta else pp.flow a b
  let flow2 := fun a b => if a = v ∧ b = u then flow1 a b - delta else flow1 a b
  let ex1 := upd pp.excess u (pp.excess u - delta)
  let ex2 := upd ex1 v (ex1 v + delta)
  { pp with flow := flow2, excess := ex2 }

/-- Python `relabel(u)`: raise `height[u]` to one more than the lowest
residual neighbor (scanning `v in range(V)`); leave it unchanged when
there is no residual neighbor (`min_height` stays `float("inf")`). -/
def PP.relabel (pp : PP) (u : Nat) : PP :=
  let hs := ((List.range pp.V).filter (fun v => 0 < pp.residual u v)).map pp.height
  match hs with
  | [] => pp
  | h :: rest => { pp with height := upd pp.height u (rest.foldl min h + 1) }

/-- The `for v in range(V)` pass inside `discharge(u)`: push to each
admissible neighbor in order, enqueueing `v` when it newly holds excess
(and is neither source nor sink nor already queued), breaking out as
soon as `excess[u]` hits 0.  Returns the new state and the `pushed`
flag. -/
def dischargePass (u source sink : Nat) : List Nat → PP → Bool → PP × Bool
  | [], pp, pushed => (pp, pushed)
  | v :: vs, pp, pushed =>
    if 0 < pp.residual u v ∧ pp.height u = pp.height v + 1 then
      let pp1 := pp.push u v
      let pp2 :=
        if v ≠ source ∧ v ≠ sink ∧ 0 < pp1.excess v ∧ v ∉ pp1.active_nodes then
          { pp1 with active_nodes := pp1.active_nodes ++ [v] }
        else pp1
      if pp2.excess u = 0 then (pp2, true)
      else dischargePass u source sink vs pp2 true
    else dischargePass u source sink vs pp pushed

/-- Python `discharge(u, source, sink)`: `while excess[u] > 0`, run a
pass over all neighbors; if the pass pushed nothing and excess remains,
relabel.  Fueled; `none` models failure to terminate within `fuel`
iterations of the while loop. -/
def discharge (u source sink : Nat) : Nat → PP → Option PP
  | 0, _ => none
  | fuel + 1, pp =>
    if 0 < pp.excess u then
      let pr := dischargePass u source sink (List.range pp.V) pp false
      let pp' := if ¬ pr.2 ∧ 0 < pr.1.excess u then pr.1.relabel u else pr.1
      discharge u source sink fuel pp'
    else some pp

/-- The saturating initialisation loop of `solve`: for every `v` with
`graph[source][v] > 0`, saturate the edge, adjust both excesses
(note the Python assigns `excess[v] = cap` rather than adding), and
append `v` to the active list unless it is the source or sink. -/
def initFromSource (source sink : Nat) : List Nat → PP → PP
  | [], pp => pp
  | v :: vs, pp =>
    if 0 < capMat pp.graph source v then
      let cap := capMat pp.graph source v
      let flow1 := fun a b => if a = source ∧ b = v then cap else pp.flow a b
      let flow2 := fun a b => if a = v ∧ b = source then -cap else flow1 a b
      let ex1 := upd pp.excess v cap
      let ex2 := upd ex1 source (ex1 source - cap)
      let pp1 := { pp with flow := flow2, excess := ex2 }
      let pp2 :=
        if v ≠ sink ∧ v ≠ source then
          { pp1 with active_nodes := pp1.active_nodes ++ [v] }
        else pp1
      initFromSource source sink vs pp2
    else initFromSource source sink vs pp

/-- The `while self.active_nodes` main loop of `solve`: pop the front
node and discharge it.  Fueled in both the number of pops (`fuel`) and
each discharge's while loop (`dfuel`). -/
def ppMainLoop (source sink : Nat) (dfuel : Nat) : Nat → PP → Option PP
  | 0, pp => if pp.active_nodes = [] then some pp else none
  | fuel + 1, pp =>
    match pp.active_nodes with
    | [] => some pp
    | u :: rest =>
      match discharge u source sink dfuel { pp with active_nodes := rest } with
      | none => none
      | some pp' => ppMainLoop source sink dfuel fuel pp'

/-- Python `PreflowPush(graph).solve(source, sink)`: build the initial
state (`flow`, `excess` zero, `height[source] = V`), saturate the
source's outgoing edges, run the main loop, and report `excess[sink]`.
`none` models failure to terminate within the given fuels. -/
def preflowSolve (fuel dfuel : Nat) (graph : List (List Int))
    (source sink : Nat) : Option Int :=
  let V := graph.length
  let pp0 : PP :=
    { graph := graph, V := V, flow := fun _ _ => 0
      height := upd (fun _ => 0) source V
      excess := fun _ => 0, active_nodes := [] }
  let pp1 := initFromSource source sink (List.range V) pp0
  (ppMainLoop source sink dfuel fuel pp1).map (fun pp => pp.excess sink)

/-- A concrete `PreflowPush` state used to exercise `discharge`: the
state of a 3-node chain `0 → 1 → 2` (capacities 4) right after the
source-saturating initialisation, with node 1 holding 4 units of
excess. -/
def ppDemo : PP :=
  { graph := [[0, 4, 0], [0, 0, 4], [0, 0, 0]], V := 3
    flow := fun a b =>
      if a = 0 ∧ b = 1 then 4 else if a = 1 ∧ b = 0 then -4 else 0
    height := fun a => if a = 0 then 3 else 0
    excess := fun a => if a = 0 then -4 else if a = 1 then 4 else 0
    active_nodes := [] }

/-! ## Pair structure of the Ford-Fulkerson residual graph

`buildResidualGraph` lays out, for the `i`-th edge `(u, v, c)` of the
input list, a forward slot at position `fposIdx i` of `res u` and a
backward slot at position `bposIdx i` of `res v` (right after the
forward one when `u = v`).  The positions are determined by counting
how many earlier edges touch the same node.  `PairedAt` states the
matched-pair invariant of claim C4 for one edge: both slots present,
pointing at each other, capacities nonnegative and summing to `c`
(self-loop slots are never touched by the DFS, so they keep their
initial capacities).  `flowAt` reads the flow pushed through edge `i`
off the backward slot's capacity, and `netOut` is the net outflow of a
node under a flow vector; `cutCap` is the capacity of a source-side
node set `R`, and `IsFlow` says a flow vector is feasible and conserved
at interior nodes. -/

/-- First component (tail node) of the `i`-th edge tuple. -/
def edgeU (edges : List EdgeTuple) (i : Nat) : Nat := (edges.getD i (0, 0, 0)).1

/-- Second component (head node) of the `i`-th edge tuple. -/
def edgeV (edges : List EdgeTuple) (i : Nat) : Nat := (edges.getD i (0, 0, 0)).2.1

/-- Capacity of the `i`-th edge tuple. -/
def edgeC (edges : List EdgeTuple) (i : Nat) : Int := (edges.getD i (0, 0, 0)).2.2

/-- Number of residual slots stored at node `w` after the first `k`
edges have been added by `buildResidualGraph`. -/
def countSlots (edges : List EdgeTuple) (k w : Nat) : Nat :=
  ((edges.take k).countP (fun e => decide (e.1 = w)))
    + ((edges.take k).countP (fun e => decide (e.2.1 = w)))

/-- Index of edge `i`'s forward slot inside `res (edgeU edges i)`. -/
def fposIdx (edges : List EdgeTuple) (i : Nat) : Nat :=
  countSlots edges i (edgeU edges i)

/-- Index of edge `i`'s backward slot inside `res (edgeV edges i)`. -/
def bposIdx (edges : List EdgeTuple) (i : Nat) : Nat :=
  countSlots edges i (edgeV edges i)
    + (if edgeU edges i = edgeV edges i then 1 else 0)

/-- The matched-pair invariant for edge `i`: its two slots exist, point
at each other (`rev` fields), have nonnegative capacities summing to
the original capacity.  A self-loop's slots are never traversed (the
DFS skips edges into visited nodes), so they keep their built contents
verbatim — including the forward `rev` field that the Python build
leaves pointing at the forward slot itself. -/
def PairedAt (edges : List EdgeTuple) (res : ResGraph) (i : Nat) : Prop :=
  if edgeU edges i = edgeV edges i then
    (res (edgeU edges i))[fposIdx edges i]? =
        some ⟨edgeV edges i, edgeC edges i, fposIdx edges i⟩ ∧
    (res (edgeV edges i))[bposIdx edges i]? =
        some ⟨edgeU edges i, 0, fposIdx edges i⟩
  else
    ∃ fc bc : Int,
      (res (edgeU edges i))[fposIdx edges i]? =
          some ⟨edgeV edges i, fc, bposIdx edges i⟩ ∧
      (res (edgeV edges i))[bposIdx edges i]? =
          some ⟨edgeU edges i, bc, fposIdx edges i⟩ ∧
      fc + bc = edgeC edges i ∧ 0 ≤ fc ∧ 0 ≤ bc

/-- The full pair invariant: every node's slot list has exactly the
counted length and every edge's pair satisfies `PairedAt`. -/
def Paired (edges : List EdgeTuple) (res : ResGraph) : Prop :=
  (∀ w, (res w).length = countSlots edges edges.length w) ∧
  (∀ i, i < edges.length → PairedAt edges res i)

/-- The flow currently pushed through edge `i`, read off the backward
slot's capacity (equal to `c - forward.cap` under `Paired`). -/
def flowAt (edges : List EdgeTuple) (res : ResGraph) (i : Nat) : Int :=
  match (res (edgeV edges i))[bposIdx edges i]? with
  | some e => e.cap
  | none => 0

/-- Net outflow of node `w` under the flow vector `f`. -/
def netOut (edges : List EdgeTuple) (f : Nat → Int) (w : Nat) : Int :=
  ∑ i ∈ Finset.range edges.length,
    ((if edgeU edges i = w then f i else 0) - (if edgeV edges i = w then f i else 0))

/-- Capacity of the cut induced by a source-side node set `R`. -/
def cutCap (edges : List EdgeTuple) (R : Nat → Bool) : Int :=
  ∑ i ∈ Finset.range edges.length,
    (if R (edgeU edges i) = true ∧ R (edgeV edges i) = false then edgeC edges i else 0)

/-- `f` is a feasible `s`-`t` flow vector: within capacities and
conserved at every interior node. -/
def IsFlow (n : Nat) (edges : List EdgeTuple) (s t : Nat) (f : Nat → Int) : Prop :=
  (∀ i, i < edges.length → 0 ≤ f i ∧ f i ≤ edgeC edges i) ∧
  (∀ w, w < n → w ≠ s → w ≠ t → netOut edges f w = 0)

/-- Outer-loop fuel that always suffices for `fordFulkMaxFlow` on a
well-formed instance: total capacity plus two. -/
def ffFuel (edges : List EdgeTuple) : Nat :=
  (edges.foldl (fun a e => a + e.2.2.toNat) 0) + 2

/-- Total capacity of the edge list, as an integer; an upper bound for
the value of any feasible flow. -/
def capSumInt (edges : List EdgeTuple) : Int :=
  ∑ i ∈ Finset.range edges.length, edgeC edges i

/-- Exact contents of edge `i`'s two residual slots right after the
build: forward capacity `c`, backward capacity 0, `rev` fields exactly
as the Python computes them (for a self-loop the forward `rev` points
at the forward slot itself). -/
def BuiltAt (edges : List EdgeTuple) (res : ResGraph) (i : Nat) : Prop :=
  (res (edgeU edges i))[fposIdx edges i]? =
      some ⟨edgeV edges i, edgeC edges i,
        if edgeU edges i = edgeV edges i then fposIdx edges i
        else bposIdx edges i⟩ ∧
  (res (edgeV edges i))[bposIdx edges i]? =
      some ⟨edgeU edges i, 0, fposIdx edges i⟩

/-- The residual graph after building only the first `k` edges. -/
def buildPrefix (edges : List EdgeTuple) (k : Nat) : ResGraph :=
  (edges.take k).foldl (fun res e => addEdge res e.1 e.2.1 e.2.2) (fun _ => [])

/-- Every positive-capacity residual edge out of a marked node leads to
a marked node (the DFS's visited set has this property when the search
fails). -/
def ResClosed (res : ResGraph) (vis : Nat → Bool) : Prop :=
  ∀ w, vis w = true → ∀ ed ∈ res w, 0 < ed.cap → vis ed.dst = true

/-- All residual edges point below `n` (true for graphs built from
in-range edge lists, and preserved by pushes). -/
def EdgesBelow (n : Nat) (res : ResGraph) : Prop :=
  ∀ w, ∀ ed ∈ res w, ed.dst < n

/-- Number of unvisited nodes below `n`; the DFS recursion depth is
bounded by one more than this. -/
def unvisCount (n : Nat) (vis : Nat → Bool) : Nat :=
  ((List.range n).filter (fun w => !vis w)).length

/-- What one recursive `dfs` call guarantees: the pair invariant is
preserved; the pushed amount lies in `[0, limit]` (and equals the
limit when called on the sink); residual lists of already-visited
nodes other than the sink are untouched; the visited set only grows
and never gains the sink; the net outflow changes by the pushed
amount at the entry node and sink only; and a failed search leaves
the graph unchanged with every newly visited node closed under
positive residual edges. -/
def DfsSpec (edges : List EdgeTuple) (t u : Nat) (limit : WithTop Int)
    (res : ResGraph) (vis : Nat → Bool)
    (p : WithTop Int) (res' : ResGraph) (vis' : Nat → Bool) : Prop :=
  Paired edges res' ∧
  0 ≤ p ∧ p ≤ limit ∧
  (u = t → p = limit) ∧
  (u ≠ t → p ≠ ⊤) ∧
  (∀ w, vis w = true → w ≠ t → res' w = res w) ∧
  (∀ w, vis w = true → vis' w = true) ∧
  vis' t = vis t ∧
  (u ≠ t → vis' u = true) ∧
  (∀ w, netOut edges (flowAt edges res') w
      = netOut edges (flowAt edges res) w
        + (p.untop' 0) * ((if w = u then 1 else 0) - (if w = t then 1 else 0))) ∧
  (p = 0 → res' = res ∧
    (∀ w, vis' w = true → vis w = false →
      ∀ ed ∈ res w, 0 < ed.cap → vis' ed.dst = true))

/-- What the DFS edge loop guarantees, from loop counter `k` and index
`j` on: like `DfsSpec` but relative to the already-marked node `u`,
and a failed loop additionally certifies that every positive-capacity
edge stored at `u` in the scanned index range leads to a visited
node. -/
def DfsEdgesSpec (edges : List EdgeTuple) (t u : Nat) (limit : WithTop Int)
    (k j : Nat) (res : ResGraph) (vis : Nat → Bool)
    (p : WithTop Int) (res' : ResGraph) (vis' : Nat → Bool) : Prop :=
  Paired edges res' ∧
  0 ≤ p ∧ p ≤ limit ∧
  p ≠ ⊤ ∧
  (∀ w, vis w = true → w ≠ t → w ≠ u → res' w = res w) ∧
  (∀ w, vis w = true → vis' w = true) ∧
  vis' t = vis t ∧
  (∀ w, netOut edges (flowAt edges res') w
      = netOut edges (flowAt edges res) w
        + (p.untop' 0) * ((if w = u then 1 else 0) - (if w = t then 1 else 0))) ∧
  (p = 0 → res' = res ∧
    (∀ j' e, j ≤ j' → j' < j + k → (res u)[j']? = some e → 0 < e.cap →
      vis' e.dst = true) ∧
    (∀ w, vis' w = true → vis w = false →
      ∀ ed ∈ res w, 0 < ed.cap → vis' ed.dst = true))

/-! ## Analysis vocabulary for the preflow-push solver

`PPValid` is the run invariant of `PreflowPush.solve`: a preflow within
capacities, antisymmetric bookkeeping (with the one systematic
exception the Python init creates at a positive self-loop on the
source, whose flow entry is set to `-c` on both reads), excess labels
consistent with the flow matrix and nonnegative away from the source, a
valid height labeling with `height[source] = V` and all heights at most
`2V - 1`, and a well-formed FIFO queue.  `ppM` is the termination
measure: heights can only rise (bounded by `2V` each), and every push
moves one unit-weighted excess down one height level. -/

/-- Total capacity of the matrix, an upper bound for every node's
excess. -/
def capTotal (graph : List (List Int)) : Int :=
  ∑ u ∈ Finset.range graph.length, ∑ v ∈ Finset.range graph.length,
    capMat graph u v

/-- No admissible edge leaves `u`: the condition under which a
discharge pass leaves `pushed = False` and the Python relabels. -/
def NoAdmissible (pp : PP) (u : Nat) : Prop :=
  ∀ v, v < pp.V → ¬(0 < pp.residual u v ∧ pp.height u = pp.height v + 1)

/-- One step along a positive residual edge (both endpoints in
range). -/
def resAdj (pp : PP) (u v : Nat) : Prop :=
  u < pp.V ∧ v < pp.V ∧ 0 < pp.residual u v

/-- `ReachesIn pp k u v`: `v` is reachable from `u` along at most `k`
residual edges. -/
def ReachesIn (pp : PP) : Nat → Nat → Nat → Prop
  | 0, u, v => u = v
  | k + 1, u, v => u = v ∨ ∃ w, resAdj pp u w ∧ ReachesIn pp k w v

/-- The state invariant of a `PreflowPush.solve` run with source `s`
and sink `t`. -/
structure PPValid (s t : Nat) (pp : PP) : Prop where
  hVlen : pp.V = pp.graph.length
  hsV : s < pp.V
  capnn : ∀ u v, 0 ≤ capMat pp.graph u v
  antisym : ∀ u v, u < pp.V → v < pp.V → ¬(u = s ∧ v = s) →
    pp.flow u v = - pp.flow v u
  selfs : pp.flow s s ≤ 0
  capf : ∀ u v, u < pp.V → v < pp.V → pp.flow u v ≤ capMat pp.graph u v
  exdef : ∀ v, v < pp.V → v ≠ s →
    pp.excess v = ∑ w ∈ Finset.range pp.V, pp.flow w v
  exnn : ∀ v, v < pp.V → v ≠ s → 0 ≤ pp.excess v
  hsrc : pp.height s = pp.V
  hvalid : ∀ u v, u < pp.V → v < pp.V → 0 < pp.residual u v →
    pp.height u ≤ pp.height v + 1
  hbound : ∀ u, u < pp.V → pp.height u ≤ 2 * pp.V - 1
  qmem : ∀ u ∈ pp.active_nodes, u < pp.V ∧ u ≠ s ∧ u ≠ t ∧ 0 < pp.excess u
  qnodup : pp.active_nodes.Nodup

/-- Excess-weighted height potential: every push strictly decreases
it. -/
def ppPhi (pp : PP) : Nat :=
  ∑ v ∈ Finset.range pp.V, (pp.excess v).toNat * pp.height v

/-- Remaining headroom of the height labels: every relabel strictly
decreases it. -/
def ppH (pp : PP) : Nat :=
  ∑ u ∈ Finset.range pp.V, (2 * pp.V - pp.height u)

/-- The combined termination measure of a `PreflowPush.solve` run:
strictly decreases at every push and at every relabel. -/
def ppM (pp : PP) : Nat :=
  ppH pp * ((capTotal pp.graph).toNat + 1) + ppPhi pp

/-- The support invariant for a disconnected sink: `R` is a
capacity-closed node set containing the source; all flow stays inside
`R × R` and every node outside `R` (except the source) holds no
excess. -/
def PPSupp (s : Nat) (R : Nat → Bool) (pp : PP) : Prop :=
  (∀ u v, u < pp.V → v < pp.V → ¬(R u = true ∧ R v = true) →
    pp.flow u v = 0) ∧
  (∀ v, v < pp.V → v ≠ s → R v = false → pp.excess v ≤ 0)

/-- The flow matrix after the saturating initialisation of `solve` has
processed the nodes of `P`: source edges to processed positive-capacity
neighbors are saturated (with the anomalous `-c` on both reads that the
Python assignment order produces at a positive source self-loop). -/
def initFlow (graph : List (List Int)) (s : Nat) (P : List Nat)
    (a b : Nat) : Int :=
  if a = s ∧ b ≠ s ∧ b ∈ P ∧ 0 < capMat graph s b then capMat graph s b
  else if b = s ∧ a ≠ s ∧ a ∈ P ∧ 0 < capMat graph s a then
    -(capMat graph s a)
  else if a = s ∧ b = s ∧ s ∈ P ∧ 0 < capMat graph s s then
    -(capMat graph s s)
  else 0

/-- The mid-initialisation state description: after the init loop of
`solve` has processed exactly the nodes of `P`. -/
def InitMid (graph : List (List Int)) (s t : Nat) (P : List Nat)
    (pp : PP) : Prop :=
  pp.graph = graph ∧
  pp.V = graph.length ∧
  pp.height = upd (fun _ => 0) s graph.length ∧
  (∀ a b, pp.flow a b = initFlow graph s P a b) ∧
  (∀ v, v ≠ s → pp.excess v =
    if v ∈ P ∧ 0 < capMat graph s v then capMat graph s v else 0) ∧
  pp.active_nodes
    = P.filter (fun v => v ≠ s ∧ v ≠ t ∧ 0 < capMat graph s v)

/-! ## Theorems

From here on, only theorems: basic lemmas about the embedding, sanity
evaluations of the three solvers on the repository's own test
instances, and the claim theorems. -/

@[simp] theorem upd_same {α : Type} (f : Nat → α) (i : Nat) (a : α) :
    upd f i a i = a := by simp [upd]

@[simp] theorem upd_other {α : Type} (f : Nat → α) (i j : Nat) (a : α)
    (h : j ≠ i) : upd f i a j = f j := by simp [upd, h]

@[simp] theorem upd2_same {α : Type} (f : Nat × Nat → α) (p : Nat × Nat)
    (a : α) : upd2 f p a p = a := by simp [upd2]

@[simp] theorem upd2_other {α : Type} (f : Nat × Nat → α) (p q : Nat × Nat)
    (a : α) (h : q ≠ p) : upd2 f p a q = f q := by simp [upd2, h]

theorem mem_of_getElemOpt {α : Type} {l : List α} {i : Nat} {a : α}
    (h : l[i]? = some a) : a ∈ l := by
  obtain ⟨hlt, rfl⟩ := List.getElem?_eq_some_iff.mp h
  exact List.getElem_mem hlt

example : fordFulkMaxFlow 9 6
    [(0, 1, 16), (0, 2, 13), (1, 2, 10), (1, 3, 12), (2, 1, 4),
     (2, 4, 14), (3, 2, 9), (3, 5, 20), (4, 3, 7), (4, 5, 4)] 0 5
    = some 23 := by decide

example : max_flow_scaling 20 4
    [(0, 1, 10), (0, 2, 5), (1, 3, 10), (1, 2, 5), (2, 3, 20)] 0 3
    = some 15 := by decide

example : max_flow_scaling 20 4 [(0, 1, 100), (1, 2, 1), (2, 3, 100)] 0 3
    = some 1 := by decide

example : max_flow_scaling 20 4 [(0, 1, 10), (2, 3, 10)] 0 3
    = some 0 := by decide

example : preflowSolve 40 40
    [[0, 16, 13, 0, 0, 0],
     [0, 0, 10, 12, 0, 0],
     [0, 4, 0, 0, 14, 0],
     [0, 0, 9, 0, 0, 20],
     [0, 0, 0, 7, 0, 4],
     [0, 0, 0, 0, 0, 0]] 0 5 = some 23 := by decide

example : preflowSolve 10 10
    [[0, 10, 0, 0], [0, 0, 0, 0], [0, 0, 0, 10], [0, 0, 0, 0]] 0 3
    = some 0 := by decide

/-! ### C1 and C7: parallel edges break the scaling solver

`max_flow_scaling` stores flow in a dictionary keyed by the `(u, v)`
node pair, so two parallel edges share one flow entry, and the final
sum over edges leaving the source counts that shared entry once per
parallel edge. -/

/-- **C1**: the claim asserts that the three solvers agree on every
well-formed instance.  They do not: on the two-node instance with the
parallel edges `(0,1,3)` and `(0,1,4)` (a well-formed instance),
`fordFulkMaxFlow` returns the correct multigraph maximum flow 7 while
`max_flow_scaling` returns 8, because its flow dictionary conflates the
two parallel edges.  This theorem evaluates both solvers at that
failing input. -/
theorem c1_solvers_disagree :
    fordFulkMaxFlow 5 2 [(0, 1, 3), (0, 1, 4)] 0 1 = some 7 ∧
    max_flow_scaling 20 2 [(0, 1, 3), (0, 1, 4)] 0 1 = some 8 :=
  ⟨by decide, by decide⟩

/-- **C7**: the claim asserts that every solver treats parallel edges
as independent capacities (expected flow 7 on edges `(s,t,3)` and
`(s,t,4)`) and self-loops as contributing no flow.  `fordFulkMaxFlow`
does (it returns 7, and ignores a self-loop); `max_flow_scaling`
does not: it returns 8 on the parallel-edge instance.  (Self-loops
alone are tolerated by both.) -/
theorem c7_parallel_edges_self_loops :
    max_flow_scaling 20 2 [(0, 1, 3), (0, 1, 4)] 0 1 = some 8 ∧
    (8 : Int) ≠ 7 ∧
    fordFulkMaxFlow 5 2 [(0, 1, 3), (0, 1, 4)] 0 1 = some 7 ∧
    fordFulkMaxFlow 5 2 [(0, 0, 5), (0, 1, 3)] 0 1 = some 3 ∧
    max_flow_scaling 20 2 [(0, 0, 5), (0, 1, 3)] 0 1 = some 3 :=
  ⟨by decide, by decide, by decide, by decide, by decide⟩

/-! ### C8: `source == sink` is not rejected -/

/-- With `u = t`, the DFS returns its flow limit immediately, so when
`s = t` every iteration of the Ford-Fulkerson loop pushes `⊤` and the
loop never breaks: the fueled embedding never returns a value. -/
theorem ffLoop_self_none (n s : Nat) :
    ∀ fuel res acc, ffLoop fuel n s s res acc = none := by
  intro fuel
  induction fuel with
  | zero => intro res acc; rfl
  | succ fuel ih =>
    intro res acc
    simp only [ffLoop, dfs, if_true]
    have htop : ¬ ((⊤ : WithTop Int) = 0) := by decide
    rw [if_neg htop]
    exact ih _ _

/-- With `s = t`, `bfs_find_path` immediately pops the source, sees the
sink and reconstructs the empty path, so each inner iteration of a
scaling phase finds the empty path, pushes an infinite "bottleneck"
along no edges, and leaves the flow unchanged: the phase loop never
returns. -/
theorem scalingPhaseLoop_self_none (edges : List EdgeTuple) (s : Nat)
    (delta : Int) : ∀ fuel flow, scalingPhaseLoop edges s s delta fuel flow = none := by
  intro fuel
  induction fuel with
  | zero => intro flow; rfl
  | succ fuel ih =>
    intro flow
    have h2 : 2 * edges.length + 2 = (2 * edges.length + 1) + 1 := rfl
    simp only [scalingPhaseLoop, h2, bfs_find_path, eq_self_iff_true, if_true,
      reconstructPath, compute_bottleneck, augment_flow, List.foldl_nil]
    exact ih flow

/-- The initial scaling threshold is a positive power of two. -/
theorem initialDelta_pos (m : Int) : 1 ≤ initialDelta m :=
  Nat.one_le_two_pow

/-- The outer phase loop diverges as soon as one phase does; with
`s = t` and at least one phase (`delta ≥ 1`) that is immediate. -/
theorem scalingPhases_self_none (edges : List EdgeTuple) (s : Nat) (fuel : Nat) :
    ∀ pfuel delta flow, 1 ≤ delta →
      scalingPhases edges s s fuel pfuel delta flow = none := by
  intro pfuel delta flow hdelta
  cases pfuel with
  | zero => rfl
  | succ pfuel =>
    simp only [scalingPhases, if_pos hdelta, scalingPhaseLoop_self_none]

/-- **C8 counterexample**: the claim says each solver rejects
`source == sink` with an error rather than returning a value.  At the
explicit input `source = sink = 0`, `max_flow_scaling` (2 nodes, no
edges) and `PreflowPush.solve` (capacity matrix `[[0,5],[0,0]]`) both
return the value 0 normally — no rejection happens. -/
theorem c8_counterexample :
    max_flow_scaling 1 2 [] 0 0 = some 0 ∧
    preflowSolve 10 10 [[0, 5], [0, 0]] 0 0 = some 0 :=
  ⟨by decide, by decide⟩

/-- **C8 (amended)**: no solver rejects `source == sink`.  Instead:
`fordFulkMaxFlow` never terminates (every DFS immediately returns an
infinite push, so the fueled embedding yields `none` for every fuel);
`max_flow_scaling` never terminates when a positive-capacity edge
leaves the source (every BFS finds the empty path and augments
nothing), and silently returns 0 when none does; `PreflowPush.solve`
silently returns `excess[sink]` (0 on the 2-node example). -/
theorem c8_source_eq_sink_not_rejected :
    (∀ fuel n edges s, fordFulkMaxFlow fuel n edges s s = none) ∧
    (∀ fuel n (edges : List EdgeTuple) s, maxCapacityFromSource edges s ≠ 0 →
      max_flow_scaling fuel n edges s s = none) ∧
    (∀ fuel n (edges : List EdgeTuple) s, maxCapacityFromSource edges s = 0 →
      max_flow_scaling fuel n edges s s = some 0) ∧
    preflowSolve 10 10 [[0, 5], [0, 0]] 0 0 = some 0 := by
  refine ⟨?_, ?_, ?_, by decide⟩
  · intro fuel n edges s
    exact ffLoop_self_none n s fuel _ _
  · intro fuel n edges s hmc
    simp only [max_flow_scaling, if_neg hmc]
    rw [scalingPhases_self_none edges s fuel fuel _ _
      (initialDelta_pos _)]
  · intro fuel n edges s hmc
    simp only [max_flow_scaling, if_pos hmc]

/-- **C8 witness**: the amended statement applied at concrete inputs
with its hypotheses discharged. -/
theorem c8_witness :
    fordFulkMaxFlow 3 2 [(0, 1, 5)] 0 0 = none ∧
    max_flow_scaling 7 2 [(0, 1, 5)] 0 0 = none ∧
    max_flow_scaling 7 2 [] 0 0 = some 0 := by
  obtain ⟨h1, h2, h3, _⟩ := c8_source_eq_sink_not_rejected
  exact ⟨h1 3 2 [(0, 1, 5)] 0, h2 7 2 [(0, 1, 5)] 0 (by decide),
    h3 7 2 [] 0 (by decide)⟩

/-! ### C9: no edge leaving the source -/

/-- `addEdge` keeps every capacity stored at `s` nonpositive, provided
the added edge has nonpositive capacity whenever it leaves `s`
(backward edges always start at capacity 0). -/
theorem addEdge_source_nonpos (res : ResGraph) (u v : Nat) (c : Int) (s : Nat)
    (hres : ∀ ed ∈ res s, ed.cap ≤ 0) (hc : u = s → c ≤ 0) :
    ∀ ed ∈ addEdge res u v c s, ed.cap ≤ 0 := by
  intro ed hed
  simp only [addEdge, upd] at hed
  by_cases h1 : s = v
  · rw [if_pos h1] at hed
    by_cases h2 : v = u
    · rw [if_pos h2] at hed
      simp only [List.mem_append, List.mem_singleton] at hed
      rcases hed with (hed | rfl) | rfl
      · exact hres ed (by rw [h1.trans h2]; exact hed)
      · exact hc (h1.trans h2).symm
      · exact le_refl 0
    · rw [if_neg h2] at hed
      simp only [List.mem_append, List.mem_singleton] at hed
      rcases hed with hed | rfl
      · exact hres ed (by rw [h1]; exact hed)
      · exact le_refl 0
  · rw [if_neg h1] at hed
    by_cases h3 : s = u
    · rw [if_pos h3] at hed
      simp only [List.mem_append, List.mem_singleton] at hed
      rcases hed with hed | rfl
      · exact hres ed (by rw [h3]; exact hed)
      · exact hc h3.symm
    · rw [if_neg h3] at hed
      exact hres ed hed

/-- Folding `addEdge` over an edge list whose source-leaving capacities
are all nonpositive keeps every capacity stored at `s` nonpositive. -/
theorem foldl_addEdge_source_nonpos (s : Nat) :
    ∀ (edges : List EdgeTuple) (res : ResGraph),
      (∀ e ∈ edges, e.1 = s → e.2.2 ≤ 0) →
      (∀ ed ∈ res s, ed.cap ≤ 0) →
      ∀ ed ∈ (edges.foldl (fun r e => addEdge r e.1 e.2.1 e.2.2) res) s,
        ed.cap ≤ 0 := by
  intro edges
  induction edges with
  | nil => intro res _ hres; simpa using hres
  | cons e es ih =>
    intro res h hres
    simp only [List.foldl_cons]
    exact ih _ (fun e' he' => h e' (List.mem_cons_of_mem _ he'))
      (addEdge_source_nonpos res e.1 e.2.1 e.2.2 s hres (h e (List.mem_cons_self _ _)))

/-- When every capacity stored at `u` is nonpositive, the DFS edge loop
skips every edge and reports a push of 0 without touching the state. -/
theorem dfsEdges_source_nonpos
    (rec : Nat → WithTop Int → ResGraph → (Nat → Bool) → Option DfsResult)
    (u : Nat) (lim : WithTop Int) :
    ∀ (k j : Nat) (res : ResGraph) (vis : Nat → Bool),
      (∀ ed ∈ res u, ed.cap ≤ 0) →
      dfsEdges rec u lim k j res vis = some (0, res, vis) := by
  intro k
  induction k with
  | zero => intro j res vis _; rfl
  | succ k ih =>
    intro j res vis h
    cases hg : (res u)[j]? with
    | none => simp [dfsEdges, hg]
    | some e =>
      have hcap : e.cap ≤ 0 := h e (mem_of_getElemOpt hg)
      simp only [dfsEdges, hg, if_pos hcap]
      exact ih (j + 1) res vis h

/-- A DFS from `s ≠ t` finds no path when every capacity stored at `s`
is nonpositive: it returns 0 and only marks `s` visited. -/
theorem dfs_source_nonpos (fuel s t : Nat) (res : ResGraph) (vis : Nat → Bool)
    (hst : s ≠ t) (h : ∀ ed ∈ res s, ed.cap ≤ 0) :
    dfs (fuel + 1) s t ⊤ res vis = some (0, res, upd vis s true) := by
  simp only [dfs, if_neg hst]
  exact dfsEdges_source_nonpos _ s ⊤ _ 0 res _ h

/-- The Ford-Fulkerson loop stops immediately (returning its
accumulator) when every capacity stored at `s` is nonpositive. -/
theorem ffLoop_source_nonpos (fuel n s t : Nat) (res : ResGraph)
    (acc : WithTop Int) (hst : s ≠ t) (h : ∀ ed ∈ res s, ed.cap ≤ 0) :
    ffLoop (fuel + 1) n s t res acc = some acc := by
  simp only [ffLoop]
  rw [dfs_source_nonpos n s t res _ hst h]
  simp

/-- The scaling solver's `max_capacity` scan returns 0 when every edge
leaving `s` has nonpositive capacity. -/
theorem maxCapacityFromSource_eq_zero :
    ∀ (edges : List EdgeTuple) (s : Nat),
      (∀ e ∈ edges, e.1 = s → e.2.2 ≤ 0) →
      maxCapacityFromSource edges s = 0 := by
  intro edges
  induction edges with
  | nil => intro s _; rfl
  | cons e es ih =>
    intro s h
    simp only [maxCapacityFromSource, List.foldl_cons]
    have h0 : (if e.1 = s then max 0 e.2.2 else 0) = 0 := by
      split_ifs with he
      · exact max_eq_left (h e (List.mem_cons_self _ _) he)
      · rfl
    rw [h0]
    exact ih s (fun e' he' => h e' (List.mem_cons_of_mem _ he'))

/-- The source-saturating initialisation is a no-op when the source's
matrix row is nonpositive. -/
theorem initFromSource_no_op (source sink : Nat) :
    ∀ (vs : List Nat) (pp : PP),
      (∀ v ∈ vs, capMat pp.graph source v ≤ 0) →
      initFromSource source sink vs pp = pp := by
  intro vs
  induction vs with
  | nil => intro pp _; rfl
  | cons v vs ih =>
    intro pp h
    have hv : ¬ 0 < capMat pp.graph source v :=
      not_lt.mpr (h v (List.mem_cons_self _ _))
    simp only [initFromSource, if_neg hv]
    exact ih pp (fun w hw => h w (List.mem_cons_of_mem _ hw))

/-- The main preflow loop returns its state unchanged when the active
list is empty. -/
theorem ppMainLoop_empty (source sink dfuel : Nat) (pp : PP)
    (h : pp.active_nodes = []) :
    ∀ fuel, ppMainLoop source sink dfuel fuel pp = some pp := by
  intro fuel
  cases fuel with
  | zero => simp [ppMainLoop, h]
  | succ fuel => simp [ppMainLoop, h]

/-- **C9**: on a well-formed instance in which no edge leaves the
source (or every edge leaving the source has capacity ≤ 0; for the
preflow matrix, the source's row is nonpositive), all three solvers
return 0 normally — no error and no divergence: one outer iteration
suffices for `fordFulkMaxFlow`, `max_flow_scaling` returns 0 for every
fuel, and `PreflowPush.solve` returns 0 for every pair of fuels. -/
theorem c9_no_source_edges (n : Nat) (edges : List EdgeTuple) (s t : Nat)
    (graph : List (List Int)) (hst : s ≠ t)
    (hedges : ∀ e ∈ edges, e.1 = s → e.2.2 ≤ 0)
    (hmat : ∀ v < graph.length, capMat graph s v ≤ 0) :
    (∀ fuel, fordFulkMaxFlow (fuel + 1) n edges s t = some 0) ∧
    (∀ fuel, max_flow_scaling fuel n edges s t = some 0) ∧
    (∀ fuel dfuel, preflowSolve fuel dfuel graph s t = some 0) := by
  refine ⟨?_, ?_, ?_⟩
  · intro fuel
    exact ffLoop_source_nonpos fuel n s t _ 0 hst
      (foldl_addEdge_source_nonpos s edges _ hedges (by simp))
  · intro fuel
    simp only [max_flow_scaling,
      if_pos (maxCapacityFromSource_eq_zero edges s hedges)]
  · intro fuel dfuel
    simp only [preflowSolve]
    rw [initFromSource_no_op s t (List.range graph.length)]
    · rw [ppMainLoop_empty s t dfuel _ rfl]
      rfl
    · intro v hv
      exact hmat v (List.mem_range.mp hv)

/-- **C9 witness**: the claim applied to a concrete instance — 2 nodes,
one edge into the source only, and the matching capacity matrix. -/
theorem c9_witness :
    fordFulkMaxFlow 1 2 [(1, 0, 5)] 0 1 = some 0 ∧
    max_flow_scaling 3 2 [(1, 0, 5)] 0 1 = some 0 ∧
    preflowSolve 4 4 [[0, 0], [5, 0]] 0 1 = some 0 := by
  obtain ⟨h1, h2, h3⟩ := c9_no_source_edges 2 [(1, 0, 5)] 0 1 [[0, 0], [5, 0]]
    (by decide) (by decide) (by decide)
  exact ⟨h1 0, h2 3, h3 4 4⟩

/-! ### C10: discharge drains its node completely -/

/-- A push from `u` to a different node `v` lowers `excess[u]` by
exactly `min(excess[u], residual)`. -/
theorem push_excess_self (pp : PP) (u v : Nat) (huv : u ≠ v) :
    (pp.push u v).excess u
      = pp.excess u - min (pp.excess u) (pp.residual u v) := by
  simp [PP.push, upd, huv, Ne.symm huv]

/-- Relabelling changes only heights, never excess. -/
theorem relabel_excess (pp : PP) (u : Nat) :
    (pp.relabel u).excess = pp.excess := by
  rw [PP.relabel]
  split <;> rfl

/-- Appending to the active list (conditionally) never changes
excess. -/
theorem excess_enqueue (c : Prop) [Decidable c] (pp1 : PP) (l : List Nat)
    (u : Nat) :
    (if c then { pp1 with active_nodes := l } else pp1).excess u
      = pp1.excess u := by
  split <;> rfl

/-- The inner discharge pass never drives `excess[u]` negative: each
push removes at most the current excess. -/
theorem dischargePass_excess_nonneg (u source sink : Nat) :
    ∀ (vs : List Nat) (pp : PP) (pushed : Bool),
      0 ≤ pp.excess u →
      0 ≤ (dischargePass u source sink vs pp pushed).1.excess u := by
  intro vs
  induction vs with
  | nil => intro pp pushed h; exact h
  | cons v vs ih =>
    intro pp pushed h
    by_cases hcond : 0 < pp.residual u v ∧ pp.height u = pp.height v + 1
    · have huv : u ≠ v := by
        intro he
        have h2 := hcond.2
        rw [he] at h2
        omega
      have h1 : 0 ≤ (pp.push u v).excess u := by
        rw [push_excess_self pp u v huv]
        have := min_le_left (pp.excess u) (pp.residual u v)
        omega
      simp only [dischargePass, if_pos hcond]
      rw [excess_enqueue]
      by_cases hz : (pp.push u v).excess u = 0
      · simp [excess_enqueue, hz]
      · rw [if_neg hz]
        refine ih _ true ?_
        rw [excess_enqueue]
        exact h1
    · simp only [dischargePass, if_neg hcond]
      exact ih pp pushed h

/-- **C10**: whenever `discharge(u, source, sink)` returns (here:
within its fuel), `excess[u]` is exactly 0: the while loop only exits
once `excess[u] ≤ 0`, and pushes from `u` remove at most the current
excess, so the excess of a node entering with `excess ≥ 0` can never go
negative.  Consequently a node popped by `solve`'s main loop is fully
drained before the next pop, and the loop never needs to re-enqueue
the node it just discharged. -/
theorem c10_discharge_drains (u source sink : Nat) (fuel : Nat)
    (pp pp' : PP) (hex : 0 ≤ pp.excess u)
    (hrun : discharge u source sink fuel pp = some pp') :
    pp'.excess u = 0 := by
  induction fuel generalizing pp with
  | zero => exact absurd hrun (by simp [discharge])
  | succ fuel ih =>
    rw [discharge] at hrun
    by_cases hpos : 0 < pp.excess u
    · rw [if_pos hpos] at hrun
      refine ih _ ?_ hrun
      have hpass : 0 ≤ (dischargePass u source sink (List.range pp.V) pp false).1.excess u :=
        dischargePass_excess_nonneg u source sink _ pp false hex
      split_ifs with hrel
      · rw [relabel_excess]
        exact hpass
      · exact hpass
    · rw [if_neg hpos] at hrun
      cases hrun
      omega

/-- **C10 witness**: discharging node 1 of the concrete state `ppDemo`
(3-node chain, node 1 holding 4 units) returns a state whose node-1
excess is 0. -/
theorem c10_witness :
    0 ≤ ppDemo.excess 1 ∧
    (discharge 1 0 2 3 ppDemo).map (fun pp => pp.excess 1) = some 0 := by
  refine ⟨by decide, ?_⟩
  cases hE : discharge 1 0 2 3 ppDemo with
  | none =>
    have hfalse : (discharge 1 0 2 3 ppDemo).isNone = false := by decide
    rw [hE] at hfalse
    exact absurd hfalse (by decide)
  | some pp' =>
    show some (pp'.excess 1) = some 0
    exact congrArg some (c10_discharge_drains 1 0 2 3 ppDemo pp' (by decide) hE)

/-! ### Slot-position arithmetic -/

theorem edgeU_eq {edges : List EdgeTuple} {k : Nat} (hk : k < edges.length) :
    edgeU edges k = (edges[k]).1 := by
  simp [edgeU, List.getD_eq_getElem?_getD, List.getElem?_eq_getElem hk]

theorem edgeV_eq {edges : List EdgeTuple} {k : Nat} (hk : k < edges.length) :
    edgeV edges k = (edges[k]).2.1 := by
  simp [edgeV, List.getD_eq_getElem?_getD, List.getElem?_eq_getElem hk]

theorem edgeC_eq {edges : List EdgeTuple} {k : Nat} (hk : k < edges.length) :
    edgeC edges k = (edges[k]).2.2 := by
  simp [edgeC, List.getD_eq_getElem?_getD, List.getElem?_eq_getElem hk]

theorem countSlots_succ (edges : List EdgeTuple) (k w : Nat)
    (hk : k < edges.length) :
    countSlots edges (k + 1) w
      = countSlots edges k w + (if edgeU edges k = w then 1 else 0)
          + (if edgeV edges k = w then 1 else 0) := by
  unfold countSlots
  rw [List.take_succ, List.getElem?_eq_getElem hk]
  rw [edgeU_eq hk, edgeV_eq hk]
  simp only [Option.toList_some, List.countP_append, List.countP_cons,
    List.countP_nil, decide_eq_true_eq]
  omega

theorem countSlots_le_succ (edges : List EdgeTuple) (k w : Nat) :
    countSlots edges k w ≤ countSlots edges (k + 1) w := by
  by_cases hk : k < edges.length
  · rw [countSlots_succ edges k w hk]; omega
  · unfold countSlots
    rw [List.take_succ, List.getElem?_eq_none (le_of_not_lt hk)]
    simp

theorem countSlots_mono (edges : List EdgeTuple) {k k' : Nat} (h : k ≤ k')
    (w : Nat) : countSlots edges k w ≤ countSlots edges k' w := by
  induction h with
  | refl => exact le_refl _
  | step h ih => exact le_trans ih (countSlots_le_succ _ _ _)

theorem fpos_lt_succ {edges : List EdgeTuple} {i : Nat} (hi : i < edges.length) :
    fposIdx edges i < countSlots edges (i + 1) (edgeU edges i) := by
  rw [countSlots_succ edges i _ hi]
  have h1 : (if edgeU edges i = edgeU edges i then 1 else 0) = 1 := if_pos rfl
  rw [h1, fposIdx]
  omega

theorem bpos_lt_succ {edges : List EdgeTuple} {i : Nat} (hi : i < edges.length) :
    bposIdx edges i < countSlots edges (i + 1) (edgeV edges i) := by
  rw [countSlots_succ edges i _ hi, bposIdx]
  have h2 : (if edgeV edges i = edgeV edges i then 1 else 0) = 1 := if_pos rfl
  rw [h2]
  by_cases h : edgeU edges i = edgeV edges i
  · simp only [if_pos h]; omega
  · simp only [if_neg h]; omega

theorem bpos_ge {edges : List EdgeTuple} (i : Nat) :
    countSlots edges i (edgeV edges i) ≤ bposIdx edges i := by
  rw [bposIdx]; omega

/-- Forward slots of distinct edges at the same node have distinct
positions. -/
theorem fpos_ne_fpos {edges : List EdgeTuple} {i i' : Nat}
    (hi : i < edges.length) (hi' : i' < edges.length) (hne : i ≠ i')
    (hnode : edgeU edges i = edgeU edges i') :
    fposIdx edges i ≠ fposIdx edges i' := by
  rcases Nat.lt_or_ge i i' with h | h
  · have h1 := fpos_lt_succ hi
    have h2 := countSlots_mono edges (by omega : i + 1 ≤ i') (edgeU edges i)
    have h3 : fposIdx edges i' = countSlots edges i' (edgeU edges i') := rfl
    rw [← hnode] at h3
    omega
  · have hlt : i' < i := lt_of_le_of_ne h (Ne.symm hne)
    have h1 := fpos_lt_succ hi'
    have h2 := countSlots_mono edges (by omega : i' + 1 ≤ i) (edgeU edges i')
    have h3 : fposIdx edges i = countSlots edges i (edgeU edges i) := rfl
    rw [hnode] at h3
    omega

/-- Backward slots of distinct edges at the same node have distinct
positions. -/
theorem bpos_ne_bpos {edges : List EdgeTuple} {i i' : Nat}
    (hi : i < edges.length) (hi' : i' < edges.length) (hne : i ≠ i')
    (hnode : edgeV edges i = edgeV edges i') :
    bposIdx edges i ≠ bposIdx edges i' := by
  rcases Nat.lt_or_ge i i' with h | h
  · have h1 := bpos_lt_succ hi
    have h2 := countSlots_mono edges (by omega : i + 1 ≤ i') (edgeV edges i)
    have h3 := @bpos_ge edges i'
    rw [← hnode] at h3
    omega
  · have hlt : i' < i := lt_of_le_of_ne h (Ne.symm hne)
    have h1 := bpos_lt_succ hi'
    have h2 := countSlots_mono edges (by omega : i' + 1 ≤ i) (edgeV edges i')
    have h3 := @bpos_ge edges i
    rw [hnode] at h3
    omega

/-- A forward slot never coincides with a backward slot, even of the
same edge (for a self-loop the backward slot sits one position
later). -/
theorem fpos_ne_bpos {edges : List EdgeTuple} {i i' : Nat}
    (hi : i < edges.length) (hi' : i' < edges.length)
    (hnode : edgeU edges i = edgeV edges i') :
    fposIdx edges i ≠ bposIdx edges i' := by
  rcases Nat.lt_trichotomy i i' with h | h | h
  · have h1 := fpos_lt_succ hi
    have h2 := countSlots_mono edges (by omega : i + 1 ≤ i') (edgeU edges i)
    have h3 := @bpos_ge edges i'
    rw [← hnode] at h3
    omega
  · subst h
    have hb : bposIdx edges i = countSlots edges i (edgeV edges i) + 1 := by
      rw [bposIdx, if_pos hnode]
    have hf : fposIdx edges i = countSlots edges i (edgeU edges i) := rfl
    rw [hnode] at hf
    omega
  · have h1 := bpos_lt_succ hi'
    have h2 := countSlots_mono edges (by omega : i' + 1 ≤ i) (edgeV edges i')
    have hf : fposIdx edges i = countSlots edges i (edgeU edges i) := rfl
    rw [hnode] at hf
    omega

/-- Every in-range slot position at a node decodes to the forward or
backward slot of some edge. -/
theorem slot_decode (edges : List EdgeTuple) :
    ∀ k, k ≤ edges.length → ∀ w j, j < countSlots edges k w →
      (∃ i, i < k ∧ edgeU edges i = w ∧ fposIdx edges i = j) ∨
      (∃ i, i < k ∧ edgeV edges i = w ∧ bposIdx edges i = j) := by
  intro k
  induction k with
  | zero =>
    intro _ w j hj
    simp [countSlots] at hj
  | succ k ih =>
    intro hk w j hj
    have hklt : k < edges.length := hk
    rw [countSlots_succ edges k w hklt] at hj
    by_cases hj' : j < countSlots edges k w
    · rcases ih (le_of_lt hklt) w j hj' with ⟨i, hik, h1, h2⟩ | ⟨i, hik, h1, h2⟩
      · exact Or.inl ⟨i, Nat.lt_succ_of_lt hik, h1, h2⟩
      · exact Or.inr ⟨i, Nat.lt_succ_of_lt hik, h1, h2⟩
    · by_cases hu : edgeU edges k = w
      · by_cases hv : edgeV edges k = w
        · have : j = countSlots edges k w ∨ j = countSlots edges k w + 1 := by
            rw [if_pos hu, if_pos hv] at hj; omega
          rcases this with rfl | rfl
          · exact Or.inl ⟨k, Nat.lt_succ_self k, hu, by rw [fposIdx, hu]⟩
          · refine Or.inr ⟨k, Nat.lt_succ_self k, hv, ?_⟩
            rw [bposIdx, if_pos (hu.trans hv.symm), hv]
        · have : j = countSlots edges k w := by
            rw [if_pos hu, if_neg hv] at hj; omega
          subst this
          exact Or.inl ⟨k, Nat.lt_succ_self k, hu, by rw [fposIdx, hu]⟩
      · by_cases hv : edgeV edges k = w
        · have : j = countSlots edges k w := by
            rw [if_neg hu, if_pos hv] at hj; omega
          subst this
          refine Or.inr ⟨k, Nat.lt_succ_self k, hv, ?_⟩
          have hne : ¬ edgeU edges k = edgeV edges k := fun he => hu (he.trans hv)
          rw [bposIdx, if_neg hne, hv]
          omega
        · rw [if_neg hu, if_neg hv] at hj; omega

/-! ### The build establishes the pair invariant -/

theorem buildPrefix_succ (edges : List EdgeTuple) (k : Nat)
    (hk : k < edges.length) :
    buildPrefix edges (k + 1)
      = addEdge (buildPrefix edges k) (edgeU edges k) (edgeV edges k)
          (edgeC edges k) := by
  have h1 : edges.take (k + 1) = edges.take k ++ [edges[k]] := by
    rw [List.take_succ, List.getElem?_eq_getElem hk]
    rfl
  unfold buildPrefix
  rw [h1, List.foldl_append, List.foldl_cons, List.foldl_nil]
  rw [edgeU_eq hk, edgeV_eq hk, edgeC_eq hk]

theorem buildResidualGraph_eq_buildPrefix (n : Nat) (edges : List EdgeTuple) :
    buildResidualGraph n edges = buildPrefix edges edges.length := by
  unfold buildResidualGraph buildPrefix
  rw [List.take_length]

theorem addEdge_length (res : ResGraph) (u v : Nat) (c : Int) (w : Nat) :
    ((addEdge res u v c) w).length
      = (res w).length + (if u = w then 1 else 0) + (if v = w then 1 else 0) := by
  simp only [addEdge, upd]
  by_cases hv : w = v
  · subst hv
    by_cases hu : w = u
    · subst hu
      simp
    · rw [if_pos rfl, if_neg hu, if_neg (fun h : u = w => hu h.symm), if_pos rfl]
      simp
  · rw [if_neg hv, if_neg (fun h : v = w => hv h.symm)]
    by_cases hu : w = u
    · subst hu
      rw [if_pos rfl, if_pos rfl]
      simp
    · rw [if_neg hu, if_neg (fun h : u = w => hu h.symm)]
      omega

theorem addEdge_getElem_old (res : ResGraph) (u v : Nat) (c : Int) (w j : Nat)
    (hj : j < (res w).length) :
    ((addEdge res u v c) w)[j]? = (res w)[j]? := by
  simp only [addEdge, upd]
  by_cases hv : w = v
  · rw [if_pos hv]
    by_cases hvu : v = u
    · rw [if_pos hvu]
      have h1 : j < (res u).length := by rw [hv, hvu] at hj; exact hj
      rw [List.getElem?_append_left (by simp; omega),
        List.getElem?_append_left h1, hv, hvu]
    · rw [if_neg hvu]
      have h1 : j < (res v).length := by rw [hv] at hj; exact hj
      rw [List.getElem?_append_left h1, hv]
  · rw [if_neg hv]
    by_cases hu : w = u
    · rw [if_pos hu]
      have h1 : j < (res u).length := by rw [hu] at hj; exact hj
      rw [List.getElem?_append_left h1, hu]
    · rw [if_neg hu]

theorem addEdge_getElem_fwd (res : ResGraph) (u v : Nat) (c : Int) :
    ((addEdge res u v c) u)[(res u).length]?
      = some ⟨v, c, (res v).length⟩ := by
  by_cases huv : u = v
  · subst huv
    simp only [addEdge, upd_same]
    rw [List.getElem?_append_left (by simp)]
    exact List.getElem?_concat_length _ _
  · simp only [addEdge, upd_same, upd_other _ _ _ _ huv]
    exact List.getElem?_concat_length _ _

theorem addEdge_getElem_bwd (res : ResGraph) (u v : Nat) (c : Int) :
    ((addEdge res u v c) v)[(res v).length + (if u = v then 1 else 0)]?
      = some ⟨u, 0, (res u).length⟩ := by
  by_cases huv : u = v
  · rw [if_pos huv]
    subst huv
    simp only [addEdge, upd_same]
    have hlen : (res u ++ [(⟨u, c, (res u).length⟩ : Edge)]).length
        = (res u).length + 1 := by simp
    rw [← hlen]
    exact List.getElem?_concat_length _ _
  · simp only [addEdge, upd_same,
      upd_other _ _ _ _ (fun h : v = u => huv h.symm), if_neg huv]
    rw [Nat.add_zero]
    exact List.getElem?_concat_length _ _

theorem buildPrefix_inv (edges : List EdgeTuple) :
    ∀ k, k ≤ edges.length →
      (∀ w, ((buildPrefix edges k) w).length = countSlots edges k w) ∧
      (∀ i, i < k → BuiltAt edges (buildPrefix edges k) i) := by
  intro k
  induction k with
  | zero =>
    intro _
    exact ⟨fun w => rfl, fun i hi => absurd hi (Nat.not_lt_zero i)⟩
  | succ k ih =>
    intro hk
    have hklt : k < edges.length := hk
    obtain ⟨ihlen, ihbuilt⟩ := ih (le_of_lt hklt)
    rw [buildPrefix_succ edges k hklt]
    constructor
    · intro w
      rw [addEdge_length, ihlen w, countSlots_succ edges k w hklt]
    · intro i hi
      rcases Nat.lt_or_ge i k with hik | hik
      · have hilt : i < edges.length := lt_trans hik hklt
        obtain ⟨hfwd, hbwd⟩ := ihbuilt i hik
        refine ⟨?_, ?_⟩
        · rw [addEdge_getElem_old _ _ _ _ _ _ ?_, hfwd]
          rw [ihlen]
          exact lt_of_lt_of_le (fpos_lt_succ hilt) (countSlots_mono edges hik _)
        · rw [addEdge_getElem_old _ _ _ _ _ _ ?_, hbwd]
          rw [ihlen]
          exact lt_of_lt_of_le (bpos_lt_succ hilt) (countSlots_mono edges hik _)
      · have hik' : i = k := by omega
        subst hik'
        have hfp : fposIdx edges i = ((buildPrefix edges i) (edgeU edges i)).length :=
          (ihlen _).symm
        have hbp : bposIdx edges i
            = ((buildPrefix edges i) (edgeV edges i)).length
              + (if edgeU edges i = edgeV edges i then 1 else 0) := by
          rw [ihlen, bposIdx]
        refine ⟨?_, ?_⟩
        · rw [hfp, addEdge_getElem_fwd]
          have : ((buildPrefix edges i) (edgeV edges i)).length
              = if edgeU edges i = edgeV edges i then fposIdx edges i
                else bposIdx edges i := by
            rw [ihlen]
            by_cases h : edgeU edges i = edgeV edges i
            · rw [if_pos h, fposIdx, h]
            · rw [if_neg h, bposIdx, if_neg h]
              omega
          rw [this, hfp]
        · rw [hbp, addEdge_getElem_bwd]
          rw [← hfp]

/-! ### Properties of `updCap` -/

theorem updCap_other (res : ResGraph) (u j : Nat) (d : Int) (w : Nat)
    (hw : w ≠ u) : (updCap res u j d) w = res w := by
  cases hg : (res u)[j]? with
  | none => simp only [updCap, hg]
  | some e =>
    simp only [updCap, hg]
    exact upd_other _ _ _ _ hw

theorem updCap_length (res : ResGraph) (u j : Nat) (d : Int) (w : Nat) :
    ((updCap res u j d) w).length = (res w).length := by
  cases hg : (res u)[j]? with
  | none => simp only [updCap, hg]
  | some e =>
    simp only [updCap, hg]
    by_cases hw : w = u
    · subst hw
      rw [upd_same, List.length_set]
    · rw [upd_other _ _ _ _ hw]

theorem updCap_getElem_same (res : ResGraph) (u j : Nat) (d : Int) (e : Edge)
    (h : (res u)[j]? = some e) :
    ((updCap res u j d) u)[j]? = some { e with cap := e.cap + d } := by
  simp only [updCap, h, upd_same]
  obtain ⟨hlt, _⟩ := List.getElem?_eq_some_iff.mp h
  exact List.getElem?_set_self hlt

theorem updCap_getElem_ne (res : ResGraph) (u j : Nat) (d : Int) (w j' : Nat)
    (h : w ≠ u ∨ j' ≠ j) :
    ((updCap res u j d) w)[j']? = (res w)[j']? := by
  cases hg : (res u)[j]? with
  | none => simp only [updCap, hg]
  | some e =>
    simp only [updCap, hg]
    rcases h with hw | hj
    · rw [upd_other _ _ _ _ hw]
    · by_cases hw : w = u
      · subst hw
        rw [upd_same]
        exact List.getElem?_set_ne (Ne.symm hj)
      · rw [upd_other _ _ _ _ hw]

/-! ### Netflow accounting helpers -/

/-- Changing a flow vector at a single edge index shifts `netOut` by
that edge's contribution. -/
theorem netOut_update (edges : List EdgeTuple) (f g : Nat → Int) (i0 : Nat)
    (hi0 : i0 < edges.length)
    (hoff : ∀ i, i < edges.length → i ≠ i0 → g i = f i) (w : Nat) :
    netOut edges g w
      = netOut edges f w
        + ((if edgeU edges i0 = w then g i0 - f i0 else 0)
            - (if edgeV edges i0 = w then g i0 - f i0 else 0)) := by
  unfold netOut
  have hmem : i0 ∈ Finset.range edges.length := Finset.mem_range.mpr hi0
  rw [← Finset.sum_erase_add _ _ hmem, ← Finset.sum_erase_add _
    (fun i => ((if edgeU edges i = w then f i else 0)
      - (if edgeV edges i = w then f i else 0))) hmem]
  have hcong : ∀ i ∈ (Finset.range edges.length).erase i0,
      ((if edgeU edges i = w then g i else 0)
        - (if edgeV edges i = w then g i else 0))
      = ((if edgeU edges i = w then f i else 0)
        - (if edgeV edges i = w then f i else 0)) := by
    intro i hi
    have hne := Finset.ne_of_mem_erase hi
    have hilt := Finset.mem_range.mp (Finset.mem_of_mem_erase hi)
    rw [hoff i hilt hne]
  rw [Finset.sum_congr rfl hcong]
  split_ifs <;> ring

/-- Decoding one residual slot under the pair invariant: a slot whose
destination differs from its own node is one side of a non-self-loop
edge, and its partner slot sits where its `rev` field points. -/
theorem paired_slot_decode (edges : List EdgeTuple) (res : ResGraph)
    (h : Paired edges res) (u j : Nat) (e : Edge)
    (hget : (res u)[j]? = some e) (hdst : e.dst ≠ u) :
    ∃ i, i < edges.length ∧ edgeU edges i ≠ edgeV edges i ∧
      ((edgeU edges i = u ∧ edgeV edges i = e.dst ∧ fposIdx edges i = j ∧
          bposIdx edges i = e.rev ∧
          ∃ bc : Int, (res e.dst)[e.rev]? = some ⟨u, bc, j⟩ ∧
            e.cap + bc = edgeC edges i ∧ 0 ≤ e.cap ∧ 0 ≤ bc)
        ∨ (edgeV edges i = u ∧ edgeU edges i = e.dst ∧ bposIdx edges i = j ∧
          fposIdx edges i = e.rev ∧
          ∃ fc : Int, (res e.dst)[e.rev]? = some ⟨u, fc, j⟩ ∧
            fc + e.cap = edgeC edges i ∧ 0 ≤ fc ∧ 0 ≤ e.cap)) := by
  obtain ⟨hlen, hpair⟩ := h
  have hj : j < countSlots edges edges.length u := by
    rw [← hlen u]
    exact (List.getElem?_eq_some_iff.mp hget).1
  rcases slot_decode edges edges.length (le_refl _) u j hj with
    ⟨i, hi, hu, hidx⟩ | ⟨i, hi, hv, hidx⟩
  · have hpi := hpair i hi
    by_cases hself : edgeU edges i = edgeV edges i
    · exfalso
      rw [PairedAt, if_pos hself] at hpi
      obtain ⟨hf, _⟩ := hpi
      rw [hu, hidx, hget] at hf
      have he := Option.some.inj hf
      apply hdst
      rw [he]
      exact hself.symm.trans hu
    · rw [PairedAt, if_neg hself] at hpi
      obtain ⟨fc, bc, hf, hb, hsum, hfc, hbc⟩ := hpi
      rw [hu, hidx, hget] at hf
      have he := Option.some.inj hf
      refine ⟨i, hi, hself, Or.inl ⟨hu, ?_, hidx, ?_, bc, ?_, ?_, ?_, hbc⟩⟩
      · rw [he]
      · rw [he]
      · rw [he]
        simp only []
        rw [hb, hu, hidx]
      · rw [he]
        simp only []
        exact hsum
      · rw [he]
        exact hfc
  · have hpi := hpair i hi
    by_cases hself : edgeU edges i = edgeV edges i
    · exfalso
      rw [PairedAt, if_pos hself] at hpi
      obtain ⟨_, hb⟩ := hpi
      rw [hv, hidx, hget] at hb
      have he := Option.some.inj hb
      apply hdst
      rw [he]
      exact hself.trans hv
    · rw [PairedAt, if_neg hself] at hpi
      obtain ⟨fc, bc, hf, hb, hsum, hfc, hbc⟩ := hpi
      rw [hv, hidx, hget] at hb
      have he := Option.some.inj hb
      refine ⟨i, hi, hself, Or.inr ⟨hv, ?_, hidx, ?_, fc, ?_, ?_, hfc, ?_⟩⟩
      · rw [he]
      · rw [he]
      · rw [he]
        simp only []
        rw [hf, hv, hidx]
      · rw [he]
        simp only []
        rw [← hsum]
      · rw [he]
        exact hbc

/-- The two slots of edge `i` are disjoint from the two slots of a
different edge `i0`. -/
theorem slots_disjoint (edges : List EdgeTuple) {i i0 : Nat}
    (hi : i < edges.length) (hi0 : i0 < edges.length) (hne : i ≠ i0) :
    (edgeU edges i ≠ edgeU edges i0 ∨ fposIdx edges i ≠ fposIdx edges i0) ∧
    (edgeU edges i ≠ edgeV edges i0 ∨ fposIdx edges i ≠ bposIdx edges i0) ∧
    (edgeV edges i ≠ edgeU edges i0 ∨ bposIdx edges i ≠ fposIdx edges i0) ∧
    (edgeV edges i ≠ edgeV edges i0 ∨ bposIdx edges i ≠ bposIdx edges i0) := by
  refine ⟨?_, ?_, ?_, ?_⟩
  · by_cases hww : edgeU edges i = edgeU edges i0
    · exact Or.inr (fpos_ne_fpos hi hi0 hne hww)
    · exact Or.inl hww
  · by_cases hww : edgeU edges i = edgeV edges i0
    · exact Or.inr (fpos_ne_bpos hi hi0 hww)
    · exact Or.inl hww
  · by_cases hww : edgeV edges i = edgeU edges i0
    · exact Or.inr (fun hh => (fpos_ne_bpos hi0 hi hww.symm) hh.symm)
    · exact Or.inl hww
  · by_cases hww : edgeV edges i = edgeV edges i0
    · exact Or.inr (bpos_ne_bpos hi hi0 hne hww)
    · exact Or.inl hww

/-- `PairedAt` only depends on the contents of the edge's two slots. -/
theorem pairedAt_congr (edges : List EdgeTuple) (res res' : ResGraph) (i : Nat)
    (hf : (res' (edgeU edges i))[fposIdx edges i]?
        = (res (edgeU edges i))[fposIdx edges i]?)
    (hb : (res' (edgeV edges i))[bposIdx edges i]?
        = (res (edgeV edges i))[bposIdx edges i]?)
    (hpi : PairedAt edges res i) : PairedAt edges res' i := by
  unfold PairedAt at hpi ⊢
  rw [hf, hb]
  exact hpi

/-- `flowAt` only depends on the backward slot's contents. -/
theorem flowAt_congr (edges : List EdgeTuple) (res res' : ResGraph) (i : Nat)
    (h : (res' (edgeV edges i))[bposIdx edges i]?
        = (res (edgeV edges i))[bposIdx edges i]?) :
    flowAt edges res' i = flowAt edges res i := by
  unfold flowAt
  rw [h]

theorem flowAt_eq (edges : List EdgeTuple) (res : ResGraph) (i : Nat)
    (c : Edge) (h : (res (edgeV edges i))[bposIdx edges i]? = some c) :
    flowAt edges res i = c.cap := by
  unfold flowAt
  rw [h]

/-- Pushing `p ∈ [0, cap]` through one residual slot and its partner
preserves the pair invariant, changes no other node's edge list, and
moves `p` units of net outflow from the slot's destination to the
slot's own node. -/
theorem paired_push (edges : List EdgeTuple) (res : ResGraph)
    (h : Paired edges res) (u j : Nat) (e : Edge) (p : Int)
    (hget : (res u)[j]? = some e) (hdst : e.dst ≠ u)
    (hp : 0 ≤ p) (hple : p ≤ e.cap) :
    Paired edges (updCap (updCap res u j (-p)) e.dst e.rev p) ∧
    (∀ w, w ≠ u → w ≠ e.dst →
      (updCap (updCap res u j (-p)) e.dst e.rev p) w = res w) ∧
    (∀ w, netOut edges (flowAt edges (updCap (updCap res u j (-p)) e.dst e.rev p)) w
      = netOut edges (flowAt edges res) w
        + p * ((if w = u then 1 else 0) - (if w = e.dst then 1 else 0))) := by
  obtain ⟨i0, hi0, hself0, hcase⟩ := paired_slot_decode edges res h u j e hget hdst
  set res3 := updCap (updCap res u j (-p)) e.dst e.rev p with hres3
  have hloc : ∀ w, w ≠ u → w ≠ e.dst → res3 w = res w := by
    intro w hw1 hw2
    rw [hres3, updCap_other _ _ _ _ _ hw2, updCap_other _ _ _ _ _ hw1]
  have hlen3 : ∀ w, (res3 w).length = (res w).length := by
    intro w
    rw [hres3, updCap_length, updCap_length]
  have hslot_u : (res3 u)[j]? = some ⟨e.dst, e.cap + -p, e.rev⟩ := by
    rw [hres3, updCap_other _ _ _ _ _ (Ne.symm hdst)]
    exact updCap_getElem_same res u j (-p) e hget
  have hslot_other : ∀ w j', (w ≠ u ∨ j' ≠ j) → (w ≠ e.dst ∨ j' ≠ e.rev) →
      (res3 w)[j']? = (res w)[j']? := by
    intro w j' h1 h2
    rw [hres3, updCap_getElem_ne _ _ _ _ _ _ h2, updCap_getElem_ne _ _ _ _ _ _ h1]
  rcases hcase with ⟨hU, hV, hF, hB, cc, hpart, hsum, hcap0, hcc0⟩ |
    ⟨hV, hU, hB, hF, cc, hpart, hsum, hcc0, hcap0⟩
  · -- (u, j) is the forward slot of edge i0
    have hslot_d : (res3 e.dst)[e.rev]? = some ⟨u, cc + p, j⟩ := by
      have h2 : ((updCap res u j (-p)) e.dst)[e.rev]? = some ⟨u, cc, j⟩ := by
        rw [updCap_getElem_ne _ _ _ _ _ _ (Or.inl hdst)]
        exact hpart
      exact updCap_getElem_same _ _ _ _ _ h2
    refine ⟨⟨fun w => by rw [hlen3 w, h.1 w], ?_⟩, hloc, ?_⟩
    · intro i hilt
      by_cases hii : i = i0
      · subst hii
        unfold PairedAt
        rw [if_neg hself0]
        refine ⟨e.cap + -p, cc + p, ?_, ?_, by omega, by omega, by omega⟩
        · rw [hU, hF, hslot_u, hV, hB]
        · rw [hV, hB, hslot_d, hU, hF]
      · obtain ⟨d1, d2, d3, d4⟩ := slots_disjoint edges hilt hi0 hii
        apply pairedAt_congr edges res _ i ?_ ?_ (h.2 i hilt)
        · apply hslot_other
          · rcases d1 with hd | hd
            · exact Or.inl (by rw [← hU]; exact hd)
            · exact Or.inr (by rw [← hF]; exact hd)
          · rcases d2 with hd | hd
            · exact Or.inl (by rw [← hV]; exact hd)
            · exact Or.inr (by rw [← hB]; exact hd)
        · apply hslot_other
          · rcases d3 with hd | hd
            · exact Or.inl (by rw [← hU]; exact hd)
            · exact Or.inr (by rw [← hF]; exact hd)
          · rcases d4 with hd | hd
            · exact Or.inl (by rw [← hV]; exact hd)
            · exact Or.inr (by rw [← hB]; exact hd)
    · intro w
      have hoff : ∀ i, i < edges.length → i ≠ i0 →
          flowAt edges res3 i = flowAt edges res i := by
        intro i hilt hii
        obtain ⟨d1, d2, d3, d4⟩ := slots_disjoint edges hilt hi0 hii
        apply flowAt_congr
        apply hslot_other
        · rcases d3 with hd | hd
          · exact Or.inl (by rw [← hU]; exact hd)
          · exact Or.inr (by rw [← hF]; exact hd)
        · rcases d4 with hd | hd
          · exact Or.inl (by rw [← hV]; exact hd)
          · exact Or.inr (by rw [← hB]; exact hd)
      have hAt3 : flowAt edges res3 i0 = cc + p := by
        apply flowAt_eq edges res3 i0 ⟨u, cc + p, j⟩
        rw [hV, hB]
        exact hslot_d
      have hAt : flowAt edges res i0 = cc := by
        apply flowAt_eq edges res i0 ⟨u, cc, j⟩
        rw [hV, hB]
        exact hpart
      rw [netOut_update edges (flowAt edges res) (flowAt edges res3) i0 hi0 hoff w]
      rw [hAt3, hAt, hU, hV]
      by_cases hwu : w = u
      · subst hwu
        rw [if_pos rfl, if_neg hdst, if_pos rfl,
          if_neg (fun hh : w = e.dst => hdst hh.symm)]
        ring
      · by_cases hwd : w = e.dst
        · subst hwd
          rw [if_neg (fun hh : u = e.dst => hdst hh.symm), if_pos rfl,
            if_neg hwu, if_pos rfl]
          ring
        · rw [if_neg (fun hh : u = w => hwu hh.symm),
            if_neg (fun hh : e.dst = w => hwd hh.symm),
            if_neg hwu, if_neg hwd]
          ring
  · -- (u, j) is the backward slot of edge i0
    have hslot_d : (res3 e.dst)[e.rev]? = some ⟨u, cc + p, j⟩ := by
      have h2 : ((updCap res u j (-p)) e.dst)[e.rev]? = some ⟨u, cc, j⟩ := by
        rw [updCap_getElem_ne _ _ _ _ _ _ (Or.inl hdst)]
        exact hpart
      exact updCap_getElem_same _ _ _ _ _ h2
    refine ⟨⟨fun w => by rw [hlen3 w, h.1 w], ?_⟩, hloc, ?_⟩
    · intro i hilt
      by_cases hii : i = i0
      · subst hii
        unfold PairedAt
        rw [if_neg hself0]
        refine ⟨cc + p, e.cap + -p, ?_, ?_, by omega, by omega, by omega⟩
        · rw [hU, hF, hslot_d, hV, hB]
        · rw [hV, hB, hslot_u, hU, hF]
      · obtain ⟨d1, d2, d3, d4⟩ := slots_disjoint edges hilt hi0 hii
        apply pairedAt_congr edges res _ i ?_ ?_ (h.2 i hilt)
        · apply hslot_other
          · rcases d2 with hd | hd
            · exact Or.inl (by rw [← hV]; exact hd)
            · exact Or.inr (by rw [← hB]; exact hd)
          · rcases d1 with hd | hd
            · exact Or.inl (by rw [← hU]; exact hd)
            · exact Or.inr (by rw [← hF]; exact hd)
        · apply hslot_other
          · rcases d4 with hd | hd
            · exact Or.inl (by rw [← hV]; exact hd)
            · exact Or.inr (by rw [← hB]; exact hd)
          · rcases d3 with hd | hd
            · exact Or.inl (by rw [← hU]; exact hd)
            · exact Or.inr (by rw [← hF]; exact hd)
    · intro w
      have hoff : ∀ i, i < edges.length → i ≠ i0 →
          flowAt edges res3 i = flowAt edges res i := by
        intro i hilt hii
        obtain ⟨d1, d2, d3, d4⟩ := slots_disjoint edges hilt hi0 hii
        apply flowAt_congr
        apply hslot_other
        · rcases d4 with hd | hd
          · exact Or.inl (by rw [← hV]; exact hd)
          · exact Or.inr (by rw [← hB]; exact hd)
        · rcases d3 with hd | hd
          · exact Or.inl (by rw [← hU]; exact hd)
          · exact Or.inr (by rw [← hF]; exact hd)
      have hAt3 : flowAt edges res3 i0 = e.cap + -p := by
        apply flowAt_eq edges res3 i0 ⟨e.dst, e.cap + -p, e.rev⟩
        rw [hV, hB]
        exact hslot_u
      have hAt : flowAt edges res i0 = e.cap := by
        apply flowAt_eq edges res i0 e
        rw [hV, hB]
        exact hget
      rw [netOut_update edges (flowAt edges res) (flowAt edges res3) i0 hi0 hoff w]
      rw [hAt3, hAt, hU, hV]
      by_cases hwu : w = u
      · subst hwu
        rw [if_neg hdst, if_pos rfl, if_pos rfl,
          if_neg (fun hh : w = e.dst => hdst hh.symm)]
        ring
      · by_cases hwd : w = e.dst
        · subst hwd
          rw [if_pos rfl, if_neg (fun hh : u = e.dst => hdst hh.symm),
            if_neg hwu, if_pos rfl]
          ring
        · rw [if_neg (fun hh : e.dst = w => hwd hh.symm),
            if_neg (fun hh : u = w => hwu hh.symm),
            if_neg hwu, if_neg hwd]
          ring

theorem withtop_le_coe {p : WithTop Int} {c : Int}
    (hle : p ≤ (c : WithTop Int)) : ∃ q : Int, p = (q : WithTop Int) ∧ q ≤ c := by
  cases p with
  | top => exact absurd hle (by simp)
  | coe q => exact ⟨q, rfl, by exact_mod_cast hle⟩

theorem dfsEdges_spec (edges : List EdgeTuple) (t : Nat)
    (rec : Nat → WithTop Int → ResGraph → (Nat → Bool) → Option DfsResult)
    (hrec : ∀ v lim res vis p res' vis',
      Paired edges res → vis v = false → vis t = false → 0 < lim →
      rec v lim res vis = some (p, res', vis') →
      DfsSpec edges t v lim res vis p res' vis')
    (u : Nat) (limit : WithTop Int) (hut : u ≠ t) (hlim : 0 < limit) :
    ∀ (k j : Nat) (res : ResGraph) (vis : Nat → Bool) (p : WithTop Int)
      (res' : ResGraph) (vis' : Nat → Bool),
      Paired edges res → vis u = true → vis t = false →
      dfsEdges rec u limit k j res vis = some (p, res', vis') →
      DfsEdgesSpec edges t u limit k j res vis p res' vis' := by
  intro k
  induction k with
  | zero =>
    intro j res vis p res' vis' hP hvu hvt hrun
    simp only [dfsEdges, Option.some.injEq, Prod.mk.injEq] at hrun
    obtain ⟨rfl, rfl, rfl⟩ := hrun
    refine ⟨hP, le_refl 0, le_of_lt hlim, by decide, fun _ _ _ _ => rfl,
      fun _ hw => hw, rfl, ?_, ?_⟩
    · intro w
      rw [show ((0 : WithTop Int).untop' 0) = 0 from rfl]
      ring
    · intro _
      refine ⟨rfl, ?_, ?_⟩
      · intro j' e hj1 hj2 _ _
        omega
      · intro w hw1 hw2
        rw [hw1] at hw2
        exact Bool.noConfusion hw2
  | succ k ih =>
    intro j res vis p res' vis' hP hvu hvt hrun
    cases hg : (res u)[j]? with
    | none =>
      simp only [dfsEdges, hg, Option.some.injEq, Prod.mk.injEq] at hrun
      obtain ⟨rfl, rfl, rfl⟩ := hrun
      refine ⟨hP, le_refl 0, le_of_lt hlim, by decide, fun _ _ _ _ => rfl,
        fun _ hw => hw, rfl, ?_, ?_⟩
      · intro w
        rw [show ((0 : WithTop Int).untop' 0) = 0 from rfl]
        ring
      · intro _
        refine ⟨rfl, ?_, ?_⟩
        · intro j' e hj1 hj2 hget _
          have hlen : (res u).length ≤ j := List.getElem?_eq_none_iff.mp hg
          rw [List.getElem?_eq_none (by omega)] at hget
          exact Option.noConfusion hget
        · intro w hw1 hw2
          rw [hw1] at hw2
          exact Bool.noConfusion hw2
    | some e =>
      by_cases hcap : e.cap ≤ 0
      · simp only [dfsEdges, hg, if_pos hcap] at hrun
        obtain ⟨SP, Sp0, Sple, Stop, Sloc, Smono, St, Snet, Szero⟩ :=
          ih (j + 1) res vis p res' vis' hP hvu hvt hrun
        refine ⟨SP, Sp0, Sple, Stop, Sloc, Smono, St, Snet, ?_⟩
        intro h0
        obtain ⟨hres, hrange, hclosure⟩ := Szero h0
        refine ⟨hres, ?_, hclosure⟩
        intro j' e' hj1 hj2 hget hcap'
        rcases Nat.eq_or_lt_of_le hj1 with rfl | hj1'
        · rw [hg] at hget
          have := Option.some.inj hget
          rw [← this] at hcap'
          omega
        · exact hrange j' e' hj1' (by omega) hget hcap'
      · by_cases hvd : vis e.dst = true
        · simp only [dfsEdges, hg, if_neg hcap, if_pos hvd] at hrun
          obtain ⟨SP, Sp0, Sple, Stop, Sloc, Smono, St, Snet, Szero⟩ :=
            ih (j + 1) res vis p res' vis' hP hvu hvt hrun
          refine ⟨SP, Sp0, Sple, Stop, Sloc, Smono, St, Snet, ?_⟩
          intro h0
          obtain ⟨hres, hrange, hclosure⟩ := Szero h0
          refine ⟨hres, ?_, hclosure⟩
          intro j' e' hj1 hj2 hget hcap'
          rcases Nat.eq_or_lt_of_le hj1 with rfl | hj1'
          · rw [hg] at hget
            have he' := Option.some.inj hget
            rw [← he']
            exact Smono e.dst hvd
          · exact hrange j' e' hj1' (by omega) hget hcap'
        · have hnvis : vis e.dst = false := Bool.eq_false_iff.mpr hvd
          have hdu : e.dst ≠ u := by
            intro he
            rw [he, hvu] at hnvis
            exact Bool.noConfusion hnvis
          cases hr : rec e.dst (min limit ((e.cap : Int) : WithTop Int)) res vis with
          | none =>
            simp only [dfsEdges, hg, if_neg hcap, if_neg hvd, hr] at hrun
            exact Option.noConfusion hrun
          | some trip =>
            obtain ⟨p1, res1, vis1⟩ := trip
            have hlim2 : (0 : WithTop Int) < min limit ((e.cap : Int) : WithTop Int) :=
              lt_min hlim (by exact_mod_cast lt_of_not_le hcap)
            obtain ⟨S1P, S1p0, S1ple, S1pt, S1top, S1loc, S1mono, S1t, S1mark, S1net, S1zero⟩ :=
              hrec e.dst _ res vis p1 res1 vis1 hP hnvis hvt hlim2 hr
            by_cases hpos : (0 : WithTop Int) < p1
            · simp only [dfsEdges, hg, if_neg hcap, if_neg hvd, hr, if_pos hpos,
                Option.some.injEq, Prod.mk.injEq] at hrun
              obtain ⟨rfl, rfl, rfl⟩ := hrun
              obtain ⟨q, rfl, hqle⟩ :=
                withtop_le_coe (le_trans S1ple (min_le_right _ _))
              simp only [WithTop.untop'_coe] at S1net ⊢
              have hq0 : 0 ≤ q := by exact_mod_cast S1p0
              have huntop : ((q : WithTop Int).untop' 0) = q := WithTop.untop'_coe _ _
              have hru : res1 u = res u := S1loc u hvu hut
              have hget1 : (res1 u)[j]? = some e := by rw [hru]; exact hg
              obtain ⟨P3, loc3, net3⟩ :=
                paired_push edges res1 S1P u j e q hget1 hdu hq0 hqle
              refine ⟨P3, S1p0, le_trans S1ple (min_le_left _ _),
                WithTop.coe_ne_top, ?_, S1mono, S1t, ?_, ?_⟩
              · intro w hw hwt hwu
                have hwd : w ≠ e.dst := by
                  intro he
                  rw [he, hnvis] at hw
                  exact Bool.noConfusion hw
                rw [loc3 w hwu hwd, S1loc w hw hwt]
              · intro w
                simp only [WithTop.untop'_coe]
                rw [net3 w, S1net w]
                ring
              · intro h0
                rw [h0] at hpos
                exact absurd hpos (lt_irrefl 0)
            · have hp1z : p1 = 0 := le_antisymm (not_lt.mp hpos) S1p0
              subst hp1z
              obtain ⟨hres1, hclosure1⟩ := S1zero rfl
              subst hres1
              simp only [dfsEdges, hg, if_neg hcap, if_neg hvd, hr,
                if_neg hpos] at hrun
              have hv1u : vis1 u = true := S1mono u hvu
              have hv1t : vis1 t = false := by rw [S1t]; exact hvt
              obtain ⟨SP, Sp0, Sple, Stop, Sloc, Smono, St, Snet, Szero⟩ :=
                ih (j + 1) res1 vis1 p res' vis' S1P hv1u hv1t hrun
              have hdt : e.dst ≠ t := by
                intro he
                have := S1pt he
                rw [this] at hlim2
                exact absurd hlim2 (lt_irrefl _)
              have hv1d : vis1 e.dst = true := S1mark hdt
              refine ⟨SP, Sp0, Sple, Stop, ?_, fun w hw => Smono w (S1mono w hw),
                St.trans S1t, ?_, ?_⟩
              · intro w hw hwt hwu
                exact Sloc w (S1mono w hw) hwt hwu
              · intro w
                rw [Snet w]
              · intro h0
                obtain ⟨hres, hrange, hclosure⟩ := Szero h0
                refine ⟨hres, ?_, ?_⟩
                · intro j' e' hj1 hj2 hget hcap'
                  rcases Nat.eq_or_lt_of_le hj1 with rfl | hj1'
                  · rw [hg] at hget
                    have he' := Option.some.inj hget
                    rw [← he']
                    exact Smono e.dst hv1d
                  · exact hrange j' e' hj1' (by omega) hget hcap'
                · intro w hw1 hw2
                  cases hv1w : vis1 w with
                  | true =>
                    intro ed hed hcap''
                    exact Smono _ (hclosure1 w hv1w hw2 ed hed hcap'')
                  | false =>
                    exact hclosure w hw1 hv1w

theorem dfs_spec (edges : List EdgeTuple) (t : Nat) :
    ∀ (fuel : Nat) (u : Nat) (limit : WithTop Int) (res : ResGraph)
      (vis : Nat → Bool) (p : WithTop Int) (res' : ResGraph) (vis' : Nat → Bool),
      Paired edges res → vis u = false → vis t = false → 0 < limit →
      dfs fuel u t limit res vis = some (p, res', vis') →
      DfsSpec edges t u limit res vis p res' vis' := by
  intro fuel
  induction fuel with
  | zero =>
    intro u limit res vis p res' vis' _ _ _ _ hrun
    exact Option.noConfusion hrun
  | succ fuel ih =>
    intro u limit res vis p res' vis' hP hvu hvt hlim hrun
    by_cases hut : u = t
    · subst hut
      simp only [dfs, if_pos rfl, Option.some.injEq, Prod.mk.injEq] at hrun
      obtain ⟨rfl, rfl, rfl⟩ := hrun
      refine ⟨hP, le_of_lt hlim, le_refl _, fun _ => rfl,
        fun h => absurd rfl h, fun _ _ _ => rfl,
        fun _ hw => hw, rfl, fun h => absurd rfl h, ?_, ?_⟩
      · intro w
        ring
      · intro h0
        exact absurd (h0 ▸ hlim) (lt_irrefl 0)
    · simp only [dfs, if_neg hut] at hrun
      have hvu' : (upd vis u true) u = true := upd_same _ _ _
      have hvt' : (upd vis u true) t = false := by
        rw [upd_other _ _ _ _ (fun h : t = u => hut h.symm)]
        exact hvt
      obtain ⟨SP, Sp0, Sple, Stop, Sloc, Smono, St, Snet, Szero⟩ :=
        dfsEdges_spec edges t _
          (fun v lim r w p1 r' w' hP1 hv1 ht1 hl1 hrun1 =>
            ih v lim r w p1 r' w' hP1 hv1 ht1 hl1 hrun1)
          u limit hut hlim ((res u).length) 0 res (upd vis u true)
          p res' vis' hP hvu' hvt' hrun
      refine ⟨SP, Sp0, Sple, fun h => absurd h hut, fun _ => Stop,
        ?_, ?_, ?_, ?_, Snet, ?_⟩
      · intro w hw hwt
        have hwu : w ≠ u := by
          intro he
          rw [he, hvu] at hw
          exact Bool.noConfusion hw
        exact Sloc w (by rw [upd_other _ _ _ _ hwu]; exact hw) hwt hwu
      · intro w hw
        by_cases hwu : w = u
        · subst hwu
          exact Smono w (upd_same _ _ _)
        · exact Smono w (by rw [upd_other _ _ _ _ hwu]; exact hw)
      · rw [St]
        exact (upd_other _ _ _ _ (fun h : t = u => hut h.symm))
      · intro _
        exact Smono u (upd_same _ _ _)
      · intro h0
        obtain ⟨hres, hrange, hclosure⟩ := Szero h0
        refine ⟨hres, ?_⟩
        intro w hw1 hw2
        by_cases hwu : w = u
        · subst hwu
          intro ed hed hcap
          obtain ⟨j', hj'⟩ := List.mem_iff_getElem?.mp hed
          have hjlt : j' < (res w).length := (List.getElem?_eq_some_iff.mp hj').1
          exact hrange j' ed (Nat.zero_le _) (by omega) hj' hcap
        · exact hclosure w hw1 (by rw [upd_other _ _ _ _ hwu]; exact hw2)

theorem build_paired (n : Nat) (edges : List EdgeTuple)
    (hcap : ∀ e ∈ edges, 0 ≤ e.2.2) :
    Paired edges (buildResidualGraph n edges) := by
  rw [buildResidualGraph_eq_buildPrefix]
  obtain ⟨hlen, hbuilt⟩ := buildPrefix_inv edges edges.length (le_refl _)
  refine ⟨hlen, ?_⟩
  intro i hi
  obtain ⟨hfwd, hbwd⟩ := hbuilt i hi
  unfold PairedAt
  by_cases h : edgeU edges i = edgeV edges i
  · rw [if_pos h]
    refine ⟨?_, hbwd⟩
    rw [hfwd, if_pos h]
  · rw [if_neg h]
    refine ⟨edgeC edges i, 0, ?_, hbwd, by omega, ?_, le_refl 0⟩
    · rw [hfwd, if_neg h]
    · rw [edgeC_eq hi]
      exact hcap _ (List.getElem_mem hi)

/-- **C4**: in the residual graph produced by `buildResidualGraph`,
every original edge's forward/backward slots form a matched pair whose
capacities are nonnegative and sum to the original capacity
(`Paired`), and every successful DFS of a `fordFulkMaxFlow` run — the
operation that performs all pushes — preserves this invariant, so it
holds after every push of the run. -/
theorem c4_residual_pair_invariant (n : Nat) (edges : List EdgeTuple)
    (hcap : ∀ e ∈ edges, 0 ≤ e.2.2) :
    Paired edges (buildResidualGraph n edges) ∧
    (∀ fuel t u limit res vis p res' vis',
      Paired edges res → vis u = false → vis t = false → 0 < limit →
      dfs fuel u t limit res vis = some (p, res', vis') →
      Paired edges res') := by
  refine ⟨build_paired n edges hcap, ?_⟩
  intro fuel t u limit res vis p res' vis' hP hvu hvt hlim hrun
  exact (dfs_spec edges t fuel u limit res vis p res' vis' hP hvu hvt hlim hrun).1

/-- **C4 witness**: on the concrete one-edge instance, the built graph
is `Paired` and the DFS that pushes 2 units preserves `Paired`. -/
theorem c4_witness :
    Paired [(0, 1, 2)] (buildResidualGraph 2 [(0, 1, 2)]) ∧
    (dfs 3 0 1 ⊤ (buildResidualGraph 2 [(0, 1, 2)]) (fun _ => false)).elim False
      (fun r => Paired [(0, 1, 2)] r.2.1) := by
  obtain ⟨hb, hpres⟩ := c4_residual_pair_invariant 2 [(0, 1, 2)] (by decide)
  refine ⟨hb, ?_⟩
  cases hE : dfs 3 0 1 ⊤ (buildResidualGraph 2 [(0, 1, 2)]) (fun _ => false) with
  | none =>
    have hS : (dfs 3 0 1 ⊤ (buildResidualGraph 2 [(0, 1, 2)])
        (fun _ => false)).isSome = true := rfl
    rw [hE] at hS
    exact Bool.noConfusion hS
  | some r =>
    show Paired [(0, 1, 2)] r.2.1
    exact hpres 3 1 0 ⊤ _ (fun _ => false) r.1 r.2.1 r.2.2 hb rfl rfl
      (by decide) hE

/-! ### Fuel sufficiency for the DFS and the outer loop -/

theorem countP_lt_of_mem {p q : Nat → Bool} :
    ∀ (l : List Nat) (x : Nat), x ∈ l → p x = true → q x = false →
    (∀ a, q a = true → p a = true) → l.countP q < l.countP p := by
  intro l
  induction l with
  | nil => intro x hx; exact absurd hx (List.not_mem_nil x)
  | cons a l ih =>
    intro x hx hpx hqx himp
    rw [List.countP_cons, List.countP_cons]
    rcases List.mem_cons.mp hx with rfl | hx'
    · rw [hqx, hpx]
      simp
      exact Nat.lt_succ_of_le (List.countP_mono_left (fun a _ ha => himp a ha))
    · have h1 := ih x hx' hpx hqx himp
      have h2 : (if q a = true then 1 else 0) ≤ (if p a = true then 1 else 0) := by
        by_cases hqa : q a = true
        · rw [if_pos hqa, if_pos (himp a hqa)]
        · rw [if_neg hqa]
          omega
      omega

theorem unvisCount_eq_countP (n : Nat) (vis : Nat → Bool) :
    unvisCount n vis = (List.range n).countP (fun w => !vis w) := by
  unfold unvisCount
  rw [List.countP_eq_length_filter]

theorem unvisCount_mark (n u : Nat) (vis : Nat → Bool)
    (hu : u < n) (hvu : vis u = false) :
    unvisCount n (upd vis u true) < unvisCount n vis := by
  rw [unvisCount_eq_countP, unvisCount_eq_countP]
  apply countP_lt_of_mem (List.range n) u (List.mem_range.mpr hu)
  · rw [hvu]
    rfl
  · rw [upd_same]
    rfl
  · intro a ha
    by_cases hau : a = u
    · subst hau
      rw [upd_same] at ha
      exact Bool.noConfusion ha
    · rw [upd_other _ _ _ _ hau] at ha
      exact ha

theorem unvisCount_mono (n : Nat) (vis vis' : Nat → Bool)
    (h : ∀ w, vis w = true → vis' w = true) :
    unvisCount n vis' ≤ unvisCount n vis := by
  rw [unvisCount_eq_countP, unvisCount_eq_countP]
  apply List.countP_mono_left
  intro a _ ha
  simp only [Bool.not_eq_true'] at ha ⊢
  cases hva : vis a
  · rfl
  · rw [h a hva] at ha
    exact Bool.noConfusion ha

theorem unvisCount_le (n : Nat) (vis : Nat → Bool) : unvisCount n vis ≤ n := by
  rw [unvisCount_eq_countP]
  calc (List.range n).countP (fun w => !vis w)
      ≤ (List.range n).length := List.countP_le_length _
    _ = n := List.length_range n

/-- Under the pair invariant every stored residual edge points at an
endpoint of some input edge, hence below `n` on an in-range edge
list. -/
theorem paired_edgesBelow (n : Nat) (edges : List EdgeTuple) (res : ResGraph)
    (h : Paired edges res)
    (hend : ∀ e ∈ edges, e.1 < n ∧ e.2.1 < n) :
    EdgesBelow n res := by
  intro w ed hed
  obtain ⟨j, hj⟩ := List.mem_iff_getElem?.mp hed
  have hjlt : j < countSlots edges edges.length w := by
    rw [← h.1 w]
    exact (List.getElem?_eq_some_iff.mp hj).1
  have hUlt : ∀ i, i < edges.length → edgeU edges i < n := by
    intro i hi
    rw [edgeU_eq hi]
    exact (hend _ (List.getElem_mem hi)).1
  have hVlt : ∀ i, i < edges.length → edgeV edges i < n := by
    intro i hi
    rw [edgeV_eq hi]
    exact (hend _ (List.getElem_mem hi)).2
  rcases slot_decode edges edges.length (le_refl _) w j hjlt with
    ⟨i, hi, hu, hidx⟩ | ⟨i, hi, hv, hidx⟩
  · have hpi := h.2 i hi
    unfold PairedAt at hpi
    by_cases hself : edgeU edges i = edgeV edges i
    · rw [if_pos hself] at hpi
      rw [hu, hidx, hj] at hpi
      have := Option.some.inj hpi.1
      rw [this]
      exact hVlt i hi
    · rw [if_neg hself] at hpi
      obtain ⟨fc, bc, hf, _, _⟩ := hpi
      rw [hu, hidx, hj] at hf
      have := Option.some.inj hf
      rw [this]
      exact hVlt i hi
  · have hpi := h.2 i hi
    unfold PairedAt at hpi
    by_cases hself : edgeU edges i = edgeV edges i
    · rw [if_pos hself] at hpi
      rw [hv, hidx, hj] at hpi
      have := Option.some.inj hpi.2
      rw [this]
      exact hUlt i hi
    · rw [if_neg hself] at hpi
      obtain ⟨fc, bc, _, hb, _⟩ := hpi
      rw [hv, hidx, hj] at hb
      have := Option.some.inj hb
      rw [this]
      exact hUlt i hi

/-- Under the pair invariant the flow read off the backward slots is
feasible: nonnegative and within each edge's capacity. -/
theorem paired_flow_bounds (edges : List EdgeTuple) (res : ResGraph)
    (h : Paired edges res) (hcap : ∀ e ∈ edges, 0 ≤ e.2.2) :
    ∀ i, i < edges.length →
      0 ≤ flowAt edges res i ∧ flowAt edges res i ≤ edgeC edges i := by
  intro i hi
  have hpi := h.2 i hi
  have hc : 0 ≤ edgeC edges i := by
    rw [edgeC_eq hi]
    exact hcap _ (List.getElem_mem hi)
  unfold PairedAt at hpi
  by_cases hself : edgeU edges i = edgeV edges i
  · rw [if_pos hself] at hpi
    rw [flowAt_eq edges res i _ hpi.2]
    exact ⟨le_refl 0, hc⟩
  · rw [if_neg hself] at hpi
    obtain ⟨fc, bc, hf, hb, hsum, hfc, hbc⟩ := hpi
    rw [flowAt_eq edges res i _ hb]
    refine ⟨hbc, ?_⟩
    show bc ≤ edgeC edges i
    omega

/-- Any capacity-respecting nonnegative flow vector has net outflow at
most the total capacity, at every node. -/
theorem netOut_le_capSum (edges : List EdgeTuple) (f : Nat → Int) (s : Nat)
    (hf : ∀ i, i < edges.length → 0 ≤ f i ∧ f i ≤ edgeC edges i) :
    netOut edges f s ≤ capSumInt edges := by
  unfold netOut capSumInt
  apply Finset.sum_le_sum
  intro i hi
  obtain ⟨h1, h2⟩ := hf i (Finset.mem_range.mp hi)
  split_ifs <;> omega

/-- The DFS edge loop never exhausts fuel when every recursive call at
the given fuel is safe on strictly-smaller unvisited counts. -/
theorem dfsEdges_no_fail (n : Nat) (edges : List EdgeTuple) (t : Nat)
    (hend : ∀ e ∈ edges, e.1 < n ∧ e.2.1 < n) (fuel : Nat)
    (hfuel : ∀ v lim res vis, Paired edges res → v < n → vis v = false →
      vis t = false → 0 < lim → unvisCount n vis < fuel →
      dfs fuel v t lim res vis ≠ none)
    (u : Nat) (limit : WithTop Int) (hlim : 0 < limit) :
    ∀ (k j : Nat) (res : ResGraph) (vis : Nat → Bool),
      Paired edges res → vis u = true → vis t = false →
      unvisCount n vis < fuel →
      dfsEdges (fun v lim r w => dfs fuel v t lim r w) u limit k j res vis
        ≠ none := by
  intro k
  induction k with
  | zero =>
    intro j res vis _ _ _ _ h
    simp [dfsEdges] at h
  | succ k ih =>
    intro j res vis hP hvu hvt hcnt h
    cases hg : (res u)[j]? with
    | none => simp [dfsEdges, hg] at h
    | some e =>
      by_cases hcap : e.cap ≤ 0
      · simp only [dfsEdges, hg, if_pos hcap] at h
        exact ih (j + 1) res vis hP hvu hvt hcnt h
      · by_cases hvd : vis e.dst = true
        · simp only [dfsEdges, hg, if_neg hcap, if_pos hvd] at h
          exact ih (j + 1) res vis hP hvu hvt hcnt h
        · have hnvis : vis e.dst = false := Bool.eq_false_iff.mpr hvd
          have hdlt : e.dst < n :=
            paired_edgesBelow n edges res hP hend u e (mem_of_getElemOpt hg)
          have hlim2 : (0 : WithTop Int) < min limit ((e.cap : Int) : WithTop Int) :=
            lt_min hlim (by exact_mod_cast lt_of_not_le hcap)
          cases hr : dfs fuel e.dst t (min limit ((e.cap : Int) : WithTop Int))
              res vis with
          | none => exact hfuel e.dst _ res vis hP hdlt hnvis hvt hlim2 hcnt hr
          | some trip =>
            obtain ⟨p1, res1, vis1⟩ := trip
            obtain ⟨S1P, _, _, _, _, _, S1mono, S1t, _, _, _⟩ :=
              dfs_spec edges t fuel e.dst _ res vis p1 res1 vis1
                hP hnvis hvt hlim2 hr
            by_cases hpos : (0 : WithTop Int) < p1
            · simp only [dfsEdges, hg, if_neg hcap, if_neg hvd, hr,
                if_pos hpos] at h
              exact Option.noConfusion h
            · simp only [dfsEdges, hg, if_neg hcap, if_neg hvd, hr,
                if_neg hpos] at h
              have hv1u : vis1 u = true := S1mono u hvu
              have hv1t : vis1 t = false := by rw [S1t, hvt]
              have hcnt1 : unvisCount n vis1 < fuel :=
                lt_of_le_of_lt (unvisCount_mono n vis vis1 S1mono) hcnt
              exact ih (j + 1) res1 vis1 S1P hv1u hv1t hcnt1 h

/-- Fuel sufficiency of the DFS: with more fuel than unvisited nodes
(on an in-range residual graph satisfying the pair invariant) the DFS
never returns `none`. -/
theorem dfs_no_fail (n : Nat) (edges : List EdgeTuple) (t : Nat)
    (hend : ∀ e ∈ edges, e.1 < n ∧ e.2.1 < n) :
    ∀ (fuel : Nat) (u : Nat) (limit : WithTop Int) (res : ResGraph)
      (vis : Nat → Bool),
      Paired edges res → u < n → vis u = false → vis t = false → 0 < limit →
      unvisCount n vis < fuel →
      dfs fuel u t limit res vis ≠ none := by
  intro fuel
  induction fuel with
  | zero =>
    intro u limit res vis _ _ _ _ _ hcnt
    exact absurd hcnt (Nat.not_lt_zero _)
  | succ fuel ih =>
    intro u limit res vis hP hun hvu hvt hlim hcnt h
    by_cases hut : u = t
    · subst hut
      simp [dfs] at h
    · simp only [dfs, if_neg hut] at h
      have hvu' : (upd vis u true) u = true := upd_same _ _ _
      have hvt' : (upd vis u true) t = false := by
        rw [upd_other _ _ _ _ (fun h : t = u => hut h.symm)]
        exact hvt
      have hcnt' : unvisCount n (upd vis u true) < fuel := by
        have h1 := unvisCount_mark n u vis hun hvu
        omega
      exact dfsEdges_no_fail n edges t hend fuel
        (fun v lim r w hP1 hv1 hf1 ht1 hl1 hc1 =>
          ih v lim r w hP1 hv1 hf1 ht1 hl1 hc1)
        u limit hlim ((res u).length) 0 res (upd vis u true)
        hP hvu' hvt' hcnt' h

/-! ### Cut arguments: flow value against cut capacities -/

/-- Summing a conserved flow's net outflow over the source side of a
cut telescopes to the value, and swapping the summation order expresses
it edge-by-edge against the cut. -/
theorem netOut_sum_over_cut (n : Nat) (edges : List EdgeTuple) (s t : Nat)
    (f : Nat → Int) (R : Nat → Bool)
    (hend : ∀ e ∈ edges, e.1 < n ∧ e.2.1 < n)
    (hcons : ∀ w, w ≠ s → w ≠ t → netOut edges f w = 0)
    (hs : s < n) (hRs : R s = true) (hRt : R t = false) :
    netOut edges f s
      = ∑ i ∈ Finset.range edges.length,
          f i * ((if R (edgeU edges i) = true then (1 : Int) else 0)
            - (if R (edgeV edges i) = true then 1 else 0)) := by
  have hA : netOut edges f s
      = ∑ w ∈ (Finset.range n).filter (fun w => R w = true),
          netOut edges f w := by
    symm
    apply Finset.sum_eq_single_of_mem
    · exact Finset.mem_filter.mpr ⟨Finset.mem_range.mpr hs, hRs⟩
    · intro b hb hbs
      have hbt : b ≠ t := by
        intro he
        rw [Finset.mem_filter, he] at hb
        rw [hb.2] at hRt
        exact Bool.noConfusion hRt
      exact hcons b hbs hbt
  rw [hA]
  unfold netOut
  rw [Finset.sum_comm]
  apply Finset.sum_congr rfl
  intro i hi
  have hi' := Finset.mem_range.mp hi
  have hUlt : edgeU edges i < n := by
    rw [edgeU_eq hi']
    exact (hend _ (List.getElem_mem hi')).1
  have hVlt : edgeV edges i < n := by
    rw [edgeV_eq hi']
    exact (hend _ (List.getElem_mem hi')).2
  rw [Finset.sum_sub_distrib, Finset.sum_ite_eq, Finset.sum_ite_eq]
  by_cases hRu : R (edgeU edges i) = true
  · rw [if_pos (Finset.mem_filter.mpr ⟨Finset.mem_range.mpr hUlt, hRu⟩),
      if_pos hRu]
    by_cases hRv : R (edgeV edges i) = true
    · rw [if_pos (Finset.mem_filter.mpr ⟨Finset.mem_range.mpr hVlt, hRv⟩),
        if_pos hRv]
      ring
    · rw [if_neg (show edgeV edges i ∉
          Finset.filter (fun w => R w = true) (Finset.range n) from
          fun hmem => hRv (Finset.mem_filter.mp hmem).2), if_neg hRv]
      ring
  · rw [if_neg (show edgeU edges i ∉
        Finset.filter (fun w => R w = true) (Finset.range n) from
        fun hmem => hRu (Finset.mem_filter.mp hmem).2), if_neg hRu]
    by_cases hRv : R (edgeV edges i) = true
    · rw [if_pos (Finset.mem_filter.mpr ⟨Finset.mem_range.mpr hVlt, hRv⟩),
        if_pos hRv]
      ring
    · rw [if_neg (show edgeV edges i ∉
          Finset.filter (fun w => R w = true) (Finset.range n) from
          fun hmem => hRv (Finset.mem_filter.mp hmem).2), if_neg hRv]
      ring

/-- Weak duality: the value of any feasible conserved flow is at most
the capacity of any source/sink-separating cut. -/
theorem flow_value_le_cutCap (n : Nat) (edges : List EdgeTuple) (s t : Nat)
    (f : Nat → Int) (R : Nat → Bool)
    (hend : ∀ e ∈ edges, e.1 < n ∧ e.2.1 < n)
    (hf : ∀ i, i < edges.length → 0 ≤ f i ∧ f i ≤ edgeC edges i)
    (hcons : ∀ w, w ≠ s → w ≠ t → netOut edges f w = 0)
    (hs : s < n) (hRs : R s = true) (hRt : R t = false) :
    netOut edges f s ≤ cutCap edges R := by
  rw [netOut_sum_over_cut n edges s t f R hend hcons hs hRs hRt]
  unfold cutCap
  apply Finset.sum_le_sum
  intro i hi
  obtain ⟨h1, h2⟩ := hf i (Finset.mem_range.mp hi)
  by_cases hRu : R (edgeU edges i) = true
  · by_cases hRv : R (edgeV edges i) = true
    · have hno : ¬(R (edgeU edges i) = true ∧ R (edgeV edges i) = false) := by
        intro hc
        rw [hRv] at hc
        exact Bool.noConfusion hc.2
      rw [if_pos hRu, if_pos hRv, if_neg hno]
      have he : f i * ((1 : Int) - 1) = 0 := by ring
      rw [he]
    · have hRvf : R (edgeV edges i) = false := Bool.eq_false_iff.mpr hRv
      rw [if_pos hRu, if_neg hRv, if_pos ⟨hRu, hRvf⟩]
      have he : f i * ((1 : Int) - 0) = f i := by ring
      rw [he]
      exact h2
  · rw [if_neg hRu, if_neg (show ¬(R (edgeU edges i) = true ∧
        R (edgeV edges i) = false) from fun hc => hRu hc.1)]
    by_cases hRv : R (edgeV edges i) = true
    · rw [if_pos hRv]
      have he : f i * ((0 : Int) - 1) = -(f i) := by ring
      rw [he]
      omega
    · rw [if_neg hRv]
      have he : f i * ((0 : Int) - 0) = 0 := by ring
      rw [he]


/-- When a visited set is closed under positive residual edges, every
edge crossing out of it is saturated and every edge crossing into it
carries no flow. -/
theorem closed_cut_flows (edges : List EdgeTuple) (res : ResGraph)
    (h : Paired edges res) (vis : Nat → Bool)
    (hclosed : ResClosed res vis) :
    ∀ i, i < edges.length →
      (vis (edgeU edges i) = true → vis (edgeV edges i) = false →
        flowAt edges res i = edgeC edges i) ∧
      (vis (edgeU edges i) = false → vis (edgeV edges i) = true →
        flowAt edges res i = 0) := by
  intro i hi
  have hpi := h.2 i hi
  unfold PairedAt at hpi
  by_cases hself : edgeU edges i = edgeV edges i
  · rw [if_pos hself] at hpi
    constructor
    · intro hU hV
      rw [hself, hV] at hU
      exact Bool.noConfusion hU
    · intro hU hV
      rw [hself, hV] at hU
      exact Bool.noConfusion hU
  · rw [if_neg hself] at hpi
    obtain ⟨fc, bc, hfw, hbw, hsum, hfc, hbc⟩ := hpi
    rw [flowAt_eq edges res i _ hbw]
    constructor
    · intro hU hV
      have hmem := mem_of_getElemOpt hfw
      by_cases hpos : 0 < fc
      · have hcl := hclosed (edgeU edges i) hU _ hmem hpos
        rw [show (⟨edgeV edges i, fc, bposIdx edges i⟩ : Edge).dst
            = edgeV edges i from rfl] at hcl
        rw [hcl] at hV
        exact Bool.noConfusion hV
      · show bc = edgeC edges i
        omega
    · intro hU hV
      have hmem := mem_of_getElemOpt hbw
      by_cases hpos : 0 < bc
      · have hcl := hclosed (edgeV edges i) hV _ hmem hpos
        rw [show (⟨edgeU edges i, bc, fposIdx edges i⟩ : Edge).dst
            = edgeU edges i from rfl] at hcl
        rw [hcl] at hU
        exact Bool.noConfusion hU
      · show bc = 0
        omega

/-- Max-flow/min-cut equality at a failed search: if the visited set is
residually closed, separates `s` from `t`, and the flow is conserved,
then the flow's value equals the capacity of the visited-set cut. -/
theorem closed_value_eq_cutCap (n : Nat) (edges : List EdgeTuple) (s t : Nat)
    (res : ResGraph) (vis : Nat → Bool)
    (hP : Paired edges res) (hclosed : ResClosed res vis)
    (hend : ∀ e ∈ edges, e.1 < n ∧ e.2.1 < n)
    (hcons : ∀ w, w ≠ s → w ≠ t → netOut edges (flowAt edges res) w = 0)
    (hs : s < n) (hRs : vis s = true) (hRt : vis t = false) :
    netOut edges (flowAt edges res) s = cutCap edges vis := by
  rw [netOut_sum_over_cut n edges s t _ vis hend hcons hs hRs hRt]
  unfold cutCap
  apply Finset.sum_congr rfl
  intro i hi
  have hi' := Finset.mem_range.mp hi
  obtain ⟨hcross, hback⟩ := closed_cut_flows edges res hP vis hclosed i hi'
  by_cases hRu : vis (edgeU edges i) = true
  · by_cases hRv : vis (edgeV edges i) = true
    · have hno : ¬(vis (edgeU edges i) = true ∧ vis (edgeV edges i) = false) := by
        intro hc
        rw [hRv] at hc
        exact Bool.noConfusion hc.2
      rw [if_pos hRu, if_pos hRv, if_neg hno]
      ring
    · have hRvf : vis (edgeV edges i) = false := Bool.eq_false_iff.mpr hRv
      rw [if_pos hRu, if_neg hRv, if_pos ⟨hRu, hRvf⟩, hcross hRu hRvf]
      ring
  · have hRuf : vis (edgeU edges i) = false := Bool.eq_false_iff.mpr hRu
    rw [if_neg hRu, if_neg (show ¬(vis (edgeU edges i) = true ∧
        vis (edgeV edges i) = false) from fun hc => hRu hc.1)]
    by_cases hRv : vis (edgeV edges i) = true
    · rw [if_pos hRv, hback hRuf hRv]
      ring
    · rw [if_neg hRv]
      ring

/-- Right after the build every edge carries zero flow: the backward
slots are created with capacity 0. -/
theorem flow_build_zero (n : Nat) (edges : List EdgeTuple) :
    ∀ i, i < edges.length →
      flowAt edges (buildResidualGraph n edges) i = 0 := by
  intro i hi
  rw [buildResidualGraph_eq_buildPrefix]
  obtain ⟨_, hbuilt⟩ := buildPrefix_inv edges edges.length (le_refl _)
  obtain ⟨_, hbwd⟩ := hbuilt i hi
  rw [flowAt_eq edges _ i _ hbwd]

/-- The zero flow has zero net outflow everywhere. -/
theorem netOut_build_zero (n : Nat) (edges : List EdgeTuple) (w : Nat) :
    netOut edges (flowAt edges (buildResidualGraph n edges)) w = 0 := by
  unfold netOut
  apply Finset.sum_eq_zero
  intro i hi
  rw [flow_build_zero n edges i (Finset.mem_range.mp hi)]
  split_ifs <;> ring

/-- Invariant and termination of the `while True` loop of
`fordFulkMaxFlow`: starting from a paired, conserved residual state
whose accumulated value is `a`, the loop terminates within
`(capSumInt - a).toNat < fuel` iterations and returns the accumulated
value of a final state whose visited set from the failed DFS is a
residually-closed `s`-`t` separator. -/
theorem ffLoop_spec (n : Nat) (edges : List EdgeTuple) (s t : Nat)
    (hs : s < n) (hst : s ≠ t)
    (hend : ∀ e ∈ edges, e.1 < n ∧ e.2.1 < n)
    (hcap : ∀ e ∈ edges, 0 ≤ e.2.2) :
    ∀ (fuel : Nat) (res : ResGraph) (a : Int),
      Paired edges res →
      (∀ w, w ≠ s → w ≠ t → netOut edges (flowAt edges res) w = 0) →
      netOut edges (flowAt edges res) s = a →
      (capSumInt edges - a).toNat < fuel →
      ∃ (v : Int) (res2 : ResGraph) (vis2 : Nat → Bool),
        ffLoop fuel n s t res ((a : Int) : WithTop Int)
          = some ((v : Int) : WithTop Int) ∧
        Paired edges res2 ∧
        (∀ w, w ≠ s → w ≠ t → netOut edges (flowAt edges res2) w = 0) ∧
        netOut edges (flowAt edges res2) s = v ∧
        vis2 s = true ∧ vis2 t = false ∧ ResClosed res2 vis2 := by
  intro fuel
  induction fuel with
  | zero =>
    intro res a _ _ _ hbound
    exact absurd hbound (Nat.not_lt_zero _)
  | succ fuel ih =>
    intro res a hP hcons hval hbound
    have hcnt : unvisCount n (fun _ => false) < n + 1 :=
      Nat.lt_succ_of_le (unvisCount_le n _)
    have hne := dfs_no_fail n edges t hend (n + 1) s ⊤ res (fun _ => false)
      hP hs rfl rfl (by decide) hcnt
    cases hr : dfs (n + 1) s t ⊤ res (fun _ => false) with
    | none => exact absurd hr hne
    | some trip =>
      obtain ⟨p, res1, vis1⟩ := trip
      obtain ⟨S1P, S1p0, _, _, S1top, _, _, S1t, S1mark, S1net, S1zero⟩ :=
        dfs_spec edges t (n + 1) s ⊤ res (fun _ => false) p res1 vis1
          hP rfl rfl (by decide) hr
      by_cases hp0 : p = 0
      · obtain ⟨hres_eq, hclos⟩ := S1zero hp0
        refine ⟨a, res, vis1, ?_, hP, hcons, hval, S1mark hst, S1t, ?_⟩
        · simp only [ffLoop, hr]
          rw [if_pos hp0]
        · intro w hw ed hed hcap'
          exact hclos w hw rfl ed hed hcap'
      · have hppos : 0 < p := lt_of_le_of_ne S1p0 (Ne.symm hp0)
        have hptop : p ≠ ⊤ := S1top hst
        obtain ⟨q, rfl⟩ : ∃ q : Int, p = ((q : Int) : WithTop Int) := by
          cases p with
          | top => exact absurd rfl hptop
          | coe q => exact ⟨q, rfl⟩
        have hq0 : 0 < q := by exact_mod_cast hppos
        have hval1 : netOut edges (flowAt edges res1) s = a + q := by
          rw [S1net s, hval]
          simp only [WithTop.untop'_coe]
          rw [if_pos trivial, if_neg hst]
          ring
        have hcons1 : ∀ w, w ≠ s → w ≠ t →
            netOut edges (flowAt edges res1) w = 0 := by
          intro w hws hwt
          rw [S1net w, hcons w hws hwt]
          simp only [WithTop.untop'_coe]
          rw [if_neg hws, if_neg hwt]
          ring
        have hle := netOut_le_capSum edges (flowAt edges res1) s
          (paired_flow_bounds edges res1 S1P hcap)
        have hbound1 : (capSumInt edges - (a + q)).toNat < fuel := by
          rw [hval1] at hle
          omega
        obtain ⟨v, res2, vis2, hrun2, hrest⟩ :=
          ih res1 (a + q) S1P hcons1 hval1 hbound1
        refine ⟨v, res2, vis2, ?_, hrest⟩
        simp only [ffLoop, hr]
        have hq0' : ((q : Int) : WithTop Int) ≠ 0 := by
          exact_mod_cast (by omega : q ≠ 0)
        rw [if_neg hq0', ← WithTop.coe_add]
        exact hrun2

/-- Nodes outside the instance's range have zero net outflow under any
flow vector, since no edge touches them. -/
theorem netOut_eq_zero_of_ge (n : Nat) (edges : List EdgeTuple)
    (hend : ∀ e ∈ edges, e.1 < n ∧ e.2.1 < n) (f : Nat → Int) (w : Nat)
    (hw : n ≤ w) : netOut edges f w = 0 := by
  unfold netOut
  apply Finset.sum_eq_zero
  intro i hi
  have hi' := Finset.mem_range.mp hi
  have hU : edgeU edges i ≠ w := by
    have h1 : edgeU edges i < n := by
      rw [edgeU_eq hi']
      exact (hend _ (List.getElem_mem hi')).1
    omega
  have hV : edgeV edges i ≠ w := by
    have h1 : edgeV edges i < n := by
      rw [edgeV_eq hi']
      exact (hend _ (List.getElem_mem hi')).2
    omega
  rw [if_neg hU, if_neg hV]
  ring

/-- **C2**: on every well-formed instance, `fordFulkMaxFlow` (with
sufficient outer fuel, total capacity plus one) terminates and returns
an integer that is simultaneously the maximum value of any feasible
integer flow from `s` to `t` and the capacity of a minimum cut
separating `s` from `t` (the cut of the nodes visited by the final
failed DFS). -/
theorem c2_maxflow_mincut (n : Nat) (edges : List EdgeTuple) (s t : Nat)
    (hs : s < n) (ht : t < n) (hst : s ≠ t)
    (hend : ∀ e ∈ edges, e.1 < n ∧ e.2.1 < n)
    (hcap : ∀ e ∈ edges, 0 ≤ e.2.2) :
    ∃ v : Int,
      fordFulkMaxFlow ((capSumInt edges).toNat + 1) n edges s t
        = some ((v : Int) : WithTop Int) ∧
      IsGreatest {x : Int | ∃ f : Nat → Int,
        IsFlow n edges s t f ∧ netOut edges f s = x} v ∧
      ∃ R : Nat → Bool, R s = true ∧ R t = false ∧ cutCap edges R = v ∧
        ∀ R' : Nat → Bool, R' s = true → R' t = false →
          v ≤ cutCap edges R' := by
  have hPb := build_paired n edges hcap
  have hcons0 : ∀ w, w ≠ s → w ≠ t →
      netOut edges (flowAt edges (buildResidualGraph n edges)) w = 0 :=
    fun w _ _ => netOut_build_zero n edges w
  have hval0 : netOut edges (flowAt edges (buildResidualGraph n edges)) s
      = (0 : Int) := netOut_build_zero n edges s
  have hbound : (capSumInt edges - 0).toNat < (capSumInt edges).toNat + 1 := by
    omega
  obtain ⟨v, res2, vis2, hrun, hP2, hcons2, hval2, hvs, hvt, hclosed⟩ :=
    ffLoop_spec n edges s t hs hst hend hcap ((capSumInt edges).toNat + 1)
      (buildResidualGraph n edges) 0 hPb hcons0 hval0 hbound
  have hfeas2 := paired_flow_bounds edges res2 hP2 hcap
  have hcut2 : cutCap edges vis2 = v := by
    rw [← closed_value_eq_cutCap n edges s t res2 vis2 hP2 hclosed hend
      hcons2 hs hvs hvt]
    exact hval2
  refine ⟨v, ?_, ⟨⟨flowAt edges res2, ⟨hfeas2, fun w _ hws hwt =>
    hcons2 w hws hwt⟩, hval2⟩, ?_⟩, vis2, hvs, hvt, hcut2, ?_⟩
  · show ffLoop ((capSumInt edges).toNat + 1) n s t
      (buildResidualGraph n edges) 0 = some ((v : Int) : WithTop Int)
    exact hrun
  · rintro x ⟨f, ⟨hfb, hfc⟩, rfl⟩
    have hconsf : ∀ w, w ≠ s → w ≠ t → netOut edges f w = 0 := by
      intro w hws hwt
      by_cases hw : w < n
      · exact hfc w hw hws hwt
      · exact netOut_eq_zero_of_ge n edges hend f w (le_of_not_lt hw)
    have := flow_value_le_cutCap n edges s t f vis2 hend hfb hconsf hs hvs hvt
    rw [hcut2] at this
    exact this
  · intro R' hR's hR't
    have := flow_value_le_cutCap n edges s t (flowAt edges res2) R' hend
      hfeas2 hcons2 hs hR's hR't
    rw [hval2] at this
    exact this

/-- **C2 witness**: the two-node one-edge instance satisfies the
hypotheses, and the theorem applies. -/
theorem c2_witness :
    ((0 : Nat) < 2) ∧ ((1 : Nat) < 2) ∧ ((0 : Nat) ≠ 1) ∧
    (∀ e ∈ [((0 : Nat), (1 : Nat), (3 : Int))], e.1 < 2 ∧ e.2.1 < 2) ∧
    (∀ e ∈ [((0 : Nat), (1 : Nat), (3 : Int))], 0 ≤ e.2.2) ∧
    (∃ v : Int,
      fordFulkMaxFlow ((capSumInt [((0 : Nat), (1 : Nat), (3 : Int))]).toNat + 1)
          2 [(0, 1, 3)] 0 1 = some ((v : Int) : WithTop Int) ∧
      IsGreatest {x : Int | ∃ f : Nat → Int,
        IsFlow 2 [(0, 1, 3)] 0 1 f ∧ netOut [(0, 1, 3)] f 0 = x} v ∧
      ∃ R : Nat → Bool, R 0 = true ∧ R 1 = false ∧
        cutCap [(0, 1, 3)] R = v ∧
        ∀ R' : Nat → Bool, R' 0 = true → R' 1 = false →
          v ≤ cutCap [(0, 1, 3)] R') :=
  ⟨by decide, by decide, by decide, by decide, by decide,
    c2_maxflow_mincut 2 [(0, 1, 3)] 0 1 (by decide) (by decide) (by decide)
      (by decide) (by decide)⟩

/-! ### Preflow-push: basic state lemmas -/

theorem sum_range_update_one (f g : Nat → Int) (n i : Nat) (hi : i < n)
    (hoff : ∀ w, w < n → w ≠ i → g w = f w) :
    ∑ w ∈ Finset.range n, g w = (∑ w ∈ Finset.range n, f w) + (g i - f i) := by
  have hmem : i ∈ Finset.range n := Finset.mem_range.mpr hi
  rw [← Finset.sum_erase_add _ g hmem, ← Finset.sum_erase_add _ f hmem]
  have hcong : ∀ w ∈ (Finset.range n).erase i, g w = f w := by
    intro w hw
    exact hoff w (Finset.mem_range.mp (Finset.mem_of_mem_erase hw))
      (Finset.ne_of_mem_erase hw)
  rw [Finset.sum_congr rfl hcong]
  ring

theorem sum_range_nat_two_le (F G : Nat → Nat) (n u v d : Nat)
    (hu : u < n) (hv : v < n) (huv : u ≠ v)
    (hoff : ∀ w, w < n → w ≠ u → w ≠ v → G w = F w)
    (hle : G u + G v + d ≤ F u + F v) :
    (∑ w ∈ Finset.range n, G w) + d ≤ ∑ w ∈ Finset.range n, F w := by
  have hmu : u ∈ Finset.range n := Finset.mem_range.mpr hu
  have hmv : v ∈ (Finset.range n).erase u :=
    Finset.mem_erase.mpr ⟨Ne.symm huv, Finset.mem_range.mpr hv⟩
  rw [← Finset.sum_erase_add _ G hmu, ← Finset.sum_erase_add _ F hmu,
    ← Finset.sum_erase_add _ G hmv, ← Finset.sum_erase_add _ F hmv]
  have hcong : ∀ w ∈ ((Finset.range n).erase u).erase v, G w = F w := by
    intro w hw
    have hw1 := Finset.ne_of_mem_erase hw
    have hw2 := Finset.ne_of_mem_erase (Finset.mem_of_mem_erase hw)
    have hw3 := Finset.mem_range.mp
      (Finset.mem_of_mem_erase (Finset.mem_of_mem_erase hw))
    exact hoff w hw3 hw2 hw1
  have hre : ∑ w ∈ ((Finset.range n).erase u).erase v, G w
      = ∑ w ∈ ((Finset.range n).erase u).erase v, F w :=
    Finset.sum_congr rfl hcong
  omega

/-- Effect of one admissible push on the state: the invariant is
preserved, heights, graph and queue are untouched, and the potential
`ppPhi` strictly decreases. -/
theorem push_spec (s t : Nat) (pp : PP) (SV : PPValid s t pp) (u v : Nat)
    (huV : u < pp.V) (hvV : v < pp.V) (hus : u ≠ s)
    (hexu : 0 < pp.excess u)
    (hres : 0 < pp.residual u v) (hh : pp.height u = pp.height v + 1)
    (hqu : u ∉ pp.active_nodes) :
    PPValid s t (pp.push u v) ∧
    (pp.push u v).height = pp.height ∧
    (pp.push u v).V = pp.V ∧
    (pp.push u v).graph = pp.graph ∧
    (pp.push u v).active_nodes = pp.active_nodes ∧
    ppPhi (pp.push u v) + 1 ≤ ppPhi pp ∧
    ppH (pp.push u v) = ppH pp := by
  have huv : u ≠ v := by
    intro he
    rw [he] at hh
    omega
  set δ := min (pp.excess u) (pp.residual u v) with hδ
  have hδpos : 0 < δ := lt_min hexu hres
  have hδe : δ ≤ pp.excess u := min_le_left _ _
  have hδr : δ ≤ pp.residual u v := min_le_right _ _
  have hfl : ∀ a b, (pp.push u v).flow a b =
      if a = v ∧ b = u then
        (if a = u ∧ b = v then pp.flow a b + δ else pp.flow a b) - δ
      else (if a = u ∧ b = v then pp.flow a b + δ else pp.flow a b) :=
    fun a b => rfl
  have hfl_uv : (pp.push u v).flow u v = pp.flow u v + δ := by
    rw [hfl]
    rw [if_neg (show ¬(u = v ∧ v = u) from fun hc => huv hc.1),
      if_pos ⟨rfl, rfl⟩]
  have hfl_vu : (pp.push u v).flow v u = pp.flow v u - δ := by
    rw [hfl]
    rw [if_pos ⟨rfl, rfl⟩,
      if_neg (show ¬(v = u ∧ u = v) from fun hc => huv hc.1.symm)]
  have hfl_off : ∀ a b, ¬(a = u ∧ b = v) → ¬(a = v ∧ b = u) →
      (pp.push u v).flow a b = pp.flow a b := by
    intro a b h1 h2
    rw [hfl, if_neg h2, if_neg h1]
  have hex : ∀ w, (pp.push u v).excess w =
      upd (upd pp.excess u (pp.excess u - δ)) v
        ((upd pp.excess u (pp.excess u - δ)) v + δ) w := fun w => rfl
  have hex_u : (pp.push u v).excess u = pp.excess u - δ := by
    rw [hex, upd_other _ _ _ _ huv, upd_same]
  have hex_v : (pp.push u v).excess v = pp.excess v + δ := by
    rw [hex, upd_same, upd_other _ _ _ _ (Ne.symm huv)]
  have hex_off : ∀ w, w ≠ u → w ≠ v → (pp.push u v).excess w = pp.excess w := by
    intro w hw1 hw2
    rw [hex, upd_other _ _ _ _ hw2, upd_other _ _ _ _ hw1]
  have hht : (pp.push u v).height = pp.height := rfl
  have hVv : (pp.push u v).V = pp.V := rfl
  have hgr : (pp.push u v).graph = pp.graph := rfl
  have hq : (pp.push u v).active_nodes = pp.active_nodes := rfl
  refine ⟨⟨?_, ?_, ?_, ?_, ?_, ?_, ?_, ?_, ?_, ?_, ?_, ?_, ?_⟩,
    hht, hVv, hgr, hq, ?_, rfl⟩
  · rw [hVv, hgr]
    exact SV.hVlen
  · rw [hVv]
    exact SV.hsV
  · rw [hgr]
    exact SV.capnn
  · rw [hVv]
    intro a b haV hbV hab
    by_cases h1 : a = u ∧ b = v
    · obtain ⟨rfl, rfl⟩ := h1
      rw [hfl_uv, hfl_vu, SV.antisym a b haV hbV hab]
      ring
    · by_cases h2 : a = v ∧ b = u
      · obtain ⟨rfl, rfl⟩ := h2
        rw [hfl_vu, hfl_uv, SV.antisym a b haV hbV hab]
        ring
      · rw [hfl_off a b h1 h2, hfl_off b a
          (fun hc => h2 ⟨hc.2, hc.1⟩) (fun hc => h1 ⟨hc.2, hc.1⟩)]
        exact SV.antisym a b haV hbV hab
  · have h1 : ¬(s = u ∧ s = v) := fun hc => hus hc.1.symm
    have h2 : ¬(s = v ∧ s = u) := fun hc => hus hc.2.symm
    rw [hfl_off s s h1 h2]
    exact SV.selfs
  · rw [hVv, hgr]
    intro a b haV hbV
    by_cases h1 : a = u ∧ b = v
    · obtain ⟨rfl, rfl⟩ := h1
      rw [hfl_uv]
      have : pp.residual a b = capMat pp.graph a b - pp.flow a b := rfl
      omega
    · by_cases h2 : a = v ∧ b = u
      · obtain ⟨rfl, rfl⟩ := h2
        rw [hfl_vu]
        have := SV.capf a b haV hbV
        omega
      · rw [hfl_off a b h1 h2]
        exact SV.capf a b haV hbV
  · rw [hVv]
    intro w hwV hws
    by_cases hw1 : w = u
    · rw [hw1, hex_u, SV.exdef u huV hus]
      rw [sum_range_update_one (fun x => pp.flow x u)
        (fun x => (pp.push u v).flow x u) pp.V v hvV]
      · rw [hfl_vu]
        ring
      · intro x hxV hxv
        exact hfl_off x u (fun hc => huv hc.2) (fun hc => hxv hc.1)
    · by_cases hw2 : w = v
      · have hvs : v ≠ s := by
          rw [← hw2]
          exact hws
        rw [hw2, hex_v, SV.exdef v hvV hvs]
        rw [sum_range_update_one (fun x => pp.flow x v)
          (fun x => (pp.push u v).flow x v) pp.V u huV]
        · rw [hfl_uv]
          ring
        · intro x hxV hxu
          exact hfl_off x v (fun hc => hxu hc.1) (fun hc => huv hc.2.symm)
      · rw [hex_off w hw1 hw2, SV.exdef w hwV hws]
        apply Finset.sum_congr rfl
        intro x _
        exact (hfl_off x w (fun hc => hw2 hc.2) (fun hc => hw1 hc.2)).symm
  · rw [hVv]
    intro w hwV hws
    by_cases hw1 : w = u
    · subst hw1
      rw [hex_u]
      omega
    · by_cases hw2 : w = v
      · subst hw2
        rw [hex_v]
        have := SV.exnn w hwV hws
        omega
      · rw [hex_off w hw1 hw2]
        exact SV.exnn w hwV hws
  · rw [hht, hVv]
    exact SV.hsrc
  · rw [hVv, hht]
    intro a b haV hbV hres'
    have hresdef : ∀ x y, (pp.push u v).residual x y
        = capMat pp.graph x y - (pp.push u v).flow x y := fun x y => rfl
    by_cases h2 : a = v ∧ b = u
    · obtain ⟨rfl, rfl⟩ := h2
      omega
    · by_cases h1 : a = u ∧ b = v
      · obtain ⟨rfl, rfl⟩ := h1
        omega
      · rw [hresdef, hfl_off a b h1 h2] at hres'
        exact SV.hvalid a b haV hbV hres'
  · rw [hVv, hht]
    exact SV.hbound
  · rw [hq, hVv]
    intro w hw
    obtain ⟨hw1, hw2, hw3, hw4⟩ := SV.qmem w hw
    have hwu : w ≠ u := fun he => hqu (he ▸ hw)
    refine ⟨hw1, hw2, hw3, ?_⟩
    by_cases hwv : w = v
    · subst hwv
      rw [hex_v]
      omega
    · rw [hex_off w hwu hwv]
      exact hw4
  · rw [hq]
    exact SV.qnodup
  · -- ppPhi decreases by at least one
    unfold ppPhi
    rw [hVv, hht]
    have htoe : ((pp.push u v).excess u).toNat
        = (pp.excess u).toNat - δ.toNat := by
      rw [hex_u]
      omega
    have htov : ((pp.push u v).excess v).toNat
        ≤ (pp.excess v).toNat + δ.toNat := by
      rw [hex_v]
      omega
    have hδ1 : 1 ≤ δ.toNat := by omega
    apply le_trans (Nat.add_le_add_left hδ1 _)
    apply sum_range_nat_two_le
      (fun w => (pp.excess w).toNat * pp.height w)
      (fun w => ((pp.push u v).excess w).toNat * pp.height w)
      pp.V u v δ.toNat huV hvV huv
    · intro w _ hw1 hw2
      rw [hex_off w hw1 hw2]
    · -- arithmetic at the two changed nodes
      show ((pp.push u v).excess u).toNat * pp.height u
          + ((pp.push u v).excess v).toNat * pp.height v + δ.toNat
        ≤ (pp.excess u).toNat * pp.height u + (pp.excess v).toNat * pp.height v
      rw [htoe, hh]
      have had : δ.toNat ≤ (pp.excess u).toNat := by omega
      have e1 : ((pp.excess u).toNat - δ.toNat) * (pp.height v + 1)
          = (pp.excess u).toNat * (pp.height v + 1)
            - δ.toNat * (pp.height v + 1) :=
        Nat.sub_mul _ _ _
      have e2 : δ.toNat * (pp.height v + 1)
          = δ.toNat * pp.height v + δ.toNat := by ring
      have e3 : ((pp.push u v).excess v).toNat * pp.height v
          ≤ (pp.excess v).toNat * pp.height v + δ.toNat * pp.height v := by
        calc ((pp.push u v).excess v).toNat * pp.height v
            ≤ ((pp.excess v).toNat + δ.toNat) * pp.height v :=
              Nat.mul_le_mul_right _ htov
          _ = (pp.excess v).toNat * pp.height v + δ.toNat * pp.height v := by
              ring
      have e4 : δ.toNat * (pp.height v + 1)
          ≤ (pp.excess u).toNat * (pp.height v + 1) :=
        Nat.mul_le_mul_right _ had
      omega

/-- Appending a below-range, excess-holding, non-source/sink node not
already queued preserves the invariant (the enqueue step of a
discharge pass). -/
theorem enqueue_valid (s t : Nat) (pp : PP) (SV : PPValid s t pp) (v : Nat)
    (hvV : v < pp.V) (hvs : v ≠ s) (hvt : v ≠ t) (hve : 0 < pp.excess v)
    (hvq : v ∉ pp.active_nodes) :
    PPValid s t { pp with active_nodes := pp.active_nodes ++ [v] } := by
  refine ⟨SV.hVlen, SV.hsV, SV.capnn, SV.antisym, SV.selfs, SV.capf,
    SV.exdef, SV.exnn, SV.hsrc, SV.hvalid, SV.hbound, ?_, ?_⟩
  · intro w hw
    rcases List.mem_append.mp hw with hw1 | hw2
    · exact SV.qmem w hw1
    · rw [List.mem_singleton.mp hw2]
      exact ⟨hvV, hvs, hvt, hve⟩
  · rw [List.nodup_append]
    refine ⟨SV.qnodup, List.nodup_singleton v, ?_⟩
    intro x hx hx'
    rw [List.mem_singleton.mp hx'] at hx
    exact hvq hx

theorem foldl_min_le_init : ∀ (l : List Nat) (a : Nat), l.foldl min a ≤ a := by
  intro l
  induction l with
  | nil => intro a; exact le_refl a
  | cons x l ih =>
    intro a
    exact le_trans (ih (min a x)) (min_le_left a x)

theorem foldl_min_le_mem : ∀ (l : List Nat) (a x : Nat), x ∈ l →
    l.foldl min a ≤ x := by
  intro l
  induction l with
  | nil => intro a x hx; exact absurd hx (List.not_mem_nil x)
  | cons y l ih =>
    intro a x hx
    rcases List.mem_cons.mp hx with rfl | hx'
    · exact le_trans (foldl_min_le_init l (min a x)) (min_le_right a x)
    · exact ih (min a y) x hx'

theorem foldl_min_cases : ∀ (l : List Nat) (a : Nat),
    l.foldl min a = a ∨ l.foldl min a ∈ l := by
  intro l
  induction l with
  | nil => intro a; exact Or.inl rfl
  | cons x l ih =>
    intro a
    rcases ih (min a x) with h | h
    · rw [List.foldl_cons, h]
      rcases min_choice a x with h' | h'
      · exact Or.inl h'
      · refine Or.inr ?_
        rw [h']
        exact List.mem_cons_self x l
    · exact Or.inr (List.mem_cons_of_mem x h)

theorem sum_range_nat_update_one (F G : Nat → Nat) (n i : Nat) (hi : i < n)
    (hoff : ∀ w, w < n → w ≠ i → G w = F w) :
    (∑ w ∈ Finset.range n, G w) + F i
      = (∑ w ∈ Finset.range n, F w) + G i := by
  have hmem : i ∈ Finset.range n := Finset.mem_range.mpr hi
  rw [← Finset.sum_erase_add _ G hmem, ← Finset.sum_erase_add _ F hmem]
  have hre : ∑ w ∈ (Finset.range n).erase i, G w
      = ∑ w ∈ (Finset.range n).erase i, F w := by
    apply Finset.sum_congr rfl
    intro w hw
    exact hoff w (Finset.mem_range.mp (Finset.mem_of_mem_erase hw))
      (Finset.ne_of_mem_erase hw)
  omega

/-- Every node's excess is bounded by the total capacity. -/
theorem excess_le_capTotal (s t : Nat) (pp : PP) (SV : PPValid s t pp)
    (u : Nat) (huV : u < pp.V) (hus : u ≠ s) :
    pp.excess u ≤ capTotal pp.graph := by
  rw [SV.exdef u huV hus]
  calc ∑ w ∈ Finset.range pp.V, pp.flow w u
      ≤ ∑ w ∈ Finset.range pp.V, capMat pp.graph w u := by
        apply Finset.sum_le_sum
        intro w hw
        exact SV.capf w u (Finset.mem_range.mp hw) huV
    _ ≤ capTotal pp.graph := by
        unfold capTotal
        rw [← SV.hVlen]
        apply Finset.sum_le_sum
        intro w _
        exact Finset.single_le_sum (fun v _ => SV.capnn w v)
          (Finset.mem_range.mpr huV)

/-- Effect of one relabel under the run invariant, assuming the pass
found no admissible edge and some residual neighbor has height at most
`2V - 2` (supplied later by the reachability argument): the invariant
is preserved, only `u`'s height changes and it strictly increases, and
the measure `ppM` strictly decreases. -/
theorem relabel_spec (s t : Nat) (pp : PP) (SV : PPValid s t pp) (u : Nat)
    (huV : u < pp.V) (hus : u ≠ s)
    (hnoadm : NoAdmissible pp u)
    (hnb : ∃ w, w < pp.V ∧ 0 < pp.residual u w ∧
      pp.height w ≤ 2 * pp.V - 2) :
    PPValid s t (pp.relabel u) ∧
    (pp.relabel u).V = pp.V ∧
    (pp.relabel u).graph = pp.graph ∧
    (pp.relabel u).flow = pp.flow ∧
    (pp.relabel u).excess = pp.excess ∧
    (pp.relabel u).active_nodes = pp.active_nodes ∧
    pp.height u < (pp.relabel u).height u ∧
    (∀ w, w ≠ u → (pp.relabel u).height w = pp.height w) ∧
    ppM (pp.relabel u) < ppM pp := by
  have hmem_hs : ∀ x, x ∈ ((List.range pp.V).filter
      (fun v => 0 < pp.residual u v)).map pp.height ↔
      ∃ v, v < pp.V ∧ 0 < pp.residual u v ∧ pp.height v = x := by
    intro x
    simp only [List.mem_map, List.mem_filter, List.mem_range,
      decide_eq_true_eq]
    constructor
    · rintro ⟨v, ⟨hv1, hv2⟩, hv3⟩
      exact ⟨v, hv1, hv2, hv3⟩
    · rintro ⟨v, hv1, hv2, hv3⟩
      exact ⟨v, ⟨hv1, hv2⟩, hv3⟩
  obtain ⟨w0, hw0V, hw0r, hw0h⟩ := hnb
  cases hhs : ((List.range pp.V).filter
      (fun v => 0 < pp.residual u v)).map pp.height with
  | nil =>
    exfalso
    have : pp.height w0 ∈ ((List.range pp.V).filter
        (fun v => 0 < pp.residual u v)).map pp.height :=
      (hmem_hs _).mpr ⟨w0, hw0V, hw0r, rfl⟩
    rw [hhs] at this
    exact List.not_mem_nil _ this
  | cons h rest =>
    have hrel : pp.relabel u
        = { pp with height := upd pp.height u (rest.foldl min h + 1) } := by
      unfold PP.relabel
      rw [hhs]
    have hm_le : ∀ x ∈ h :: rest, rest.foldl min h ≤ x := by
      intro x hx
      rcases List.mem_cons.mp hx with rfl | hx'
      · exact foldl_min_le_init rest x
      · exact foldl_min_le_mem rest h x hx'
    have hm_mem : rest.foldl min h ∈ h :: rest := by
      rcases foldl_min_cases rest h with h' | h'
      · rw [h']
        exact List.mem_cons_self h rest
      · exact List.mem_cons_of_mem h h'
    obtain ⟨v0, hv0V, hv0r, hv0h⟩ :=
      (hmem_hs (rest.foldl min h)).mp (by rw [hhs]; exact hm_mem)
    have hmin_ge : pp.height u ≤ rest.foldl min h := by
      have hval := SV.hvalid u v0 huV hv0V hv0r
      have hne := hnoadm v0 hv0V
      rw [← hv0h]
      omega
    have hmin_le : rest.foldl min h ≤ 2 * pp.V - 2 := by
      have hw0mem : pp.height w0 ∈ h :: rest := by
        rw [← hhs]
        exact (hmem_hs _).mpr ⟨w0, hw0V, hw0r, rfl⟩
      exact le_trans (hm_le _ hw0mem) hw0h
    have hV' : (pp.relabel u).V = pp.V := by rw [hrel]
    have hg' : (pp.relabel u).graph = pp.graph := by rw [hrel]
    have hf' : (pp.relabel u).flow = pp.flow := by rw [hrel]
    have he' : (pp.relabel u).excess = pp.excess := by rw [hrel]
    have hq' : (pp.relabel u).active_nodes = pp.active_nodes := by rw [hrel]
    have hh_u : (pp.relabel u).height u = rest.foldl min h + 1 := by
      rw [hrel]
      exact upd_same _ _ _
    have hh_off : ∀ w, w ≠ u → (pp.relabel u).height w = pp.height w := by
      intro w hw
      rw [hrel]
      exact upd_other _ _ _ _ hw
    have hres' : ∀ a b, (pp.relabel u).residual a b = pp.residual a b := by
      intro a b
      unfold PP.residual
      rw [hg', hf']
    have hVpos : 1 ≤ pp.V := Nat.lt_of_le_of_lt (Nat.zero_le s) SV.hsV
    refine ⟨⟨?_, ?_, ?_, ?_, ?_, ?_, ?_, ?_, ?_, ?_, ?_, ?_, ?_⟩,
      hV', hg', hf', he', hq', ?_, hh_off, ?_⟩
    · rw [hV', hg']
      exact SV.hVlen
    · rw [hV']
      exact SV.hsV
    · rw [hg']
      exact SV.capnn
    · rw [hV', hf']
      exact SV.antisym
    · rw [hf']
      exact SV.selfs
    · rw [hV', hf', hg']
      exact SV.capf
    · rw [hV', he', hf']
      exact SV.exdef
    · rw [hV', he']
      exact SV.exnn
    · rw [hV', hh_off s (fun he => hus he.symm)]
      exact SV.hsrc
    · rw [hV']
      intro a b haV hbV hres
      rw [hres'] at hres
      by_cases hau : a = u
      · rw [hau] at hres ⊢
        rw [hh_u]
        by_cases hbu : b = u
        · rw [hbu, hh_u]
          omega
        · rw [hh_off b hbu]
          have hbmem : pp.height b ∈ h :: rest := by
            rw [← hhs]
            exact (hmem_hs _).mpr ⟨b, hbV, hres, rfl⟩
          have := hm_le _ hbmem
          omega
      · rw [hh_off a hau]
        by_cases hbu : b = u
        · rw [hbu, hh_u]
          rw [hbu] at hres
          have := SV.hvalid a u haV huV hres
          omega
        · rw [hh_off b hbu]
          exact SV.hvalid a b haV hbV hres
    · rw [hV']
      intro w hwV
      by_cases hwu : w = u
      · rw [hwu, hh_u]
        omega
      · rw [hh_off w hwu]
        exact SV.hbound w hwV
    · rw [hq', hV', he']
      exact SV.qmem
    · rw [hq']
      exact SV.qnodup
    · rw [hh_u]
      omega
    · -- the measure strictly decreases
      have hA1 : ppH (pp.relabel u) + (2 * pp.V - pp.height u)
          = ppH pp + (2 * pp.V - (rest.foldl min h + 1)) := by
        have hsum : (∑ w ∈ Finset.range pp.V,
              (2 * pp.V - (pp.relabel u).height w))
            + (2 * pp.V - pp.height u)
            = (∑ w ∈ Finset.range pp.V, (2 * pp.V - pp.height w))
              + (2 * pp.V - (pp.relabel u).height u) :=
          sum_range_nat_update_one
            (fun w => 2 * pp.V - pp.height w)
            (fun w => 2 * pp.V - (pp.relabel u).height w)
            pp.V u huV
            (fun w _ hw => by
              show 2 * pp.V - (pp.relabel u).height w
                = 2 * pp.V - pp.height w
              rw [hh_off w hw])
        unfold ppH
        rw [hV']
        rw [hh_u] at hsum
        exact hsum
      have hA2 : ppPhi (pp.relabel u) + (pp.excess u).toNat * pp.height u
          = ppPhi pp + (pp.excess u).toNat * (rest.foldl min h + 1) := by
        have hsum : (∑ w ∈ Finset.range pp.V,
              ((pp.relabel u).excess w).toNat * (pp.relabel u).height w)
            + (pp.excess u).toNat * pp.height u
            = (∑ w ∈ Finset.range pp.V,
                (pp.excess w).toNat * pp.height w)
              + ((pp.relabel u).excess u).toNat
                * (pp.relabel u).height u :=
          sum_range_nat_update_one
            (fun w => (pp.excess w).toNat * pp.height w)
            (fun w => ((pp.relabel u).excess w).toNat
              * (pp.relabel u).height w)
            pp.V u huV
            (fun w _ hw => by
              show ((pp.relabel u).excess w).toNat * (pp.relabel u).height w
                = (pp.excess w).toNat * pp.height w
              rw [he', hh_off w hw])
        unfold ppPhi
        rw [hV', he']
        rw [he', hh_u] at hsum
        exact hsum
      have hEu : (pp.excess u).toNat ≤ (capTotal pp.graph).toNat := by
        have := excess_le_capTotal s t pp SV u huV hus
        omega
      obtain ⟨d, hdeq, hd1⟩ : ∃ d, rest.foldl min h + 1 = pp.height u + d
          ∧ 1 ≤ d :=
        ⟨rest.foldl min h + 1 - pp.height u, by omega, by omega⟩
      have ht12 : 2 * pp.V - pp.height u
          = (2 * pp.V - (rest.foldl min h + 1)) + d := by
        have hb := SV.hbound u huV
        omega
      have hHF : ppH (pp.relabel u) + d = ppH pp := by omega
      rw [hdeq] at hA2
      have hmul : (pp.excess u).toNat * (pp.height u + d)
          = (pp.excess u).toNat * pp.height u
            + (pp.excess u).toNat * d := by ring
      have hPhiG : ppPhi (pp.relabel u)
          = ppPhi pp + (pp.excess u).toNat * d := by omega
      show ppM (pp.relabel u) < ppM pp
      unfold ppM
      rw [hg', hPhiG]
      have hmul2 : ppH pp * ((capTotal pp.graph).toNat + 1)
          = ppH (pp.relabel u) * ((capTotal pp.graph).toNat + 1)
            + d * ((capTotal pp.graph).toNat + 1) := by
        rw [← hHF]
        ring
      have hmul3 : d * ((capTotal pp.graph).toNat + 1)
          = d * (capTotal pp.graph).toNat + d := by ring
      have hmul4 : (pp.excess u).toNat * d
          ≤ (capTotal pp.graph).toNat * d :=
        Nat.mul_le_mul_right d hEu
      have hcomm : (capTotal pp.graph).toNat * d
          = d * (capTotal pp.graph).toNat :=
        Nat.mul_comm _ _
      omega

/-! ### Preflow-push: every excess node reaches the source residually -/

theorem reach_refl (pp : PP) (u : Nat) : ∀ k, ReachesIn pp k u u := by
  intro k
  cases k with
  | zero => rfl
  | succ k => exact Or.inl rfl

theorem reach_mono (pp : PP) :
    ∀ k u v, ReachesIn pp k u v → ∀ k', k ≤ k' → ReachesIn pp k' u v := by
  intro k
  induction k with
  | zero =>
    intro u v h k' _
    rw [show u = v from h]
    exact reach_refl pp v k'
  | succ k ih =>
    intro u v h k' hk'
    obtain ⟨k'', rfl⟩ : ∃ k'', k' = k'' + 1 :=
      ⟨k' - 1, by omega⟩
    rcases h with rfl | ⟨w, hadj, hre⟩
    · exact reach_refl pp u _
    · exact Or.inr ⟨w, hadj, ih w v hre k'' (by omega)⟩

theorem reach_snoc (pp : PP) :
    ∀ k u v w, ReachesIn pp k u v → resAdj pp v w →
      ReachesIn pp (k + 1) u w := by
  intro k
  induction k with
  | zero =>
    intro u v w h hadj
    rw [show u = v from h]
    exact Or.inr ⟨w, hadj, rfl⟩
  | succ k ih =>
    intro u v w h hadj
    rcases h with rfl | ⟨x, hadjx, hre⟩
    · exact Or.inr ⟨w, (by exact hadj), reach_refl pp w _⟩
    · exact Or.inr ⟨x, hadjx, ih x v w hre hadj⟩

theorem reach_lt (pp : PP) :
    ∀ k u v, ReachesIn pp k u v → u < pp.V → v < pp.V := by
  intro k
  induction k with
  | zero =>
    intro u v h hu
    rw [← show u = v from h]
    exact hu
  | succ k ih =>
    intro u v h hu
    rcases h with rfl | ⟨w, hadj, hre⟩
    · exact hu
    · exact ih w v hre hadj.2.1

theorem reach_succ_iff (pp : PP) :
    ∀ k u x, ReachesIn pp (k + 1) u x ↔
      ReachesIn pp k u x ∨ ∃ w, ReachesIn pp k u w ∧ resAdj pp w x := by
  intro k
  induction k with
  | zero =>
    intro u x
    constructor
    · rintro (rfl | ⟨w, hadj, rfl⟩)
      · exact Or.inl rfl
      · exact Or.inr ⟨u, rfl, hadj⟩
    · rintro (rfl | ⟨w, hw, hadj⟩)
      · exact Or.inl rfl
      · rw [show u = w from hw]
        exact Or.inr ⟨x, hadj, rfl⟩
  | succ k ih =>
    intro u x
    constructor
    · rintro (rfl | ⟨w, hadj, hre⟩)
      · exact Or.inl (reach_refl pp u _)
      · rcases (ih w x).mp hre with h1 | ⟨y, hy1, hy2⟩
        · exact Or.inl (Or.inr ⟨w, hadj, h1⟩)
        · exact Or.inr ⟨y, Or.inr ⟨w, hadj, hy1⟩, hy2⟩
    · rintro (h1 | ⟨w, hw, hadj⟩)
      · exact reach_mono pp (k + 1) u x h1 (k + 2) (by omega)
      · rcases hw with rfl | ⟨y, hy1, hy2⟩
        · exact Or.inr ⟨x, hadj, reach_refl pp x _⟩
        · exact Or.inr ⟨y, hy1, (ih y x).mpr (Or.inr ⟨w, hy2, hadj⟩)⟩

/-- Any residual reachability is witnessed within `V - 1` steps. -/
theorem reach_short (pp : PP) (u : Nat) (huV : u < pp.V) :
    ∀ k v, ReachesIn pp k u v → ReachesIn pp (pp.V - 1) u v := by
  classical
  intro k v hk
  have hvV : v < pp.V := reach_lt pp k u v hk huV
  by_cases hshort : k ≤ pp.V - 1
  · exact reach_mono pp k u v hk _ hshort
  · set F : Nat → Finset Nat := fun j =>
      (Finset.range pp.V).filter (fun x => ReachesIn pp j u x) with hF
    have hmemF : ∀ j x, x ∈ F j ↔ x < pp.V ∧ ReachesIn pp j u x := by
      intro j x
      rw [hF]
      simp [Finset.mem_filter, Finset.mem_range]
    have hmono1 : ∀ j, F j ⊆ F (j + 1) := by
      intro j x hx
      obtain ⟨h1, h2⟩ := (hmemF j x).mp hx
      exact (hmemF (j + 1) x).mpr ⟨h1, reach_mono pp j u x h2 (j + 1) (by omega)⟩
    have hmono : ∀ j m, F j ⊆ F (j + m) := by
      intro j m
      induction m with
      | zero => exact fun x hx => hx
      | succ m ih =>
        intro x hx
        exact hmono1 (j + m) (ih hx)
    have hstep : ∀ j x, x ∈ F (j + 1) ↔
        x ∈ F j ∨ (x < pp.V ∧ ∃ w, w ∈ F j ∧ resAdj pp w x) := by
      intro j x
      rw [hmemF, hmemF]
      constructor
      · rintro ⟨hxV, hre⟩
        rcases (reach_succ_iff pp j u x).mp hre with h1 | ⟨w, hw1, hw2⟩
        · exact Or.inl ⟨hxV, h1⟩
        · refine Or.inr ⟨hxV, w, ?_, hw2⟩
          exact (hmemF j w).mpr ⟨hw2.1, hw1⟩
      · rintro (⟨hxV, hre⟩ | ⟨hxV, w, hw, hadj⟩)
        · exact ⟨hxV, reach_mono pp j u x hre (j + 1) (by omega)⟩
        · obtain ⟨hwV, hwre⟩ := (hmemF j w).mp hw
          exact ⟨hxV, (reach_succ_iff pp j u x).mpr
            (Or.inr ⟨w, hwre, hadj⟩)⟩
    have hcollapse : ∀ j, F (j + 1) ⊆ F j → ∀ m, F (j + m) ⊆ F j := by
      intro j hstab m
      induction m with
      | zero => exact fun x hx => hx
      | succ m ih =>
        intro x hx
        rcases (hstep (j + m) x).mp hx with h1 | ⟨hxV, w, hw, hadj⟩
        · exact ih h1
        · apply hstab
          exact (hstep j x).mpr (Or.inr ⟨hxV, w, ih hw, hadj⟩)
    by_cases hex : ∃ j, j < pp.V - 1 ∧ F (j + 1) ⊆ F j
    · obtain ⟨j, hj, hstab⟩ := hex
      have hvF : v ∈ F k := (hmemF k v).mpr ⟨hvV, hk⟩
      have hvFj : v ∈ F j := by
        obtain ⟨m, hm⟩ : ∃ m, k = j + m := ⟨k - j, by omega⟩
        exact hcollapse j hstab m (hm ▸ hvF)
      have hfin := hmono j (pp.V - 1 - j) hvFj
      rw [show j + (pp.V - 1 - j) = pp.V - 1 from by omega] at hfin
      exact ((hmemF _ v).mp hfin).2
    · push_neg at hex
      have hgrow : ∀ j, j ≤ pp.V - 1 → j + 1 ≤ (F j).card := by
        intro j
        induction j with
        | zero =>
          intro _
          have hu0 : u ∈ F 0 := (hmemF 0 u).mpr ⟨huV, rfl⟩
          exact Finset.card_pos.mpr ⟨u, hu0⟩
        | succ j ih =>
          intro hj
          have hns := hex j (by omega)
          have hss : F j ⊂ F (j + 1) :=
            Finset.ssubset_def.mpr ⟨hmono1 j, hns⟩
          have hlt := Finset.card_lt_card hss
          have hih := ih (by omega)
          omega
      have hcard : pp.V ≤ (F (pp.V - 1)).card := by
        have hg := hgrow (pp.V - 1) (le_refl _)
        omega
      have hsub : F (pp.V - 1) ⊆ Finset.range pp.V := by
        intro x hx
        exact Finset.mem_range.mpr ((hmemF _ x).mp hx).1
      have heq : F (pp.V - 1) = Finset.range pp.V := by
        apply Finset.eq_of_subset_of_card_le hsub
        rw [Finset.card_range]
        exact hcard
      have hvmem : v ∈ F (pp.V - 1) := by
        rw [heq]
        exact Finset.mem_range.mpr hvV
      exact ((hmemF _ v).mp hvmem).2

/-- The Goldberg-Tarjan reachability lemma: under the run invariant,
every non-source node holding positive excess reaches the source along
residual edges.  (Otherwise the total excess of its residually-closed
reachable set would be positive, yet every flow entering that set is
nonpositive.) -/
theorem excess_reaches (s t : Nat) (pp : PP) (SV : PPValid s t pp)
    (u : Nat) (huV : u < pp.V) (hus : u ≠ s) (hexu : 0 < pp.excess u) :
    ∃ k, ReachesIn pp k u s := by
  classical
  by_contra hno
  push_neg at hno
  set A : Finset Nat :=
    (Finset.range pp.V).filter (fun x => ∃ k, ReachesIn pp k u x) with hA
  have hmemA : ∀ x, x ∈ A ↔ x < pp.V ∧ ∃ k, ReachesIn pp k u x := by
    intro x
    rw [hA]
    simp [Finset.mem_filter, Finset.mem_range]
  have hsA : s ∉ A := by
    intro hs
    obtain ⟨_, k, hk⟩ := (hmemA s).mp hs
    exact hno k hk
  have huA : u ∈ A := (hmemA u).mpr ⟨huV, 0, rfl⟩
  have hAV : ∀ x ∈ A, x < pp.V := fun x hx => ((hmemA x).mp hx).1
  have hAs : ∀ x ∈ A, x ≠ s := by
    intro x hx he
    exact hsA (he ▸ hx)
  have hclosed : ∀ v ∈ A, ∀ w, w < pp.V → 0 < pp.residual v w → w ∈ A := by
    intro v hv w hwV hres
    obtain ⟨hvV, k, hk⟩ := (hmemA v).mp hv
    exact (hmemA w).mpr ⟨hwV, k + 1,
      reach_snoc pp k u v w hk ⟨hvV, hwV, hres⟩⟩
  -- the total excess of A is positive ...
  have hpos : 0 < ∑ v ∈ A, pp.excess v := by
    have hnn : ∀ v ∈ A, 0 ≤ pp.excess v :=
      fun v hv => SV.exnn v (hAV v hv) (hAs v hv)
    have hle := Finset.single_le_sum hnn huA
    omega
  -- ... yet it is the total flow entering A, which is nonpositive
  have hsum : ∑ v ∈ A, pp.excess v
      = ∑ v ∈ A, ∑ w ∈ Finset.range pp.V, pp.flow w v := by
    apply Finset.sum_congr rfl
    intro v hv
    exact SV.exdef v (hAV v hv) (hAs v hv)
  have hAsub : A ⊆ Finset.range pp.V := by
    intro x hx
    exact Finset.mem_range.mpr (hAV x hx)
  have hfilter_mem : (Finset.range pp.V).filter (fun w => w ∈ A) = A := by
    rw [Finset.filter_mem_eq_inter]
    exact Finset.inter_eq_right.mpr hAsub
  have hsplit : ∀ v, (∑ w ∈ Finset.range pp.V, pp.flow w v)
      = (∑ w ∈ A, pp.flow w v)
        + ∑ w ∈ (Finset.range pp.V).filter (fun w => w ∉ A),
            pp.flow w v := by
    intro v
    rw [← Finset.sum_filter_add_sum_filter_not (Finset.range pp.V)
      (fun w => w ∈ A) (fun w => pp.flow w v), hfilter_mem]
  have hinner : ∑ v ∈ A, ∑ w ∈ Finset.range pp.V, pp.flow w v
      = (∑ v ∈ A, ∑ w ∈ A, pp.flow w v)
        + ∑ v ∈ A, ∑ w ∈ (Finset.range pp.V).filter (fun w => w ∉ A),
            pp.flow w v := by
    rw [← Finset.sum_add_distrib]
    apply Finset.sum_congr rfl
    intro v _
    exact hsplit v
  have hpart1 : ∑ v ∈ A, ∑ w ∈ A, pp.flow w v = 0 := by
    have hanti : ∑ v ∈ A, ∑ w ∈ A, pp.flow w v
        = ∑ v ∈ A, ∑ w ∈ A, -(pp.flow v w) := by
      apply Finset.sum_congr rfl
      intro v hv
      apply Finset.sum_congr rfl
      intro w hw
      exact SV.antisym w v (hAV w hw) (hAV v hv)
        (fun hc => hsA (hc.2 ▸ hv))
    have hneg : ∑ v ∈ A, ∑ w ∈ A, -(pp.flow v w)
        = -∑ v ∈ A, ∑ w ∈ A, pp.flow v w := by
      rw [← Finset.sum_neg_distrib]
      apply Finset.sum_congr rfl
      intro v _
      rw [Finset.sum_neg_distrib]
    have hswap : ∑ v ∈ A, ∑ w ∈ A, pp.flow v w
        = ∑ v ∈ A, ∑ w ∈ A, pp.flow w v := Finset.sum_comm
    rw [hswap] at hneg
    rw [hneg] at hanti
    omega
  have hpart2 : ∑ v ∈ A, ∑ w ∈ (Finset.range pp.V).filter (fun w => w ∉ A),
      pp.flow w v ≤ 0 := by
    apply Finset.sum_nonpos
    intro v hv
    apply Finset.sum_nonpos
    intro w hw
    obtain ⟨hwr, hwna⟩ := Finset.mem_filter.mp hw
    have hwV := Finset.mem_range.mp hwr
    have hvV := hAV v hv
    have hres : ¬(0 < pp.residual v w) := by
      intro hres
      exact hwna (hclosed v hv w hwV hres)
    have hcap := SV.capnn v w
    have hfc : capMat pp.graph v w ≤ pp.flow v w := by
      unfold PP.residual at hres
      omega
    have hanti := SV.antisym w v hwV hvV (fun hc => hsA (hc.2 ▸ hv))
    omega
  rw [hsum, hinner, hpart1] at hpos
  omega

/-- Heights telescope along residual paths under the validity
labeling. -/
theorem reach_height (s t : Nat) (pp : PP) (SV : PPValid s t pp) :
    ∀ k x, ReachesIn pp k x s → pp.height x ≤ pp.height s + k := by
  intro k
  induction k with
  | zero =>
    intro x h
    rw [show x = s from h]
    omega
  | succ k ih =>
    intro x h
    rcases h with rfl | ⟨w, hadj, hre⟩
    · omega
    · have h1 := SV.hvalid x w hadj.1 hadj.2.1 hadj.2.2
      have h2 := ih w hre
      omega

/-- A non-source node with positive excess always has a residual
neighbor of height at most `2V - 2` (the first step of a shortest
residual path to the source). -/
theorem low_neighbor_of_excess (s t : Nat) (pp : PP) (SV : PPValid s t pp)
    (u : Nat) (huV : u < pp.V) (hus : u ≠ s) (hexu : 0 < pp.excess u) :
    ∃ w, w < pp.V ∧ 0 < pp.residual u w ∧
      pp.height w ≤ 2 * pp.V - 2 := by
  obtain ⟨k, hk⟩ := excess_reaches s t pp SV u huV hus hexu
  have hshort := reach_short pp u huV k s hk
  have hV2 : 2 ≤ pp.V := by
    rcases Nat.lt_or_ge pp.V 2 with h | h
    · exfalso
      have := SV.hsV
      omega
    · exact h
  obtain ⟨m, hm⟩ : ∃ m, pp.V - 1 = m + 1 := ⟨pp.V - 2, by omega⟩
  rw [hm] at hshort
  rcases hshort with rfl | ⟨w, hadj, hre⟩
  · exact absurd rfl hus
  · refine ⟨w, hadj.2.1, hadj.2.2, ?_⟩
    have h1 := reach_height s t pp SV m w hre
    rw [SV.hsrc] at h1
    omega

/-! ### Preflow-push: discharge and the main loop -/

/-- Specification of one discharge pass over the neighbor list: the
invariant (and any auxiliary invariant `Sup` closed under pushes and
queue changes) is preserved, heights are untouched, the potential
never grows, a pass that newly reports `pushed` strictly decreased the
potential, and a pass that reports no push left the state unchanged
with no admissible edge in the scanned list. -/
theorem dischargePass_spec (s t u : Nat) (Sup : PP → Prop)
    (hSupPush : ∀ pp v, PPValid s t pp → Sup pp →
      v < pp.V → 0 < pp.excess u → 0 < pp.residual u v →
      pp.height u = pp.height v + 1 → u < pp.V → u ≠ s →
      u ∉ pp.active_nodes → Sup (pp.push u v))
    (hSupQ : ∀ pp q, Sup pp → Sup { pp with active_nodes := q }) :
    ∀ (vs : List Nat) (pp : PP) (pushed : Bool),
      PPValid s t pp → Sup pp →
      u < pp.V → u ≠ s → u ≠ t → u ∉ pp.active_nodes →
      0 < pp.excess u → (∀ w ∈ vs, w < pp.V) →
      ∃ pp' flag, dischargePass u s t vs pp pushed = (pp', flag) ∧
        PPValid s t pp' ∧ Sup pp' ∧
        pp'.V = pp.V ∧ pp'.graph = pp.graph ∧ pp'.height = pp.height ∧
        u ∉ pp'.active_nodes ∧
        ppPhi pp' ≤ ppPhi pp ∧
        (flag = false → pushed = false ∧ pp' = pp ∧
          ∀ w ∈ vs, ¬(0 < pp.residual u w ∧
            pp.height u = pp.height w + 1)) ∧
        (pushed = false → flag = true → ppPhi pp' < ppPhi pp) := by
  intro vs
  induction vs with
  | nil =>
    intro pp pushed SV hSup huV hus hut hqu hexu _
    refine ⟨pp, pushed, rfl, SV, hSup, rfl, rfl, rfl, hqu, le_refl _,
      ?_, ?_⟩
    · intro hf
      exact ⟨hf, rfl, fun w hw => absurd hw (List.not_mem_nil w)⟩
    · intro h1 h2
      rw [h1] at h2
      exact Bool.noConfusion h2
  | cons v vs ih =>
    intro pp pushed SV hSup huV hus hut hqu hexu hvs
    have hvV : v < pp.V := hvs v (List.mem_cons_self v vs)
    have hvs' : ∀ w ∈ vs, w < pp.V :=
      fun w hw => hvs w (List.mem_cons_of_mem v hw)
    by_cases hadm : 0 < pp.residual u v ∧ pp.height u = pp.height v + 1
    · -- admissible: push
      obtain ⟨P1, Ph, PV, Pg, Pq, PΦ, PH⟩ :=
        push_spec s t pp SV u v huV hvV hus hexu hadm.1 hadm.2 hqu
      have huv : u ≠ v := by
        intro he
        rw [he] at hadm
        omega
      by_cases henq : v ≠ s ∧ v ≠ t ∧ 0 < (pp.push u v).excess v ∧
          v ∉ (pp.push u v).active_nodes
      · -- enqueue v after the push
        have P2 : PPValid s t { pp.push u v with
            active_nodes := (pp.push u v).active_nodes ++ [v] } :=
          enqueue_valid s t (pp.push u v) P1 v (PV ▸ hvV) henq.1 henq.2.1
            henq.2.2.1 henq.2.2.2
        have hS2 : Sup { pp.push u v with
            active_nodes := (pp.push u v).active_nodes ++ [v] } :=
          hSupQ (pp.push u v) _ (hSupPush pp v SV hSup hvV hexu
            hadm.1 hadm.2 huV hus hqu)
        have hq2 : u ∉ ({ pp.push u v with
            active_nodes := (pp.push u v).active_nodes ++ [v] } :
              PP).active_nodes := by
          intro hmem
          rcases List.mem_append.mp hmem with h1 | h2
          · rw [Pq] at h1
            exact hqu h1
          · exact huv (List.mem_singleton.mp h2)
        have hΦ2 : ppPhi { pp.push u v with
            active_nodes := (pp.push u v).active_nodes ++ [v] }
            = ppPhi (pp.push u v) := rfl
        by_cases hz : ({ pp.push u v with
            active_nodes := (pp.push u v).active_nodes ++ [v] } :
              PP).excess u = 0
        · refine ⟨_, true, ?_, P2, hS2, PV, Pg, Ph, hq2,
            by omega, ?_, ?_⟩
          · simp only [dischargePass]
            rw [if_pos hadm, if_pos henq, if_pos hz]
          · intro hf
            exact Bool.noConfusion hf
          · intro _ _
            omega
        · have hexu2 : 0 < ({ pp.push u v with
              active_nodes := (pp.push u v).active_nodes ++ [v] } :
                PP).excess u := by
            have := P2.exnn u (PV ▸ huV) hus
            omega
          obtain ⟨pp', flag, hrun, C1, C2, C3, C4, C5, C6, C7, C8, C9⟩ :=
            ih _ true P2 hS2 (PV ▸ huV) hus hut hq2 hexu2
              (fun w hw => PV ▸ hvs' w hw)
          refine ⟨pp', flag, ?_, C1, C2, by rw [C3]; exact PV,
            by rw [C4]; exact Pg, by rw [C5]; exact Ph, C6,
            by omega, ?_, ?_⟩
          · simp only [dischargePass]
            rw [if_pos hadm, if_pos henq, if_neg hz]
            exact hrun
          · intro hf
            obtain ⟨h1, _⟩ := C8 hf
            exact absurd h1 (by decide)
          · intro _ _
            omega
      · -- no enqueue after the push
        have hq1 : u ∉ (pp.push u v).active_nodes := by
          rw [Pq]
          exact hqu
        by_cases hz : (pp.push u v).excess u = 0
        · refine ⟨_, true, ?_, P1, hSupPush pp v SV hSup hvV hexu
            hadm.1 hadm.2 huV hus hqu, PV, Pg, Ph, hq1,
            by omega, ?_, ?_⟩
          · simp only [dischargePass]
            rw [if_pos hadm, if_neg henq, if_pos hz]
          · intro hf
            exact Bool.noConfusion hf
          · intro _ _
            omega
        · have hexu1 : 0 < (pp.push u v).excess u := by
            have := P1.exnn u (PV ▸ huV) hus
            omega
          obtain ⟨pp', flag, hrun, C1, C2, C3, C4, C5, C6, C7, C8, C9⟩ :=
            ih _ true P1 (hSupPush pp v SV hSup hvV hexu
              hadm.1 hadm.2 huV hus hqu) (PV ▸ huV) hus hut hq1 hexu1
              (fun w hw => PV ▸ hvs' w hw)
          refine ⟨pp', flag, ?_, C1, C2, by rw [C3]; exact PV,
            by rw [C4]; exact Pg, by rw [C5]; exact Ph, C6,
            by omega, ?_, ?_⟩
          · simp only [dischargePass]
            rw [if_pos hadm, if_neg henq, if_neg hz]
            exact hrun
          · intro hf
            obtain ⟨h1, _⟩ := C8 hf
            exact absurd h1 (by decide)
          · intro _ _
            omega
    · -- not admissible: skip v
      obtain ⟨pp', flag, hrun, C1, C2, C3, C4, C5, C6, C7, C8, C9⟩ :=
        ih pp pushed SV hSup huV hus hut hqu hexu hvs'
      refine ⟨pp', flag, ?_, C1, C2, C3, C4, C5, C6, C7, ?_, C9⟩
      · simp only [dischargePass]
        rw [if_neg hadm]
        exact hrun
      · intro hf
        obtain ⟨h1, h2, h3⟩ := C8 hf
        refine ⟨h1, h2, ?_⟩
        intro w hw
        rcases List.mem_cons.mp hw with rfl | hw'
        · exact hadm
        · exact h3 w hw'

theorem discharge_succ (u s t fuel : Nat) (pp : PP) :
    discharge u s t (fuel + 1) pp =
      if 0 < pp.excess u then
        discharge u s t fuel
          (if ¬ (dischargePass u s t (List.range pp.V) pp false).2 ∧
              0 < (dischargePass u s t (List.range pp.V) pp false).1.excess u
            then (dischargePass u s t (List.range pp.V) pp false).1.relabel u
            else (dischargePass u s t (List.range pp.V) pp false).1)
      else some pp := rfl

/-- Specification of `discharge`: with fuel exceeding the measure it
returns, preserving the invariants, with `u`'s excess fully drained,
the measure not increased (strictly decreased when `u` held excess)
and heights only risen. -/
theorem discharge_spec (s t u : Nat) (Sup : PP → Prop)
    (hSupPush : ∀ pp v, PPValid s t pp → Sup pp →
      v < pp.V → 0 < pp.excess u → 0 < pp.residual u v →
      pp.height u = pp.height v + 1 → u < pp.V → u ≠ s →
      u ∉ pp.active_nodes → Sup (pp.push u v))
    (hSupQ : ∀ pp q, Sup pp → Sup { pp with active_nodes := q })
    (hSupRel : ∀ pp, Sup pp → Sup (pp.relabel u)) :
    ∀ (fuel : Nat) (pp : PP),
      PPValid s t pp → Sup pp → u < pp.V → u ≠ s → u ≠ t →
      u ∉ pp.active_nodes → ppM pp < fuel →
      ∃ pp', discharge u s t fuel pp = some pp' ∧
        PPValid s t pp' ∧ Sup pp' ∧
        pp'.V = pp.V ∧ pp'.graph = pp.graph ∧
        u ∉ pp'.active_nodes ∧ pp'.excess u = 0 ∧
        ppM pp' ≤ ppM pp ∧
        (0 < pp.excess u → ppM pp' < ppM pp) ∧
        (∀ w, pp.height w ≤ pp'.height w) := by
  intro fuel
  induction fuel with
  | zero =>
    intro pp _ _ _ _ _ _ hM
    exact absurd hM (Nat.not_lt_zero _)
  | succ fuel ih =>
    intro pp SV hSup huV hus hut hqu hM
    by_cases hex : 0 < pp.excess u
    · obtain ⟨pp1, flag, hrun, C1, C2, C3, C4, C5, C6, C7, C8, C9⟩ :=
        dischargePass_spec s t u Sup hSupPush hSupQ (List.range pp.V)
          pp false SV hSup huV hus hut hqu hex
          (fun w hw => List.mem_range.mp hw)
      have hH1 : ppH pp1 = ppH pp := by
        unfold ppH
        rw [C3, C5]
      have hE1 : capTotal pp1.graph = capTotal pp.graph := by
        rw [C4]
      have hM1 : ppM pp1 ≤ ppM pp := by
        unfold ppM
        rw [hH1, hE1]
        omega
      cases flag with
      | true =>
        -- a push happened; no relabel, recurse on pp1
        have hMs : ppM pp1 < ppM pp := by
          have := C9 rfl rfl
          unfold ppM
          rw [hH1, hE1]
          omega
        obtain ⟨pp', hrun', D1, D2, D3, D4, D5, D6, D7, D8, D9⟩ :=
          ih pp1 C1 C2 (C3 ▸ huV) hus hut C6 (by omega)
        refine ⟨pp', ?_, D1, D2, by rw [D3, C3], by rw [D4, C4], D5, D6,
          by omega, fun _ => by omega, ?_⟩
        · rw [discharge_succ, if_pos hex, hrun]
          show discharge u s t fuel
            (if ¬(true = true) ∧ 0 < pp1.excess u then pp1.relabel u
              else pp1) = some pp'
          rw [if_neg (show ¬(¬(true = true) ∧ 0 < pp1.excess u) from
            fun hc => hc.1 rfl)]
          exact hrun'
        · intro w
          rw [← congrFun C5 w]
          exact D9 w
      | false =>
        -- no push: the state is unchanged and u is relabeled
        obtain ⟨_, heq, hnadm⟩ := C8 rfl
        subst heq
        have hnoadm : NoAdmissible pp1 u := by
          intro w hwV
          exact hnadm w (List.mem_range.mpr hwV)
        have hnb := low_neighbor_of_excess s t pp1 C1 u (C3 ▸ huV) hus hex
        obtain ⟨R1, R2, R3, R4, R5, R6, R7, R8, R9⟩ :=
          relabel_spec s t pp1 C1 u (C3 ▸ huV) hus hnoadm hnb
        obtain ⟨pp', hrun', D1, D2, D3, D4, D5, D6, D7, D8, D9⟩ :=
          ih (pp1.relabel u) R1 (hSupRel pp1 C2) (R2 ▸ C3 ▸ huV) hus hut
            (by rw [R6]; exact C6) (by omega)
        refine ⟨pp', ?_, D1, D2, by rw [D3, R2, C3], by rw [D4, R3, C4],
          D5, D6, by omega, fun _ => by omega, ?_⟩
        · rw [discharge_succ, if_pos hex, hrun]
          show discharge u s t fuel
            (if ¬(false = true) ∧ 0 < pp1.excess u then pp1.relabel u
              else pp1) = some pp'
          rw [if_pos ⟨fun hc => Bool.noConfusion hc, hex⟩]
          exact hrun'
        · intro w
          by_cases hwu : w = u
          · rw [hwu]
            exact le_trans (le_of_lt R7) (D9 u)
          · rw [← R8 w hwu]
            exact D9 w
    · refine ⟨pp, ?_, SV, hSup, rfl, rfl, hqu, ?_, le_refl _,
        fun hc => absurd hc hex, fun w => le_refl _⟩
      · rw [discharge_succ, if_neg hex]
      · have := SV.exnn u huV hus
        omega

/-- Specification of the main FIFO loop of `solve`: with both fuels
above the measure, it terminates with an empty queue, preserving the
invariants and never lowering any height. -/
theorem ppMainLoop_spec (s t : Nat) (Sup : PP → Prop)
    (hSupPush : ∀ pp u v, PPValid s t pp → Sup pp →
      v < pp.V → 0 < pp.excess u → 0 < pp.residual u v →
      pp.height u = pp.height v + 1 → u < pp.V → u ≠ s →
      u ∉ pp.active_nodes → Sup (pp.push u v))
    (hSupQ : ∀ pp q, Sup pp → Sup { pp with active_nodes := q })
    (hSupRel : ∀ pp u, Sup pp → Sup (pp.relabel u)) :
    ∀ (fuel dfuel : Nat) (pp : PP),
      PPValid s t pp → Sup pp → ppM pp < fuel → ppM pp < dfuel →
      ∃ pp', ppMainLoop s t dfuel fuel pp = some pp' ∧
        PPValid s t pp' ∧ Sup pp' ∧ pp'.active_nodes = [] ∧
        pp'.V = pp.V ∧ pp'.graph = pp.graph ∧ ppM pp' ≤ ppM pp ∧
        (∀ w, pp.height w ≤ pp'.height w) := by
  intro fuel
  induction fuel with
  | zero =>
    intro dfuel pp _ _ hM _
    exact absurd hM (Nat.not_lt_zero _)
  | succ fuel ih =>
    intro dfuel pp SV hSup hM hMd
    cases hq : pp.active_nodes with
    | nil =>
      refine ⟨pp, ?_, SV, hSup, hq, rfl, rfl, le_refl _, fun w => le_refl _⟩
      simp only [ppMainLoop, hq]
    | cons u rest =>
      have humem : u ∈ pp.active_nodes := by
        rw [hq]
        exact List.mem_cons_self u rest
      obtain ⟨huV, hus, hut, hue⟩ := SV.qmem u humem
      have hnodup := SV.qnodup
      rw [hq, List.nodup_cons] at hnodup
      obtain ⟨hur, hrestnd⟩ := hnodup
      have SVP : PPValid s t { pp with active_nodes := rest } := by
        refine ⟨SV.hVlen, SV.hsV, SV.capnn, SV.antisym, SV.selfs, SV.capf,
          SV.exdef, SV.exnn, SV.hsrc, SV.hvalid, SV.hbound, ?_, hrestnd⟩
        intro w hw
        apply SV.qmem
        rw [hq]
        exact List.mem_cons_of_mem u hw
      have hMP : ppM { pp with active_nodes := rest } = ppM pp := rfl
      obtain ⟨pp1, hdis, D1, D2, D3, D4, D5, D6, D7, D8, D9⟩ :=
        discharge_spec s t u Sup
          (fun pp' v h1 h2 h3 h4 h5 h6 h7 h8 h9 =>
            hSupPush pp' u v h1 h2 h3 h4 h5 h6 h7 h8 h9)
          hSupQ (fun pp' h => hSupRel pp' u h)
          dfuel { pp with active_nodes := rest }
          SVP (hSupQ pp rest hSup) huV hus hut hur (by omega)
      have hM1 : ppM pp1 < ppM pp := by
        have := D8 hue
        omega
      obtain ⟨pp', hrun', E1, E2, E3, E4, E5, E6, E7⟩ :=
        ih dfuel pp1 D1 D2 (by omega) (by omega)
      refine ⟨pp', ?_, E1, E2, E3, by rw [E4, D3], by rw [E5, D4],
        by omega, ?_⟩
      · simp only [ppMainLoop, hq]
        rw [hdis]
        exact hrun'
      · intro w
        exact le_trans (D9 w) (E7 w)

theorem initFromSource_cons (s t v : Nat) (todo : List Nat) (pp : PP) :
    initFromSource s t (v :: todo) pp =
      if 0 < capMat pp.graph s v then
        initFromSource s t todo
          (if v ≠ t ∧ v ≠ s then
            { pp with
              flow := fun a b =>
                if a = v ∧ b = s then -(capMat pp.graph s v)
                else if a = s ∧ b = v then capMat pp.graph s v
                else pp.flow a b
              excess := upd (upd pp.excess v (capMat pp.graph s v)) s
                ((upd pp.excess v (capMat pp.graph s v)) s
                  - capMat pp.graph s v)
              active_nodes := pp.active_nodes ++ [v] }
          else
            { pp with
              flow := fun a b =>
                if a = v ∧ b = s then -(capMat pp.graph s v)
                else if a = s ∧ b = v then capMat pp.graph s v
                else pp.flow a b
              excess := upd (upd pp.excess v (capMat pp.graph s v)) s
                ((upd pp.excess v (capMat pp.graph s v)) s
                  - capMat pp.graph s v) })
      else initFromSource s t todo pp := rfl

/-- Membership-extension helpers for the init characterisation. -/
theorem initFlow_ext_frozen (graph : List (List Int)) (s v : Nat)
    (P : List Nat) (a b : Nat)
    (hA : ¬(a = v ∧ b = s)) (hB : ¬(a = s ∧ b = v)) :
    initFlow graph s (P ++ [v]) a b = initFlow graph s P a b := by
  unfold initFlow
  have h1 : (a = s ∧ b ≠ s ∧ b ∈ P ++ [v] ∧ 0 < capMat graph s b)
      ↔ (a = s ∧ b ≠ s ∧ b ∈ P ∧ 0 < capMat graph s b) := by
    constructor
    · rintro ⟨x1, x2, x3, x4⟩
      rcases List.mem_append.mp x3 with h | h
      · exact ⟨x1, x2, h, x4⟩
      · exact absurd ⟨x1, List.mem_singleton.mp h⟩ hB
    · rintro ⟨x1, x2, x3, x4⟩
      exact ⟨x1, x2, List.mem_append.mpr (Or.inl x3), x4⟩
  have h2 : (b = s ∧ a ≠ s ∧ a ∈ P ++ [v] ∧ 0 < capMat graph s a)
      ↔ (b = s ∧ a ≠ s ∧ a ∈ P ∧ 0 < capMat graph s a) := by
    constructor
    · rintro ⟨x1, x2, x3, x4⟩
      rcases List.mem_append.mp x3 with h | h
      · exact ⟨x1, x2, h, x4⟩
      · exact absurd ⟨List.mem_singleton.mp h, x1⟩ hA
    · rintro ⟨x1, x2, x3, x4⟩
      exact ⟨x1, x2, List.mem_append.mpr (Or.inl x3), x4⟩
  have h3 : (a = s ∧ b = s ∧ s ∈ P ++ [v] ∧ 0 < capMat graph s s)
      ↔ (a = s ∧ b = s ∧ s ∈ P ∧ 0 < capMat graph s s) := by
    constructor
    · rintro ⟨x1, x2, x3, x4⟩
      rcases List.mem_append.mp x3 with h | h
      · exact ⟨x1, x2, h, x4⟩
      · exact absurd ⟨x1.trans (List.mem_singleton.mp h), x2⟩ hA
    · rintro ⟨x1, x2, x3, x4⟩
      exact ⟨x1, x2, List.mem_append.mpr (Or.inl x3), x4⟩
  rw [if_congr h1 rfl rfl, if_congr h2 rfl rfl, if_congr h3 rfl rfl]

theorem initFlow_ext_nocap (graph : List (List Int)) (s v : Nat)
    (P : List Nat) (hc : ¬ 0 < capMat graph s v) :
    ∀ a b, initFlow graph s (P ++ [v]) a b = initFlow graph s P a b := by
  intro a b
  unfold initFlow
  have h1 : (a = s ∧ b ≠ s ∧ b ∈ P ++ [v] ∧ 0 < capMat graph s b)
      ↔ (a = s ∧ b ≠ s ∧ b ∈ P ∧ 0 < capMat graph s b) := by
    constructor
    · rintro ⟨x1, x2, x3, x4⟩
      rcases List.mem_append.mp x3 with h | h
      · exact ⟨x1, x2, h, x4⟩
      · rw [List.mem_singleton.mp h] at x4
        exact absurd x4 hc
    · rintro ⟨x1, x2, x3, x4⟩
      exact ⟨x1, x2, List.mem_append.mpr (Or.inl x3), x4⟩
  have h2 : (b = s ∧ a ≠ s ∧ a ∈ P ++ [v] ∧ 0 < capMat graph s a)
      ↔ (b = s ∧ a ≠ s ∧ a ∈ P ∧ 0 < capMat graph s a) := by
    constructor
    · rintro ⟨x1, x2, x3, x4⟩
      rcases List.mem_append.mp x3 with h | h
      · exact ⟨x1, x2, h, x4⟩
      · rw [List.mem_singleton.mp h] at x4
        exact absurd x4 hc
    · rintro ⟨x1, x2, x3, x4⟩
      exact ⟨x1, x2, List.mem_append.mpr (Or.inl x3), x4⟩
  have h3 : (a = s ∧ b = s ∧ s ∈ P ++ [v] ∧ 0 < capMat graph s s)
      ↔ (a = s ∧ b = s ∧ s ∈ P ∧ 0 < capMat graph s s) := by
    constructor
    · rintro ⟨x1, x2, x3, x4⟩
      rcases List.mem_append.mp x3 with h | h
      · exact ⟨x1, x2, h, x4⟩
      · have hsv := List.mem_singleton.mp h
        rw [← hsv] at hc
        exact absurd x4 hc
    · rintro ⟨x1, x2, x3, x4⟩
      exact ⟨x1, x2, List.mem_append.mpr (Or.inl x3), x4⟩
  rw [if_congr h1 rfl rfl, if_congr h2 rfl rfl, if_congr h3 rfl rfl]

/-- The init loop of `solve`, processing the todo list, moves the
mid-initialisation description along. -/
theorem initFromSource_spec (graph : List (List Int)) (s t : Nat) :
    ∀ (todo P : List Nat) (pp : PP),
      InitMid graph s t P pp → (P ++ todo).Nodup →
      InitMid graph s t (P ++ todo) (initFromSource s t todo pp) := by
  intro todo
  induction todo with
  | nil =>
    intro P pp hmid _
    rw [List.append_nil]
    exact hmid
  | cons v todo ih =>
    intro P pp hmid hnd
    obtain ⟨hg, hV, hh, hf, he, hq⟩ := hmid
    have hnd' : ((P ++ [v]) ++ todo).Nodup := by
      rw [List.append_assoc]
      exact hnd
    have happ : (P ++ [v]) ++ todo = P ++ v :: todo := by
      rw [List.append_assoc]
      rfl
    rw [initFromSource_cons, hg]
    by_cases hc : 0 < capMat graph s v
    · rw [if_pos hc]
      have hflow : ∀ a b,
          (if a = v ∧ b = s then -(capMat graph s v)
            else if a = s ∧ b = v then capMat graph s v
            else pp.flow a b)
          = initFlow graph s (P ++ [v]) a b := by
        intro a b
        by_cases hA : a = v ∧ b = s
        · rw [if_pos hA]
          obtain ⟨ha, hb⟩ := hA
          by_cases hvs : v = s
          · unfold initFlow
            rw [if_neg (fun hx => hx.2.1 hb),
              if_neg (fun hx => hx.2.1 (ha.trans hvs)),
              if_pos ⟨ha.trans hvs, hb, List.mem_append.mpr
                (Or.inr (List.mem_singleton.mpr hvs.symm)), hvs ▸ hc⟩]
            rw [hvs]
          · unfold initFlow
            rw [if_neg (fun hx => hvs (ha.symm.trans hx.1)),
              if_pos ⟨hb, (fun hx => hvs (ha.symm.trans hx)),
                List.mem_append.mpr (Or.inr (by
                  rw [ha]
                  exact List.mem_singleton_self v)),
                by rw [ha]; exact hc⟩]
            rw [ha]
        · rw [if_neg hA]
          by_cases hB : a = s ∧ b = v
          · rw [if_pos hB]
            have hbs : b ≠ s := by
              intro hbs
              exact hA ⟨hB.1.trans (hB.2.symm.trans hbs).symm, hbs⟩
            unfold initFlow
            rw [if_pos ⟨hB.1, hbs, List.mem_append.mpr (Or.inr (by
                rw [hB.2]
                exact List.mem_singleton_self v)),
              by rw [hB.2]; exact hc⟩]
            rw [hB.2]
          · rw [if_neg hB, hf a b,
              initFlow_ext_frozen graph s v P a b hA hB]
      have hexc : ∀ w, w ≠ s →
          (upd (upd pp.excess v (capMat graph s v)) s
            ((upd pp.excess v (capMat graph s v)) s
              - capMat graph s v)) w
          = if w ∈ P ++ [v] ∧ 0 < capMat graph s w then
              capMat graph s w
            else 0 := by
        intro w hws
        rw [upd_other _ _ _ _ hws]
        by_cases hwv : w = v
        · rw [hwv, upd_same,
            if_pos ⟨List.mem_append.mpr
              (Or.inr (List.mem_singleton_self v)), hc⟩]
        · rw [upd_other _ _ _ _ hwv, he w hws]
          have hiff : (w ∈ P ++ [v] ∧ 0 < capMat graph s w)
              ↔ (w ∈ P ∧ 0 < capMat graph s w) := by
            constructor
            · rintro ⟨x1, x2⟩
              rcases List.mem_append.mp x1 with h | h
              · exact ⟨h, x2⟩
              · exact absurd (List.mem_singleton.mp h) hwv
            · rintro ⟨x1, x2⟩
              exact ⟨List.mem_append.mpr (Or.inl x1), x2⟩
          rw [if_congr hiff rfl rfl]
      by_cases hgd : v ≠ t ∧ v ≠ s
      · rw [if_pos hgd, ← happ]
        apply ih (P ++ [v])
        · refine ⟨rfl, hV, hh, hflow, hexc, ?_⟩
          show pp.active_nodes ++ [v] = _
          have hd : decide (v ≠ s ∧ v ≠ t ∧ 0 < capMat graph s v)
              = true := by
            rw [decide_eq_true_eq]
            exact ⟨hgd.2, hgd.1, hc⟩
          rw [hq, List.filter_append, List.filter_singleton, hd,
            Bool.cond_true]
        · exact hnd'
      · rw [if_neg hgd, ← happ]
        apply ih (P ++ [v])
        · refine ⟨rfl, hV, hh, hflow, hexc, ?_⟩
          show pp.active_nodes = _
          have hd : decide (v ≠ s ∧ v ≠ t ∧ 0 < capMat graph s v)
              = false := by
            rw [decide_eq_false_iff_not]
            intro hx
            exact hgd ⟨hx.2.1, hx.1⟩
          rw [hq, List.filter_append, List.filter_singleton, hd,
            Bool.cond_false, List.append_nil]
        · exact hnd'
    · rw [if_neg hc, ← happ]
      apply ih (P ++ [v])
      · refine ⟨hg, hV, hh, ?_, ?_, ?_⟩
        · intro a b
          rw [hf a b]
          exact (initFlow_ext_nocap graph s v P hc a b).symm
        · intro w hws
          rw [he w hws]
          have hiff : (w ∈ P ++ [v] ∧ 0 < capMat graph s w)
              ↔ (w ∈ P ∧ 0 < capMat graph s w) := by
            constructor
            · rintro ⟨x1, x2⟩
              rcases List.mem_append.mp x1 with h | h
              · exact ⟨h, x2⟩
              · rw [List.mem_singleton.mp h] at x2
                exact absurd x2 hc
            · rintro ⟨x1, x2⟩
              exact ⟨List.mem_append.mpr (Or.inl x1), x2⟩
          exact (if_congr hiff rfl rfl).symm
        · have hd : decide (v ≠ s ∧ v ≠ t ∧ 0 < capMat graph s v)
              = false := by
            rw [decide_eq_false_iff_not]
            intro hx
            exact hc hx.2.2
          rw [hq, List.filter_append, List.filter_singleton, hd,
            Bool.cond_false, List.append_nil]
      · exact hnd'

theorem initFlow_antisym (graph : List (List Int)) (s : Nat) (P : List Nat)
    (a b : Nat) (hne : ¬(a = s ∧ b = s)) :
    initFlow graph s P a b = - initFlow graph s P b a := by
  unfold initFlow
  split_ifs
  all_goals try ring
  all_goals tauto

theorem initMid_zero (graph : List (List Int)) (s t : Nat) :
    InitMid graph s t []
      { graph := graph, V := graph.length, flow := fun _ _ => 0,
        height := upd (fun _ => 0) s graph.length,
        excess := fun _ => 0, active_nodes := [] } := by
  refine ⟨rfl, rfl, rfl, ?_, ?_, rfl⟩
  · intro a b
    unfold initFlow
    rw [if_neg (fun hx => List.not_mem_nil b hx.2.2.1),
      if_neg (fun hx => List.not_mem_nil a hx.2.2.1),
      if_neg (fun hx => List.not_mem_nil s hx.2.2.1)]
  · intro v _
    rw [if_neg (fun hx => List.not_mem_nil v hx.1)]

/-- The fully-initialised state (all of `range V` processed) satisfies
the run invariant. -/
theorem init_valid (graph : List (List Int)) (s t : Nat)
    (hs : s < graph.length)
    (hcap : ∀ u v, 0 ≤ capMat graph u v) (pp : PP)
    (hmid : InitMid graph s t (List.range graph.length) pp) :
    PPValid s t pp := by
  obtain ⟨hg, hV, hh, hf, he, hq⟩ := hmid
  have hheight : ∀ w, pp.height w
      = if w = s then graph.length else 0 := by
    intro w
    rw [hh]
    by_cases hw : w = s
    · rw [hw, upd_same, if_pos rfl]
    · rw [upd_other _ _ _ _ hw, if_neg hw]
  refine ⟨by rw [hV, hg], by rw [hV]; exact hs, by rw [hg]; exact hcap,
    ?_, ?_, ?_, ?_, ?_, ?_, ?_, ?_, ?_, ?_⟩
  · -- antisymmetry
    intro a b _ _ hne
    rw [hf a b, hf b a]
    exact initFlow_antisym graph s (List.range graph.length) a b hne
  · -- flow s s nonpositive
    rw [hf s s]
    unfold initFlow
    rw [if_neg (fun hx => hx.2.1 rfl), if_neg (fun hx => hx.2.1 rfl)]
    by_cases h3 : s = s ∧ s = s ∧ s ∈ List.range graph.length
        ∧ 0 < capMat graph s s
    · rw [if_pos h3]
      have := hcap s s
      omega
    · rw [if_neg h3]
  · -- within capacities
    intro a b haV hbV
    rw [hf a b]
    unfold initFlow
    rw [hg]
    split_ifs with h1 h2 h3
    · rw [h1.1]
    · have := hcap a b
      have := hcap s a
      omega
    · have := hcap s s
      have h4 := hcap a b
      rw [h3.1, h3.2.1]
      omega
    · exact hcap a b
  · -- excess consistency
    intro v hvV hvs
    rw [hV] at hvV
    rw [he v hvs]
    have hsmem : s ∈ Finset.range pp.V := by
      rw [hV]
      exact Finset.mem_range.mpr hs
    have hzero : ∀ w ∈ Finset.range pp.V, w ≠ s → pp.flow w v = 0 := by
      intro w _ hws
      rw [hf w v]
      unfold initFlow
      rw [if_neg (fun hx => hws hx.1),
        if_neg (fun hx => hvs hx.1),
        if_neg (fun hx => hws hx.1)]
    rw [Finset.sum_eq_single_of_mem s hsmem hzero, hf s v]
    unfold initFlow
    by_cases hc : 0 < capMat graph s v
    · rw [if_pos ⟨List.mem_range.mpr hvV, hc⟩,
        if_pos ⟨rfl, hvs, List.mem_range.mpr hvV, hc⟩]
    · rw [if_neg (fun hx => hc hx.2),
        if_neg (fun hx => hc hx.2.2.2),
        if_neg (fun hx => hvs hx.1),
        if_neg (fun hx => hvs hx.2.1)]
  · -- excess nonnegative away from the source
    intro v _ hvs
    rw [he v hvs]
    split_ifs with h1
    · exact le_of_lt h1.2
    · exact le_refl 0
  · -- height of the source
    rw [hheight s, if_pos rfl, hV]
  · -- validity of the labeling
    intro a b haV hbV hres
    have hresd : pp.residual a b = capMat pp.graph a b - pp.flow a b := rfl
    rw [hresd, hg, hf a b] at hres
    rw [hheight a, hheight b]
    by_cases has : a = s
    · rw [if_pos has]
      by_cases hbs : b = s
      · rw [if_pos hbs]
        omega
      · exfalso
        rw [hV] at hbV
        unfold initFlow at hres
        by_cases hc : 0 < capMat graph s b
        · rw [if_pos ⟨has, hbs, List.mem_range.mpr hbV, hc⟩, has] at hres
          omega
        · rw [if_neg (fun hx => hc hx.2.2.2),
            if_neg (fun hx => hbs hx.1),
            if_neg (fun hx => hbs hx.2.1), has] at hres
          omega
    · rw [if_neg has]
      split_ifs <;> omega
  · -- height bound
    intro u _
    rw [hheight u, hV]
    split_ifs <;> omega
  · -- queue membership
    intro w hw
    rw [hq] at hw
    rw [List.mem_filter] at hw
    obtain ⟨hwP, hpred⟩ := hw
    rw [decide_eq_true_eq] at hpred
    obtain ⟨hws, hwt, hc⟩ := hpred
    refine ⟨by rw [hV]; exact List.mem_range.mp hwP, hws, hwt, ?_⟩
    rw [he w hws, if_pos ⟨hwP, hc⟩]
    exact hc
  · -- queue has no duplicates
    rw [hq]
    exact List.Nodup.filter _ (List.nodup_range _)

theorem capMat_nonneg (graph : List (List Int))
    (hcap : ∀ row ∈ graph, ∀ x ∈ row, 0 ≤ x) :
    ∀ u v, 0 ≤ capMat graph u v := by
  intro u v
  unfold capMat
  rcases h1 : graph[u]? with _ | row
  · simp [List.getD_eq_getElem?_getD, h1]
  · rcases h2 : row[v]? with _ | x
    · simp [List.getD_eq_getElem?_getD, h1, h2]
    · simp only [List.getD_eq_getElem?_getD, h1, h2, Option.getD_some]
      exact hcap row (mem_of_getElemOpt h1) x (mem_of_getElemOpt h2)

/-- End-to-end run of `PreflowPush.solve`, parameterized by an
auxiliary invariant `Sup` closed under the run's operations: with
fuels one above the initial measure, the solver returns the final
excess of the sink from a state satisfying both invariants with an
empty queue. -/
theorem preflowSolve_spec (graph : List (List Int)) (s t : Nat)
    (hs : s < graph.length)
    (hcap : ∀ u v, 0 ≤ capMat graph u v)
    (Sup : PP → Prop)
    (hSupPush : ∀ pp u v, PPValid s t pp → Sup pp →
      v < pp.V → 0 < pp.excess u → 0 < pp.residual u v →
      pp.height u = pp.height v + 1 → u < pp.V → u ≠ s →
      u ∉ pp.active_nodes → Sup (pp.push u v))
    (hSupQ : ∀ pp q, Sup pp → Sup { pp with active_nodes := q })
    (hSupRel : ∀ pp u, Sup pp → Sup (pp.relabel u))
    (hSupInit : ∀ pp, InitMid graph s t (List.range graph.length) pp →
      Sup pp) :
    ∃ (fuel dfuel : Nat) (pp' : PP),
      preflowSolve fuel dfuel graph s t = some (pp'.excess t) ∧
      PPValid s t pp' ∧ Sup pp' ∧ pp'.active_nodes = [] ∧
      pp'.V = graph.length ∧ pp'.graph = graph := by
  have hmid := initFromSource_spec graph s t (List.range graph.length) []
    { graph := graph, V := graph.length, flow := fun _ _ => 0,
      height := upd (fun _ => 0) s graph.length,
      excess := fun _ => 0, active_nodes := [] }
    (initMid_zero graph s t) (List.nodup_range _)
  have SV1 := init_valid graph s t hs hcap _ hmid
  have hS1 := hSupInit _ hmid
  obtain ⟨pp', hrun, E1, E2, E3, E4, E5, E6, E7⟩ :=
    ppMainLoop_spec s t Sup hSupPush hSupQ hSupRel
      (ppM (initFromSource s t (List.range graph.length)
        { graph := graph, V := graph.length, flow := fun _ _ => 0,
          height := upd (fun _ => 0) s graph.length,
          excess := fun _ => 0, active_nodes := [] }) + 1)
      (ppM (initFromSource s t (List.range graph.length)
        { graph := graph, V := graph.length, flow := fun _ _ => 0,
          height := upd (fun _ => 0) s graph.length,
          excess := fun _ => 0, active_nodes := [] }) + 1)
      _ SV1 hS1 (by omega) (by omega)
  refine ⟨ppM (initFromSource s t (List.range graph.length)
      { graph := graph, V := graph.length, flow := fun _ _ => 0,
        height := upd (fun _ => 0) s graph.length,
        excess := fun _ => 0, active_nodes := [] }) + 1,
    ppM (initFromSource s t (List.range graph.length)
      { graph := graph, V := graph.length, flow := fun _ _ => 0,
        height := upd (fun _ => 0) s graph.length,
        excess := fun _ => 0, active_nodes := [] }) + 1,
    pp', ?_, E1, E2, E3, ?_, ?_⟩
  · show (ppMainLoop s t
        (ppM (initFromSource s t (List.range graph.length)
          { graph := graph, V := graph.length, flow := fun _ _ => 0,
            height := upd (fun _ => 0) s graph.length,
            excess := fun _ => 0, active_nodes := [] }) + 1)
        (ppM (initFromSource s t (List.range graph.length)
          { graph := graph, V := graph.length, flow := fun _ _ => 0,
            height := upd (fun _ => 0) s graph.length,
            excess := fun _ => 0, active_nodes := [] }) + 1)
        (initFromSource s t (List.range graph.length)
          { graph := graph, V := graph.length, flow := fun _ _ => 0,
            height := upd (fun _ => 0) s graph.length,
            excess := fun _ => 0, active_nodes := [] })).map
      (fun pp => pp.excess t) = some (pp'.excess t)
    rw [hrun]
    rfl
  · rw [E4]
    exact SV1.hVlen.trans (congrArg List.length hmid.1)
  · rw [E5]
    exact hmid.1

/-- **C3**: on every well-formed capacity matrix (in-range distinct
source and sink, nonnegative entries), `PreflowPush.solve` terminates
(the fueled embedding succeeds for explicit fuels); pushes never
change heights; every relabel performed by a run — on an invariant
state whose node holds excess and has no admissible edge — strictly
increases that node's height and no other; and no height of an
invariant state ever exceeds `2 * V - 1`. -/
theorem c3_preflow_push_terminates (graph : List (List Int)) (s t : Nat)
    (hs : s < graph.length) (ht : t < graph.length) (hst : s ≠ t)
    (hcap : ∀ row ∈ graph, ∀ x ∈ row, 0 ≤ x) :
    (∃ fuel dfuel r, preflowSolve fuel dfuel graph s t = some r) ∧
    (∀ (pp : PP) (u v : Nat), (pp.push u v).height = pp.height) ∧
    (∀ pp u, PPValid s t pp → u < pp.V → u ≠ s → 0 < pp.excess u →
      NoAdmissible pp u →
      pp.height u < (pp.relabel u).height u ∧
      ∀ w, w ≠ u → (pp.relabel u).height w = pp.height w) ∧
    (∀ pp u, PPValid s t pp → u < pp.V → pp.height u ≤ 2 * pp.V - 1) := by
  refine ⟨?_, fun _ _ _ => rfl, ?_, fun pp u SV huV => SV.hbound u huV⟩
  · obtain ⟨fuel, dfuel, pp', hrun, _⟩ :=
      preflowSolve_spec graph s t hs (capMat_nonneg graph hcap)
        (fun _ => True) (fun _ _ _ _ _ _ _ _ _ _ _ _ => trivial)
        (fun _ _ _ => trivial) (fun _ _ _ => trivial) (fun _ _ => trivial)
    exact ⟨fuel, dfuel, pp'.excess t, hrun⟩
  · intro pp u SV huV hus hexu hnoadm
    obtain ⟨_, _, _, _, _, _, R7, R8, _⟩ :=
      relabel_spec s t pp SV u huV hus hnoadm
        (low_neighbor_of_excess s t pp SV u huV hus hexu)
    exact ⟨R7, R8⟩

/-- **C3 witness**: the two-node instance with one capacity-4 edge
satisfies the hypotheses, and the theorem applies. -/
theorem c3_witness :
    ((0 : Nat) < [[(0 : Int), 4], [0, 0]].length) ∧
    ((1 : Nat) < [[(0 : Int), 4], [0, 0]].length) ∧
    ((0 : Nat) ≠ 1) ∧
    (∀ row ∈ [[(0 : Int), 4], [0, 0]], ∀ x ∈ row, 0 ≤ x) ∧
    ((∃ fuel dfuel r,
        preflowSolve fuel dfuel [[(0 : Int), 4], [0, 0]] 0 1 = some r) ∧
      (∀ (pp : PP) (u v : Nat), (pp.push u v).height = pp.height) ∧
      (∀ pp u, PPValid 0 1 pp → u < pp.V → u ≠ 0 → 0 < pp.excess u →
        NoAdmissible pp u →
        pp.height u < (pp.relabel u).height u ∧
        ∀ w, w ≠ u → (pp.relabel u).height w = pp.height w) ∧
      (∀ pp u, PPValid 0 1 pp → u < pp.V →
        pp.height u ≤ 2 * pp.V - 1)) :=
  ⟨by decide, by decide, by decide, by decide,
    c3_preflow_push_terminates [[(0 : Int), 4], [0, 0]] 0 1
      (by decide) (by decide) (by decide) (by decide)⟩

/-! ### Disconnected sink: the preflow solver's support invariant -/

theorem ppSupp_queue (s : Nat) (R : Nat → Bool) (pp : PP) (q : List Nat)
    (h : PPSupp s R pp) : PPSupp s R { pp with active_nodes := q } := h

theorem ppSupp_relabel (s : Nat) (R : Nat → Bool) (pp : PP) (u : Nat)
    (h : PPSupp s R pp) : PPSupp s R (pp.relabel u) := by
  unfold PP.relabel
  cases hE : ((List.range pp.V).filter
      (fun v => 0 < pp.residual u v)).map pp.height with
  | nil => exact h
  | cons x rest => exact h

theorem ppSupp_push (graph : List (List Int)) (s t : Nat) (R : Nat → Bool)
    (hRclosed : ∀ u v, u < graph.length → v < graph.length →
      R u = true → 0 < capMat graph u v → R v = true)
    (pp : PP) (u v : Nat) (SV : PPValid s t pp)
    (hg : pp.graph = graph) (hSupp : PPSupp s R pp)
    (hvV : v < pp.V) (hexu : 0 < pp.excess u)
    (hres : 0 < pp.residual u v) (hh : pp.height u = pp.height v + 1)
    (huV : u < pp.V) (hus : u ≠ s) :
    PPSupp s R (pp.push u v) := by
  have huv : u ≠ v := by
    intro he
    rw [he] at hh
    omega
  have hRu : R u = true := by
    by_contra hRu
    have := hSupp.2 u huV hus (Bool.eq_false_iff.mpr hRu)
    omega
  have hRv : R v = true := by
    by_contra hRv
    have hf0 : pp.flow u v = 0 := hSupp.1 u v huV hvV
      (fun hc => hRv hc.2)
    have hresd : pp.residual u v = capMat pp.graph u v - pp.flow u v := rfl
    rw [hresd, hf0] at hres
    rw [hg] at hres
    have := hRclosed u v (by rw [← hg, ← SV.hVlen]; exact huV)
      (by rw [← hg, ← SV.hVlen]; exact hvV) hRu (by omega)
    rw [this] at hRv
    exact hRv rfl
  set δ := min (pp.excess u) (pp.residual u v) with hδ
  have hfl_off : ∀ a b, ¬(a = u ∧ b = v) → ¬(a = v ∧ b = u) →
      (pp.push u v).flow a b = pp.flow a b := by
    intro a b h1 h2
    show (if a = v ∧ b = u then
        (if a = u ∧ b = v then pp.flow a b + δ else pp.flow a b) - δ
      else (if a = u ∧ b = v then pp.flow a b + δ else pp.flow a b))
      = pp.flow a b
    rw [if_neg h2, if_neg h1]
  have hex_off : ∀ w, w ≠ u → w ≠ v →
      (pp.push u v).excess w = pp.excess w := by
    intro w hw1 hw2
    show upd (upd pp.excess u (pp.excess u - δ)) v
        ((upd pp.excess u (pp.excess u - δ)) v + δ) w = pp.excess w
    rw [upd_other _ _ _ _ hw2, upd_other _ _ _ _ hw1]
  constructor
  · intro a b haV hbV hnR
    have h1 : ¬(a = u ∧ b = v) := by
      rintro ⟨rfl, rfl⟩
      exact hnR ⟨hRu, hRv⟩
    have h2 : ¬(a = v ∧ b = u) := by
      rintro ⟨rfl, rfl⟩
      exact hnR ⟨hRv, hRu⟩
    rw [hfl_off a b h1 h2]
    exact hSupp.1 a b haV hbV hnR
  · intro w hwV hws hwR
    have hw1 : w ≠ u := by
      intro he
      rw [he] at hwR
      rw [hwR] at hRu
      exact Bool.noConfusion hRu
    have hw2 : w ≠ v := by
      intro he
      rw [he] at hwR
      rw [hwR] at hRv
      exact Bool.noConfusion hRv
    rw [hex_off w hw1 hw2]
    exact hSupp.2 w hwV hws hwR

theorem ppSupp_init (graph : List (List Int)) (s t : Nat) (R : Nat → Bool)
    (hRs : R s = true)
    (hRclosed : ∀ u v, u < graph.length → v < graph.length →
      R u = true → 0 < capMat graph u v → R v = true)
    (hs : s < graph.length) (pp : PP)
    (hmid : InitMid graph s t (List.range graph.length) pp) :
    PPSupp s R pp := by
  obtain ⟨hg, hV, _, hf, he, _⟩ := hmid
  constructor
  · intro a b haV hbV hnR
    rw [hf a b]
    unfold initFlow
    rw [hV] at haV hbV
    split_ifs with h1 h2 h3
    · exfalso
      obtain ⟨ha, _, hbP, hc⟩ := h1
      rw [ha] at hnR
      exact hnR ⟨hRs, hRclosed s b hs (List.mem_range.mp hbP) hRs hc⟩
    · exfalso
      obtain ⟨hb, _, haP, hc⟩ := h2
      rw [hb] at hnR
      exact hnR ⟨hRclosed s a hs (List.mem_range.mp haP) hRs hc, hRs⟩
    · exfalso
      obtain ⟨ha, hb, _, _⟩ := h3
      rw [ha, hb] at hnR
      exact hnR ⟨hRs, hRs⟩
    · rfl
  · intro w hwV hws hwR
    rw [he w hws]
    split_ifs with h1
    · exfalso
      obtain ⟨hwP, hc⟩ := h1
      rw [hRclosed s w hs (List.mem_range.mp hwP) hRs hc] at hwR
      exact Bool.noConfusion hwR
    · exact le_refl 0

theorem relabel_graph_eq (pp : PP) (u : Nat) :
    (pp.relabel u).graph = pp.graph := by
  unfold PP.relabel
  cases hE : ((List.range pp.V).filter
      (fun v => 0 < pp.residual u v)).map pp.height with
  | nil => rfl
  | cons x rest => rfl

/-- With a capacity-closed source set avoiding the sink, the preflow
solver terminates and reports 0. -/
theorem preflow_disconnected (graph : List (List Int)) (s t : Nat)
    (hs : s < graph.length) (ht : t < graph.length) (hst : s ≠ t)
    (hcap : ∀ row ∈ graph, ∀ x ∈ row, 0 ≤ x) (R : Nat → Bool)
    (hRs : R s = true) (hRt : R t = false)
    (hRclosed : ∀ u v, u < graph.length → v < graph.length →
      R u = true → 0 < capMat graph u v → R v = true) :
    ∃ fuel dfuel, preflowSolve fuel dfuel graph s t = some 0 := by
  obtain ⟨fuel, dfuel, pp', hrun, SV', hSup', _, hV', hg'⟩ :=
    preflowSolve_spec graph s t hs (capMat_nonneg graph hcap)
      (fun pp => pp.graph = graph ∧ PPSupp s R pp)
      (fun pp u v SV hSup hvV hexu hres hh huV hus _ =>
        ⟨hSup.1, ppSupp_push graph s t R hRclosed pp u v SV hSup.1
          hSup.2 hvV hexu hres hh huV hus⟩)
      (fun pp q hSup => ⟨hSup.1, ppSupp_queue s R pp q hSup.2⟩)
      (fun pp u hSup => ⟨(relabel_graph_eq pp u).trans hSup.1,
        ppSupp_relabel s R pp u hSup.2⟩)
      (fun pp hmid => ⟨hmid.1, ppSupp_init graph s t R hRs hRclosed
        hs pp hmid⟩)
  have htV : t < pp'.V := by
    rw [hV']
    exact ht
  have hts : t ≠ s := fun he => hst he.symm
  have hle := hSup'.2.2 t htV hts hRt
  have hge := SV'.exnn t htV hts
  have : pp'.excess t = 0 := le_antisymm hle hge
  rw [this] at hrun
  exact ⟨fuel, dfuel, hrun⟩

/-! ### Disconnected sink: the DFS Ford-Fulkerson solver -/

theorem netOut_zero_fun (edges : List EdgeTuple) (w : Nat) :
    netOut edges (fun _ => 0) w = 0 := by
  unfold netOut
  apply Finset.sum_eq_zero
  intro i _
  split_ifs <;> ring

theorem cutCap_zero_of_closed (edges : List EdgeTuple) (R : Nat → Bool)
    (hcap : ∀ e ∈ edges, 0 ≤ e.2.2)
    (hRclosed : ∀ i, i < edges.length → R (edgeU edges i) = true →
      0 < edgeC edges i → R (edgeV edges i) = true) :
    cutCap edges R = 0 := by
  unfold cutCap
  apply Finset.sum_eq_zero
  intro i hi
  have hi' := Finset.mem_range.mp hi
  split_ifs with h1
  · by_cases hc : 0 < edgeC edges i
    · rw [hRclosed i hi' h1.1 hc] at h1
      exact absurd h1.2 (by decide)
    · have : 0 ≤ edgeC edges i := by
        rw [edgeC_eq hi']
        exact hcap _ (List.getElem_mem hi')
      omega
  · rfl

/-- With a capacity-closed source set avoiding the sink, the DFS
Ford-Fulkerson solver terminates with value 0. -/
theorem ff_disconnected (n : Nat) (edges : List EdgeTuple) (s t : Nat)
    (hs : s < n) (hst : s ≠ t)
    (hend : ∀ e ∈ edges, e.1 < n ∧ e.2.1 < n)
    (hcap : ∀ e ∈ edges, 0 ≤ e.2.2) (R : Nat → Bool)
    (hRs : R s = true) (hRt : R t = false)
    (hRclosed : ∀ i, i < edges.length → R (edgeU edges i) = true →
      0 < edgeC edges i → R (edgeV edges i) = true) :
    fordFulkMaxFlow ((capSumInt edges).toNat + 1) n edges s t
      = some ((0 : Int) : WithTop Int) := by
  obtain ⟨v, res2, vis2, hrun, hP2, hcons2, hval2, hvs, hvt, hclosed⟩ :=
    ffLoop_spec n edges s t hs hst hend hcap ((capSumInt edges).toNat + 1)
      (buildResidualGraph n edges) 0 (build_paired n edges hcap)
      (fun w _ _ => netOut_build_zero n edges w)
      (netOut_build_zero n edges s) (by omega)
  have hfeas2 := paired_flow_bounds edges res2 hP2 hcap
  have hvle : v ≤ 0 := by
    have hle := flow_value_le_cutCap n edges s t (flowAt edges res2) R
      hend hfeas2 hcons2 hs hRs hRt
    rw [hval2, cutCap_zero_of_closed edges R hcap hRclosed] at hle
    exact hle
  have hvge : 0 ≤ v := by
    have hcut2 : cutCap edges vis2 = v := by
      rw [← closed_value_eq_cutCap n edges s t res2 vis2 hP2 hclosed hend
        hcons2 hs hvs hvt]
      exact hval2
    have hle := flow_value_le_cutCap n edges s t (fun _ => 0) vis2
      hend (fun i hi => ⟨le_refl 0, by
        rw [edgeC_eq hi]
        exact hcap _ (List.getElem_mem hi)⟩)
      (fun w _ _ => netOut_zero_fun edges w) hs hvs hvt
    rw [netOut_zero_fun edges s, hcut2] at hle
    exact hle
  have : v = 0 := le_antisymm hvle hvge
  rw [this] at hrun
  show ffLoop ((capSumInt edges).toNat + 1) n s t
    (buildResidualGraph n edges) 0 = some ((0 : Int) : WithTop Int)
  exact hrun


/-! ### Disconnected sink: the capacity-scaling solver -/

/-- Over the zero flow at threshold at least 1, the rebuilt residual
lists hold only forward entries, each coming from an input edge of
capacity at least the threshold. -/
theorem residual_zero_entries (edges : List EdgeTuple) (delta : Int)
    (hdelta : 1 ≤ delta) (x : Nat) :
    ∀ en ∈ build_residual_graph edges (fun _ => 0) delta x,
      ∃ e ∈ edges, e.1 = x ∧ en.1 = e.2.1 ∧ delta ≤ e.2.2 := by
  intro en hen
  unfold build_residual_graph at hen
  rcases List.mem_append.mp hen with h | h
  · rcases List.mem_filterMap.mp h with ⟨e, he, hfe⟩
    split at hfe
    · next hc =>
      have heq := Option.some.inj hfe
      refine ⟨e, he, hc.1, ?_, ?_⟩
      · rw [← heq]
      · have h2 := hc.2
        have hb : (fun _ : Nat × Nat => (0 : Int)) (e.1, e.2.1) = 0 := rfl
        simp only [ge_iff_le] at h2
        try rw [hb] at h2
        omega
    · exact Option.noConfusion hfe
  · rcases List.mem_filterMap.mp h with ⟨e, he, hfe⟩
    split at hfe
    · next hc =>
      exfalso
      have h2 := hc.2
      have hb : (fun _ : Nat × Nat => (0 : Int)) (e.1, e.2.1) = 0 := rfl
      simp only [ge_iff_le] at h2
      try rw [hb] at h2
      omega
    · exact Option.noConfusion hfe

/-- Unfolding equation for one entry of the BFS exploration fold. -/
theorem bfsExplore_cons (node : Nat) (en : SEntry) (entries : List SEntry)
    (vis : List Nat) (pinfo : Nat → Option (Nat × Bool)) (queue : List Nat) :
    bfsExplore node (en :: entries) (vis, pinfo, queue)
      = bfsExplore node entries
          (if en.1 ∈ vis then (vis, pinfo, queue)
           else (en.1 :: vis, upd pinfo en.1 (some (node, en.2.2)),
             queue ++ [en.1])) := rfl

/-- One BFS exploration step whose entries all lead to `R`-nodes that
are candidates (edge heads): the visited list stays inside `R` and
duplicate-free, queued nodes stay visited, and the
queue-length-plus-unvisited-candidates measure does not grow. -/
theorem bfsExplore_spec (edges : List EdgeTuple) (R : Nat → Bool)
    (node : Nat) :
    ∀ (entries : List SEntry) (vis : List Nat)
      (pinfo : Nat → Option (Nat × Bool)) (queue : List Nat),
      (∀ en ∈ entries, R en.1 = true ∧ en.1 ∈ edges.map (fun e => e.2.1)) →
      (∀ x ∈ vis, R x = true) → vis.Nodup →
      (∀ x ∈ queue, x ∈ vis) →
      (∀ x ∈ (bfsExplore node entries (vis, pinfo, queue)).1, R x = true) ∧
      (bfsExplore node entries (vis, pinfo, queue)).1.Nodup ∧
      (∀ x ∈ (bfsExplore node entries (vis, pinfo, queue)).2.2,
        x ∈ (bfsExplore node entries (vis, pinfo, queue)).1) ∧
      (bfsExplore node entries (vis, pinfo, queue)).2.2.length
          + (edges.map (fun e => e.2.1)).countP
              (fun c => decide (c ∉ (bfsExplore node entries
                (vis, pinfo, queue)).1))
        ≤ queue.length + (edges.map (fun e => e.2.1)).countP
            (fun c => decide (c ∉ vis)) := by
  intro entries
  induction entries with
  | nil =>
    intro vis pinfo queue _ hvisR hvisnd hqv
    exact ⟨hvisR, hvisnd, hqv, le_refl _⟩
  | cons en entries ih =>
    intro vis pinfo queue hen hvisR hvisnd hqv
    have hen1 := hen en (List.mem_cons_self en entries)
    have hen' : ∀ e ∈ entries, R e.1 = true
        ∧ e.1 ∈ edges.map (fun e => e.2.1) :=
      fun e he => hen e (List.mem_cons_of_mem en he)
    rw [bfsExplore_cons]
    by_cases hmem : en.1 ∈ vis
    · rw [if_pos hmem]
      exact ih vis pinfo queue hen' hvisR hvisnd hqv
    · rw [if_neg hmem]
      have hvisR' : ∀ x ∈ en.1 :: vis, R x = true := by
        intro x hx
        rcases List.mem_cons.mp hx with rfl | hx'
        · exact hen1.1
        · exact hvisR x hx'
      have hvisnd' : (en.1 :: vis).Nodup :=
        List.nodup_cons.mpr ⟨hmem, hvisnd⟩
      have hqv' : ∀ x ∈ queue ++ [en.1], x ∈ en.1 :: vis := by
        intro x hx
        rcases List.mem_append.mp hx with h | h
        · exact List.mem_cons_of_mem _ (hqv x h)
        · rw [List.mem_singleton.mp h]
          exact List.mem_cons_self _ _
      obtain ⟨C1, C2, C3, C4⟩ := ih (en.1 :: vis)
        (upd pinfo en.1 (some (node, en.2.2))) (queue ++ [en.1])
        hen' hvisR' hvisnd' hqv'
      refine ⟨C1, C2, C3, ?_⟩
      have hcount : (edges.map (fun e => e.2.1)).countP
            (fun c => decide (c ∉ en.1 :: vis))
          < (edges.map (fun e => e.2.1)).countP
            (fun c => decide (c ∉ vis)) := by
        refine countP_lt_of_mem (edges.map (fun e => e.2.1)) en.1 hen1.2
          ?_ ?_ ?_
        · simp only [decide_eq_true_eq]
          exact hmem
        · simp
        · intro a ha
          simp only [decide_eq_true_eq] at ha ⊢
          exact fun h => ha (List.mem_cons_of_mem _ h)
      have hlen : (queue ++ [en.1]).length = queue.length + 1 := by simp
      omega

/-- Unfolding equation for one BFS queue iteration. -/
theorem bfs_find_path_cons (residual : Nat → List SEntry) (s t : Nat)
    (rfuel fuel : Nat) (node : Nat) (rest : List Nat)
    (pinfo : Nat → Option (Nat × Bool)) (vis : List Nat) :
    bfs_find_path residual s t rfuel (fuel + 1) (node :: rest) pinfo vis
      = if node = t then
          (match reconstructPath pinfo s rfuel t [] with
            | none => none
            | some p => some (some p))
        else
          bfs_find_path residual s t rfuel fuel
            (bfsExplore node (residual node) (vis, pinfo, rest)).2.2
            (bfsExplore node (residual node) (vis, pinfo, rest)).2.1
            (bfsExplore node (residual node) (vis, pinfo, rest)).1 := rfl

/-- Over the zero flow, with every node of the queue visited, all
visited nodes inside `R` (source side of the cut, closed under
sufficient-capacity edges and missing `t`), and enough fuel for the
queue-plus-unvisited-candidates measure, the BFS reports that no
augmenting path exists. -/
theorem bfs_no_path (edges : List EdgeTuple) (s t : Nat) (delta : Int)
    (hdelta : 1 ≤ delta) (R : Nat → Bool) (hRt : R t = false)
    (hRclosed : ∀ e ∈ edges, R e.1 = true → delta ≤ e.2.2 →
      R e.2.1 = true) (rfuel : Nat) :
    ∀ (fuel : Nat) (queue : List Nat) (pinfo : Nat → Option (Nat × Bool))
      (vis : List Nat),
      (∀ x ∈ queue, x ∈ vis) → (∀ x ∈ vis, R x = true) → vis.Nodup →
      queue.length + (edges.map (fun e => e.2.1)).countP
          (fun c => decide (c ∉ vis)) < fuel →
      bfs_find_path (build_residual_graph edges (fun _ => 0) delta) s t
        rfuel fuel queue pinfo vis = some none := by
  intro fuel
  induction fuel with
  | zero =>
    intro queue pinfo vis _ _ _ hm
    exact absurd hm (Nat.not_lt_zero _)
  | succ fuel ih =>
    intro queue pinfo vis hqv hvR hnd hm
    match queue, hqv, hm with
    | [], _, _ => rfl
    | node :: rest, hqv, hm =>
      have hRnode : R node = true := hvR node (hqv node (List.mem_cons_self node rest))
      have hnt : node ≠ t := by
        intro h
        rw [h, hRt] at hRnode
        exact Bool.noConfusion hRnode
      rw [bfs_find_path_cons, if_neg hnt]
      have hent : ∀ en ∈ build_residual_graph edges (fun _ => 0) delta node,
          R en.1 = true ∧ en.1 ∈ edges.map (fun e => e.2.1) := by
        intro en hen
        obtain ⟨e, he, heq1, heq2, hdle⟩ :=
          residual_zero_entries edges delta hdelta node en hen
        constructor
        · rw [heq2]
          exact hRclosed e he (by rw [heq1]; exact hRnode) hdle
        · rw [heq2]
          exact List.mem_map.mpr ⟨e, he, rfl⟩
      obtain ⟨C1, C2, C3, C4⟩ := bfsExplore_spec edges R node
        (build_residual_graph edges (fun _ => 0) delta node) vis pinfo rest
        hent hvR hnd (fun x hx => hqv x (List.mem_cons_of_mem _ hx))
      refine ih _ _ _ C3 C1 C2 ?_
      have hlc : (node :: rest).length = rest.length + 1 := rfl
      omega

/-- One phase of the scaling solver over the zero flow returns the zero
flow unchanged when the sink is cut off above the threshold. -/
theorem scalingPhaseLoop_disconnected (edges : List EdgeTuple) (s t : Nat)
    (delta : Int) (hdelta : 1 ≤ delta) (R : Nat → Bool)
    (hRs : R s = true) (hRt : R t = false)
    (hRclosed : ∀ e ∈ edges, R e.1 = true → 0 < e.2.2 → R e.2.1 = true)
    (fuel : Nat) :
    scalingPhaseLoop edges s t delta (fuel + 1) (fun _ => 0)
      = some (fun _ : Nat × Nat => (0 : Int)) := by
  have hb : bfs_find_path (build_residual_graph edges (fun _ => 0) delta)
      s t (2 * edges.length + 2) (2 * edges.length + 2) [s] (fun _ => none)
      [s] = some none := by
    refine bfs_no_path edges s t delta hdelta R hRt
      (fun e he hR hc => hRclosed e he hR (by omega))
      (2 * edges.length + 2) (2 * edges.length + 2) [s] (fun _ => none) [s]
      ?_ ?_ ?_ ?_
    · intro x hx
      exact hx
    · intro x hx
      rw [List.mem_singleton.mp hx]
      exact hRs
    · exact List.nodup_singleton s
    · have hle : (edges.map (fun e => e.2.1)).countP
          (fun c => decide (c ∉ [s])) ≤ edges.length := by
        calc (edges.map (fun e => e.2.1)).countP (fun c => decide (c ∉ [s]))
            ≤ (edges.map (fun e => e.2.1)).length := List.countP_le_length _
          _ = edges.length := List.length_map _ _
      have hql : ([s] : List Nat).length = 1 := rfl
      omega
  show (match bfs_find_path (build_residual_graph edges (fun _ => 0) delta)
      s t (2 * edges.length + 2) (2 * edges.length + 2) [s] (fun _ => none)
      [s] with
    | none => none
    | some none => some (fun _ : Nat × Nat => (0 : Int))
    | some (some path) =>
      scalingPhaseLoop edges s t delta fuel
        (augment_flow (fun _ => 0) path
          ((compute_bottleneck path
            (build_residual_graph edges (fun _ => 0) delta)).untop' 0)))
    = some (fun _ : Nat × Nat => (0 : Int))
  rw [hb]

/-- The outer phase loop of the scaling solver returns the zero flow
when the sink is cut off, for any phase fuel exceeding the starting
threshold. -/
theorem scalingPhases_disconnected (edges : List EdgeTuple) (s t : Nat)
    (R : Nat → Bool) (hRs : R s = true) (hRt : R t = false)
    (hRclosed : ∀ e ∈ edges, R e.1 = true → 0 < e.2.2 → R e.2.1 = true)
    (fuel : Nat) :
    ∀ (pfuel delta : Nat), delta < pfuel →
      scalingPhases edges s t (fuel + 1) pfuel delta (fun _ => 0)
        = some (fun _ : Nat × Nat => (0 : Int)) := by
  intro pfuel
  induction pfuel with
  | zero =>
    intro delta h
    exact absurd h (Nat.not_lt_zero _)
  | succ pfuel ih =>
    intro delta hlt
    show (if 1 ≤ delta then
        match scalingPhaseLoop edges s t (delta : Int) (fuel + 1)
            (fun _ => 0) with
          | none => none
          | some flow' =>
            scalingPhases edges s t (fuel + 1) pfuel (delta / 2) flow'
      else some (fun _ : Nat × Nat => (0 : Int)))
      = some (fun _ : Nat × Nat => (0 : Int))
    by_cases h1 : 1 ≤ delta
    · rw [if_pos h1]
      have hd : (1 : Int) ≤ (delta : Int) := by exact_mod_cast h1
      rw [scalingPhaseLoop_disconnected edges s t (delta : Int) hd R hRs hRt
        hRclosed fuel]
      exact ih (delta / 2) (by omega)
    · rw [if_neg h1]

/-- The final edge sum of the scaling solver over the zero flow is 0. -/
theorem foldl_zero_flow (edges : List EdgeTuple) (s : Nat) :
    ∀ acc : Int,
      edges.foldl (fun acc e => if e.1 = s then
          acc + (fun _ : Nat × Nat => (0 : Int)) (e.1, e.2.1) else acc) acc
        = acc := by
  induction edges with
  | nil =>
    intro acc
    rfl
  | cons e es ih =>
    intro acc
    show es.foldl (fun acc e => if e.1 = s then
        acc + (fun _ : Nat × Nat => (0 : Int)) (e.1, e.2.1) else acc)
      (if e.1 = s then acc + (fun _ : Nat × Nat => (0 : Int)) (e.1, e.2.1)
        else acc) = acc
    by_cases h : e.1 = s
    · rw [if_pos h]
      have hz : acc + (fun _ : Nat × Nat => (0 : Int)) (e.1, e.2.1) = acc := by
        simp
      rw [hz]
      exact ih acc
    · rw [if_neg h]
      exact ih acc

/-- `max_flow_scaling` (at fuel one past the initial threshold) returns
0 whenever a capacity-closed node set separates `s` from `t`. -/
theorem scaling_disconnected (n : Nat) (edges : List EdgeTuple) (s t : Nat)
    (R : Nat → Bool) (hRs : R s = true) (hRt : R t = false)
    (hRclosed : ∀ e ∈ edges, R e.1 = true → 0 < e.2.2 → R e.2.1 = true) :
    max_flow_scaling (initialDelta (maxCapacityFromSource edges s) + 1)
      n edges s t = some 0 := by
  show (if maxCapacityFromSource edges s = 0 then some 0
    else match scalingPhases edges s t
        (initialDelta (maxCapacityFromSource edges s) + 1)
        (initialDelta (maxCapacityFromSource edges s) + 1)
        (initialDelta (maxCapacityFromSource edges s)) (fun _ => 0) with
      | none => none
      | some flow =>
        some (edges.foldl (fun acc e => if e.1 = s then
          acc + flow (e.1, e.2.1) else acc) 0)) = some 0
  by_cases hmc : maxCapacityFromSource edges s = 0
  · rw [if_pos hmc]
  · rw [if_neg hmc]
    rw [scalingPhases_disconnected edges s t R hRs hRt hRclosed
      (initialDelta (maxCapacityFromSource edges s))
      (initialDelta (maxCapacityFromSource edges s) + 1)
      (initialDelta (maxCapacityFromSource edges s)) (Nat.lt_succ_self _)]
    show some (edges.foldl (fun acc e => if e.1 = s then
      acc + (fun _ : Nat × Nat => (0 : Int)) (e.1, e.2.1) else acc) 0)
      = some 0
    rw [foldl_zero_flow edges s 0]

/-- C5: on every instance whose sink is separated from the source by a
node set `R` (containing the source, missing the sink, with no
positive-capacity edge leaving it — in particular the 4-node example
with edges {(s,1,10),(2,t,10)}), all three solvers terminate and return
the correct maximum flow 0: Ford-Fulkerson returns 0, the
capacity-scaling solver returns 0, and `PreflowPush.solve` reports only
the excess accumulated at the sink (0), not the excess stranded at
non-sink nodes. -/
theorem c5_disconnected_sink
    (n : Nat) (edges : List EdgeTuple) (graph : List (List Int)) (s t : Nat)
    (hs : s < n) (hst : s ≠ t)
    (hend : ∀ e ∈ edges, e.1 < n ∧ e.2.1 < n)
    (hcap : ∀ e ∈ edges, 0 ≤ e.2.2)
    (hsM : s < graph.length) (htM : t < graph.length)
    (hcapM : ∀ row ∈ graph, ∀ x ∈ row, 0 ≤ x)
    (R : Nat → Bool) (hRs : R s = true) (hRt : R t = false)
    (hRclosedE : ∀ i, i < edges.length → R (edgeU edges i) = true →
      0 < edgeC edges i → R (edgeV edges i) = true)
    (hRclosedM : ∀ u v, u < graph.length → v < graph.length →
      R u = true → 0 < capMat graph u v → R v = true) :
    fordFulkMaxFlow ((capSumInt edges).toNat + 1) n edges s t
        = some ((0 : Int) : WithTop Int)
    ∧ max_flow_scaling (initialDelta (maxCapacityFromSource edges s) + 1)
        n edges s t = some 0
    ∧ ∃ fuel dfuel, preflowSolve fuel dfuel graph s t = some 0 := by
  have hRmem : ∀ e ∈ edges, R e.1 = true → 0 < e.2.2 → R e.2.1 = true := by
    intro e he hR hc
    obtain ⟨i, hi, hget⟩ := List.mem_iff_getElem.mp he
    have hU : edgeU edges i = e.1 := by
      unfold edgeU
      rw [List.getD_eq_getElem?_getD, List.getElem?_eq_getElem hi,
        Option.getD_some, hget]
    have hV : edgeV edges i = e.2.1 := by
      unfold edgeV
      rw [List.getD_eq_getElem?_getD, List.getElem?_eq_getElem hi,
        Option.getD_some, hget]
    have hC : edgeC edges i = e.2.2 := by
      unfold edgeC
      rw [List.getD_eq_getElem?_getD, List.getElem?_eq_getElem hi,
        Option.getD_some, hget]
    have := hRclosedE i hi (by rw [hU]; exact hR) (by rw [hC]; exact hc)
    rw [hV] at this
    exact this
  exact ⟨ff_disconnected n edges s t hs hst hend hcap R hRs hRt hRclosedE,
    scaling_disconnected n edges s t R hRs hRt hRmem,
    preflow_disconnected graph s t hsM htM hst hcapM R hRs hRt hRclosedM⟩

/-- Witness for C5 at the claim's own example (4 nodes, s = 0, t = 3,
edges {(0,1,10),(2,3,10)}, cut set {0,1}). -/
theorem c5_witness :
    fordFulkMaxFlow
        ((capSumInt [((0 : Nat), (1 : Nat), (10 : Int)), (2, 3, 10)]).toNat + 1)
        4 [(0, 1, 10), (2, 3, 10)] 0 3 = some ((0 : Int) : WithTop Int)
    ∧ max_flow_scaling
        (initialDelta
          (maxCapacityFromSource [((0 : Nat), (1 : Nat), (10 : Int)), (2, 3, 10)] 0) + 1)
        4 [(0, 1, 10), (2, 3, 10)] 0 3 = some 0
    ∧ ∃ fuel dfuel, preflowSolve fuel dfuel
        [[0, 10, 0, 0], [0, 0, 0, 0], [0, 0, 0, 10], [0, 0, 0, 0]] 0 3
        = some 0 :=
  c5_disconnected_sink 4 [(0, 1, 10), (2, 3, 10)]
    [[0, 10, 0, 0], [0, 0, 0, 0], [0, 0, 0, 10], [0, 0, 0, 0]] 0 3
    (by decide) (by decide) (by decide) (by decide) (by decide) (by decide)
    (by decide)
    (fun w => decide (w = 0 ∨ w = 1)) (by decide) (by decide)
    (by
      intro i hi
      have hi2 : i < 2 := hi
      interval_cases i <;> decide)
    (by
      intro u v hu hv
      have hu4 : u < 4 := hu
      have hv4 : v < 4 := hv
      interval_cases u <;> interval_cases v <;> decide)
